import Mathlib

/-! Bipartite matching engine: shallow embedding and verification.

Embedding of `src/matchings/graph.cpp`, `src/matchings/util/is_bipartite.cpp`,
`src/matchings/util/matching.cpp` and the helper `matching_size` of
`src/matchings/test/matching_test.cpp`.

Conventions of the embedding.
* `std::vector<T>` is a `List T`; `v[i]` is `List.getD v i d` and `v[i] = x` is `List.set`.
  An access outside the vector is undefined behaviour in the source; here a read
  outside yields the default `d` and a write outside leaves the vector unchanged.
  Every statement below carries the range hypotheses under which no such access happens.
* Vertex ids stored in adjacency lists, queues and paths are `Nat`; entries of `mate` and
  `pred` are `Int`, because the source stores the sentinels `-1` and `-2` in them.
* `std::deque<int>` is a `List Nat`: `front`/`pop_front` is the head, `push_back` appends.
* `while` loops take a `fuel : Nat` and return `none` when it runs out; the theorems
  show that fuel `n` (resp. `n + 1` for the driver) always suffices.
-/

namespace Matchings

/-! ## Graph store (`graph.hpp`, `graph.cpp`) -/

/-- The class `Graph`: private `n`, `m`, public `part` and `adj`. -/
structure Graph where
  n : Nat
  m : Nat
  part : List Bool
  adj : List (List Nat)

/-- The expression `adj[u]`. -/
def Graph.nbrs (g : Graph) (u : Nat) : List Nat := g.adj.getD u []

/-- The constructor `Graph::Graph(int n)`: `n` empty neighbour lists, `m = 0`, empty `part`. -/
def Graph.create (n : Nat) : Graph :=
  { n := n, m := 0, part := [], adj := List.replicate n [] }

/-- The statement `adj[u].push_back(v)`. -/
def push_nbr (adj : List (List Nat)) (u v : Nat) : List (List Nat) :=
  adj.set u (adj.getD u [] ++ [v])

/-- The method `Graph::add_edge_unchecked`. -/
def Graph.add_edge_unchecked (g : Graph) (u v : Nat) : Graph :=
  { g with adj := push_nbr (push_nbr g.adj u v) v u, m := g.m + 1 }

/-- The method `Graph::add_edge`: the three assertions, then `add_edge_unchecked`.
`none` is the assertion fault. -/
def Graph.add_edge (g : Graph) (u v : Int) : Option Graph :=
  if 0 ≤ u ∧ u < g.n then
    if 0 ≤ v ∧ v < g.n then
      if u ≠ v then some (g.add_edge_unchecked u.toNat v.toNat) else none
    else none
  else none

/-- The factory `Graph::complete`. -/
def Graph.complete (n : Nat) : Graph :=
  (List.range n).foldl
    (fun res i => (List.range' (i + 1) (n - (i + 1))).foldl
      (fun res j => res.add_edge_unchecked i j) res)
    (Graph.create n)

/-- The factory `Graph::complete_bipartite`. -/
def Graph.complete_bipartite (n m : Nat) : Graph :=
  (List.range n).foldl
    (fun res i => (List.range' n m).foldl (fun res j => res.add_edge_unchecked i j) res)
    (Graph.create (n + m))

/-- The factory `Graph::path`: the loop bound `n - 1` is empty for `n = 0` as in the source. -/
def Graph.path (n : Nat) : Graph :=
  (List.range (n - 1)).foldl (fun res i => res.add_edge_unchecked i (i + 1)) (Graph.create n)

/-- The factory `Graph::cycle` (for `n = 0` the source indexes with `-1`; the statements about
`cycle` all assume `1 ≤ n`). -/
def Graph.cycle (n : Nat) : Graph :=
  (Graph.path n).add_edge_unchecked 0 (n - 1)

/-- The method `Graph::operator+`: disjoint union. -/
def Graph.union (g other : Graph) : Graph :=
  let res1 := (List.range g.n).foldl
    (fun res u => (g.nbrs u).foldl (fun res v => res.add_edge_unchecked u v) res)
    (Graph.create (g.n + other.n))
  (List.range other.n).foldl
    (fun res u => (other.nbrs u).foldl
      (fun res v => res.add_edge_unchecked (u + g.n) (v + g.n)) res)
    res1

/-! ## Bipartiteness oracle (`util/is_bipartite.cpp`) -/

/-- Local state of the colouring loop of `is_bipartite`. -/
structure ColourState where
  q : List Nat
  part : List Bool
  discovered : List Bool

/-- The loop `for (int w: adj[v])` of `is_bipartite`, run over the remaining neighbours. -/
def bip_visit (v : Nat) : List Nat → ColourState → ColourState
  | [], s => s
  | w :: ws, s =>
    if s.discovered.getD w false = false then
      bip_visit v ws
        { q := s.q ++ [w]
          part := s.part.set w (!(s.part.getD v false))
          discovered := s.discovered.set w true }
    else bip_visit v ws s

/-- The loop `while (!q.empty())` of `is_bipartite`. -/
def bip_bfs (adj : List (List Nat)) : Nat → ColourState → Option ColourState
  | _, ⟨[], part, disc⟩ => some ⟨[], part, disc⟩
  | 0, ⟨_ :: _, _, _⟩ => none
  | fuel + 1, ⟨v :: q, part, disc⟩ =>
    bip_bfs adj fuel (bip_visit v (adj.getD v []) ⟨q, part, disc⟩)

/-- The loop `for (int r = 0; r < n; r++)` of `is_bipartite`, run over the remaining roots.
The queue is local to one iteration, so only `part` and `discovered` are threaded. -/
def bip_roots (adj : List (List Nat)) (fuel : Nat) :
    List Nat → List Bool × List Bool → Option (List Bool × List Bool)
  | [], pd => some pd
  | r :: rs, (part, disc) =>
    if disc.getD r false = false then
      match bip_bfs adj fuel ⟨[r], part.set r true, disc.set r true⟩ with
      | none => none
      | some s => bip_roots adj fuel rs (s.part, s.discovered)
    else bip_roots adj fuel rs (part, disc)

/-- The final double loop of `is_bipartite`: `false` as soon as an edge has equal labels. -/
def bip_check (adj : List (List Nat)) (part : List Bool) (n : Nat) : Bool :=
  (List.range n).all fun u =>
    (adj.getD u []).all fun v => part.getD u false != part.getD v false

/-- The method `Graph::is_bipartite`: the returned boolean and the graph with its `part`
overwritten. -/
def Graph.is_bipartite (fuel : Nat) (g : Graph) : Option (Bool × Graph) :=
  match bip_roots g.adj fuel (List.range g.n)
      (List.replicate g.n false, List.replicate g.n false) with
  | none => none
  | some (part, _) => some (bip_check g.adj part g.n, { g with part := part })

/-! ## Augmenting path finder and driver (`util/matching.cpp`) -/

/-- Local state of the search loop of `augmenting_bipartite`. -/
structure SearchState where
  q : List Nat
  pred : List Int

/-- The loop `for (int w: g.adj[v])` of `augmenting_bipartite`. -/
def ab_visit (mate : List Int) (v : Nat) : List Nat → SearchState → SearchState
  | [], s => s
  | w :: ws, s =>
    if mate.getD v 0 ≠ (w : Int) ∧ s.pred.getD w 0 = -2 then
      ab_visit mate v ws { q := s.q ++ [w], pred := s.pred.set w (v : Int) }
    else ab_visit mate v ws s

/-- One iteration of the body of `while (!q.empty())` of `augmenting_bipartite`, after
`v` has been popped and `s.q` is the rest of the queue. -/
def ab_step (g : Graph) (mate : List Int) (v : Nat) (s : SearchState) : SearchState :=
  if g.part.getD v false = true then
    ab_visit mate v (g.nbrs v) s
  else if mate.getD v 0 ≠ -1 then
    let w := (mate.getD v 0).toNat
    if s.pred.getD w 0 = -2 then
      { q := s.q ++ [w], pred := s.pred.set w (v : Int) }
    else s
  else s

/-- The loop `while (!q.empty())` of `augmenting_bipartite`; returns the final `pred`. -/
def ab_bfs (g : Graph) (mate : List Int) : Nat → SearchState → Option (List Int)
  | _, ⟨[], pred⟩ => some pred
  | 0, ⟨_ :: _, _⟩ => none
  | fuel + 1, ⟨v :: q, pred⟩ => ab_bfs g mate fuel (ab_step g mate v ⟨q, pred⟩)

/-- The loop `while (cur != -1) { res.push_back(cur); cur = pred[cur]; }`. -/
def ab_walk (pred : List Int) : Nat → Int → List Nat → Option (List Nat)
  | 0, cur, res => if cur = -1 then some res else none
  | fuel + 1, cur, res =>
    if cur = -1 then some res
    else ab_walk pred fuel (pred.getD cur.toNat 0) (res ++ [cur.toNat])

/-- The final loop `for (int i = 0; i < n; i++)` of `augmenting_bipartite`, run over the
remaining indices: at the first discovered exposed vertex with `part = false` the path is
rebuilt into `res`, `res` is reversed and `true` is returned. -/
def ab_scan (g : Graph) (mate : List Int) (pred : List Int) (fuel : Nat) (res : List Nat) :
    List Nat → Option (Bool × List Nat)
  | [] => some (false, res)
  | i :: rest =>
    if pred.getD i 0 > -2 ∧ g.part.getD i false = false ∧ mate.getD i 0 = -1 then
      match ab_walk pred fuel (i : Int) res with
      | none => none
      | some r => some (true, r.reverse)
    else ab_scan g mate pred fuel res rest

/-- The initial queue of `augmenting_bipartite`: all `i < n` with `part[i]` and
`mate[i] == -1`, in increasing order. -/
def ab_roots (g : Graph) (mate : List Int) : List Nat :=
  (List.range g.n).filter fun i => g.part.getD i false && decide (mate.getD i 0 = -1)

/-- The initial `pred`: `-2` everywhere, then `-1` at every element of the queue. -/
def ab_init_pred (n : Nat) (q : List Nat) : List Int :=
  q.foldl (fun pred x => pred.set x (-1)) (List.replicate n (-2))

/-- The function `augmenting_bipartite`: the returned boolean and the final `res`. -/
def augmenting_bipartite (fuel : Nat) (g : Graph) (mate : List Int) (res : List Nat) :
    Option (Bool × List Nat) :=
  match ab_bfs g mate fuel ⟨ab_roots g mate, ab_init_pred g.n (ab_roots g mate)⟩ with
  | none => none
  | some pred => ab_scan g mate pred fuel res (List.range g.n)

/-- The function `augmenting_non_bipartite`. -/
def augmenting_non_bipartite (_g : Graph) (_mate : List Int) (res : List Nat) :
    Option (Bool × List Nat) :=
  some (false, res)

/-- The loop of `augment`: `mate[path[i]] = path[i+1]; mate[path[i+1]] = path[i]`. -/
def augment_pairs : List Nat → List Int → List Int
  | u :: v :: rest, mate => augment_pairs rest ((mate.set u (v : Int)).set v (u : Int))
  | _, mate => mate

/-- The function `augment`; `none` is the fault of `assert(k % 2 == 0)`. -/
def augment (path : List Nat) (mate : List Int) : Option (List Int) :=
  if path.length % 2 = 0 then some (augment_pairs path mate) else none

/-- The loop `while (aug(*this, mate, a_path)) { augment(a_path, mate); a_path.clear(); }`. -/
def mcm_loop (aug : List Int → List Nat → Option (Bool × List Nat)) :
    Nat → List Int → List Nat → Option (List Int)
  | 0, _, _ => none
  | fuel + 1, mate, a_path =>
    match aug mate a_path with
    | none => none
    | some (false, _) => some mate
    | some (true, p) =>
      match augment p mate with
      | none => none
      | some mate1 => mcm_loop aug fuel mate1 []

/-- The method `Graph::maximum_cardinality_matching`: the graph (with `part` written by
`is_bipartite`) and the final `mate`. -/
def Graph.maximum_cardinality_matching (fuel : Nat) (g : Graph) (mate : List Int) :
    Option (Graph × List Int) :=
  match g.is_bipartite fuel with
  | none => none
  | some (b, g1) =>
    match mcm_loop
        (if b = true then augmenting_bipartite fuel g1 else augmenting_non_bipartite g1)
        fuel mate [] with
    | none => none
    | some mate1 => some (g1, mate1)

/-- The test helper `matching_size`; `none` is the fault of `assert(res % 2 == 0)`. -/
def matching_size (mate : List Int) : Option Nat :=
  if (mate.countP fun x => decide (x ≠ -1)) % 2 = 0
  then some ((mate.countP fun x => decide (x ≠ -1)) / 2) else none

/-! ## Specification vocabulary -/

def Graph.InRange (g : Graph) : Prop :=
  g.adj.length = g.n ∧ ∀ l ∈ g.adj, ∀ w ∈ l, w < g.n

instance (g : Graph) : Decidable g.InRange := by
  unfold Graph.InRange; infer_instance

def Graph.Symmetric (g : Graph) : Prop :=
  ∀ u < g.n, ∀ v ∈ g.nbrs u, u ∈ g.nbrs v

instance (g : Graph) : Decidable g.Symmetric := by
  unfold Graph.Symmetric; infer_instance

def ProperColouring (g : Graph) (c : Nat → Bool) : Prop :=
  ∀ u < g.n, ∀ v ∈ g.nbrs u, c u ≠ c v

instance (g : Graph) (c : Nat → Bool) : Decidable (ProperColouring g c) := by
  unfold ProperColouring; infer_instance

def Graph.Bipartite (g : Graph) : Prop := ∃ c : Nat → Bool, ProperColouring g c

/-- Invariant of the colouring loops with respect to a reference proper colouring `c`;
`opn` lists the vertices that are in the queue or being expanded. -/
structure ColInv (g : Graph) (c : Nat → Bool) (part disc : List Bool) (opn : List Nat) :
    Prop where
  plen : part.length = g.n
  dlen : disc.length = g.n
  proper : ∀ u < g.n, disc.getD u false = true → ∀ v ∈ g.nbrs u, disc.getD v false = true →
    part.getD u false ≠ part.getD v false
  closed : ∀ u < g.n, disc.getD u false = true → u ∉ opn →
    ∀ v ∈ g.nbrs u, disc.getD v false = true
  flip : ∀ u ∈ opn, ∀ v ∈ opn, (part.getD u false != c u) = (part.getD v false != c v)
  opn_disc : ∀ u ∈ opn, u < g.n ∧ disc.getD u false = true

/-- The `part` field has one entry per vertex and no edge joins two equal labels. -/
def Graph.PartProper (g : Graph) : Prop :=
  g.part.length = g.n ∧ ∀ u < g.n, ∀ v ∈ g.nbrs u, g.part.getD u false ≠ g.part.getD v false

instance (g : Graph) : Decidable g.PartProper := by
  unfold Graph.PartProper; infer_instance

/-- The vector `mate` encodes a matching of `g`: one entry per vertex, and every entry is
`-1` or a neighbour `w` whose own entry points back. -/
def ValidMatching (g : Graph) (mate : List Int) : Prop :=
  mate.length = g.n ∧
  ∀ v < g.n, mate.getD v 0 = -1 ∨
    ∃ w < g.n, mate.getD v 0 = (w : Int) ∧ w ∈ g.nbrs v ∧ mate.getD w 0 = (v : Int)

instance (g : Graph) (mate : List Int) : Decidable (ValidMatching g mate) := by
  unfold ValidMatching; infer_instance

/-- Invariant of the search loop of `augmenting_bipartite`; `d` is the depth of each
discovered vertex in the search forest and `opn` lists the vertices that are in the queue
or being expanded (head first). -/
structure SInv (g : Graph) (mate : List Int) (pred : List Int) (d : Nat → Nat)
    (opn : List Nat) : Prop where
  plen : pred.length = g.n
  rng : ∀ w < g.n, pred.getD w 0 = -2 ∨ pred.getD w 0 = -1 ∨
    ∃ v < g.n, pred.getD w 0 = (v : Int)
  root : ∀ w < g.n, pred.getD w 0 = -1 →
    g.part.getD w false = true ∧ mate.getD w 0 = -1 ∧ d w = 0
  tree : ∀ w < g.n, ∀ v : Nat, pred.getD w 0 = (v : Int) →
    pred.getD v 0 ≠ -2 ∧ d w = d v + 1 ∧ w ∈ g.nbrs v ∧
    (g.part.getD v false = true → mate.getD v 0 ≠ (w : Int)) ∧
    (g.part.getD v false = false → mate.getD v 0 = (w : Int))
  exposed : ∀ w < g.n, g.part.getD w false = true → mate.getD w 0 = -1 → pred.getD w 0 ≠ -2
  opn_disc : ∀ u ∈ opn, u < g.n ∧ pred.getD u 0 ≠ -2
  closedX : ∀ u < g.n, pred.getD u 0 ≠ -2 → u ∉ opn → g.part.getD u false = true →
    ∀ w ∈ g.nbrs u, mate.getD u 0 ≠ (w : Int) → pred.getD w 0 ≠ -2 ∧ d w ≤ d u + 1
  closedY : ∀ u < g.n, pred.getD u 0 ≠ -2 → u ∉ opn → g.part.getD u false = false →
    ∀ w : Nat, mate.getD u 0 = (w : Int) → pred.getD w 0 ≠ -2 ∧ d w ≤ d u + 1
  sorted : opn.Pairwise (fun a b => d a ≤ d b)
  band : ∀ a ∈ opn, ∀ b ∈ opn, d a ≤ d b + 1
  closed_le : ∀ u < g.n, pred.getD u 0 ≠ -2 → u ∉ opn → ∀ a ∈ opn, d u ≤ d a

/-- An augmenting path of `g` with respect to `mate` and the labelling `g.part`: pairwise
distinct vertices, even length at least 2, from an exposed vertex labelled `true` to an
exposed vertex labelled `false`, consecutive vertices adjacent, the edges at even positions
unmatched and the edges at odd positions matched. -/
def IsAugmentingPath (g : Graph) (mate : List Int) (p : List Nat) : Prop :=
  p.Nodup ∧ 2 ≤ p.length ∧ p.length % 2 = 0 ∧ (∀ v ∈ p, v < g.n) ∧
  (g.part.getD (p.getD 0 0) false = true ∧ mate.getD (p.getD 0 0) 0 = -1) ∧
  (g.part.getD (p.getD (p.length - 1) 0) false = false ∧
    mate.getD (p.getD (p.length - 1) 0) 0 = -1) ∧
  (∀ i < p.length, i + 1 < p.length → p.getD (i + 1) 0 ∈ g.nbrs (p.getD i 0)) ∧
  (∀ i < p.length, 2 * i + 1 < p.length →
    mate.getD (p.getD (2 * i) 0) 0 ≠ (p.getD (2 * i + 1) 0 : Int)) ∧
  (∀ i < p.length, 2 * i + 2 < p.length →
    mate.getD (p.getD (2 * i + 1) 0) 0 = (p.getD (2 * i + 2) 0 : Int))

instance (g : Graph) (mate : List Int) (p : List Nat) : Decidable (IsAugmentingPath g mate p) := by
  unfold IsAugmentingPath; infer_instance

/-- The set of matched vertices of a mate vector. -/
def matchedSet (mate : List Int) : Finset Nat :=
  (Finset.range mate.length).filter fun v => mate.getD v 0 ≠ -1

/-- The finite set of ordered pairs `M` is a matching of `g`: every pair is an edge of `g`,
and two different pairs have no endpoint in common. -/
def IsMatchingOf (g : Graph) (M : Finset (Nat × Nat)) : Prop :=
  (∀ e ∈ M, e.1 < g.n ∧ e.2 ∈ g.nbrs e.1) ∧
  ∀ e1 ∈ M, ∀ e2 ∈ M, e1 ≠ e2 →
    e1.1 ≠ e2.1 ∧ e1.1 ≠ e2.2 ∧ e1.2 ≠ e2.1 ∧ e1.2 ≠ e2.2

instance (g : Graph) (M : Finset (Nat × Nat)) : Decidable (IsMatchingOf g M) := by
  unfold IsMatchingOf; infer_instance

/-- The matched vertices labelled `true` by `c`. -/
def matchedX (n : Nat) (c : Nat → Bool) (mate : List Int) : Finset Nat :=
  (Finset.range n).filter fun v => c v = true ∧ mate.getD v 0 ≠ -1

/-- The graph `g` has `N` vertices and `y` occurs in the neighbour list of `x` exactly when
`R x y`. -/
structure EdgesAre (g : Graph) (N : Nat) (R : Nat → Nat → Prop) : Prop where
  n_eq : g.n = N
  len : g.adj.length = N
  mem : ∀ x y, y ∈ g.nbrs x ↔ R x y

/-- The matching `{0,1}, {2,3}, ...` of `k` edges. -/
def pairsMatching (k : Nat) : Finset (Nat × Nat) :=
  (Finset.range k).image fun i => (2 * i, 2 * i + 1)

/-- The matching `{0, n}, {1, n+1}, ...` of `k` edges between `[0, n)` and `[n, n + k)`. -/
def crossMatching (n k : Nat) : Finset (Nat × Nat) :=
  (Finset.range k).image fun i => (i, n + i)

/-- A finite sequence of `add_edge` calls, all of which succeed; `none` as soon as one of them
faults. -/
def Graph.add_edges (g : Graph) : List (Int × Int) → Option Graph
  | [] => some g
  | e :: es =>
    match g.add_edge e.1 e.2 with
    | none => none
    | some g1 => g1.add_edges es

/-- A mate vector that is a matching on its own index range: every entry is `-1` or another
index whose entry points back. -/
def MateSymmetric (mate : List Int) : Prop :=
  ∀ v < mate.length, mate.getD v 0 = -1 ∨
    ∃ w < mate.length, mate.getD v 0 = (w : Int) ∧ w ≠ v ∧ mate.getD w 0 = (v : Int)

instance (mate : List Int) : Decidable (MateSymmetric mate) := by
  unfold MateSymmetric; infer_instance

/-- An augmenting path `v0, ..., v_{2k-1}` with respect to `mate` alone: pairwise distinct
indices of `mate`, even length at least 2, both ends exposed, the pairs `(v_{2i}, v_{2i+1})`
unmatched and the pairs `(v_{2i+1}, v_{2i+2})` matched. -/
def IsAlternatingPath (mate : List Int) (p : List Nat) : Prop :=
  p.Nodup ∧ 2 ≤ p.length ∧ p.length % 2 = 0 ∧ (∀ v ∈ p, v < mate.length) ∧
  mate.getD (p.getD 0 0) 0 = -1 ∧ mate.getD (p.getD (p.length - 1) 0) 0 = -1 ∧
  (∀ i < p.length, 2 * i + 1 < p.length →
    mate.getD (p.getD (2 * i) 0) 0 ≠ (p.getD (2 * i + 1) 0 : Int)) ∧
  (∀ i < p.length, 2 * i + 2 < p.length →
    mate.getD (p.getD (2 * i + 1) 0) 0 = (p.getD (2 * i + 2) 0 : Int))

instance (mate : List Int) (p : List Nat) : Decidable (IsAlternatingPath mate p) := by
  unfold IsAlternatingPath; infer_instance

/-- The loop-free complete graph on `n` vertices in which `r` alone is labelled `true`; it
turns statements about graph matchings into statements about bare mate vectors. -/
def cliqueAt (n r : Nat) : Graph :=
  { n := n, m := 0, part := (List.range n).map fun v => decide (v = r),
    adj := (List.range n).map fun v => (List.range n).filter fun w => decide (w ≠ v) }

/-- The search loop of `augmenting_bipartite` instrumented with the sequence of dequeued
vertices: same iterations as `ab_bfs`, returning that sequence next to the final `pred`. -/
def ab_bfs_order (g : Graph) (mate : List Int) : Nat → SearchState → Option (List Nat × List Int)
  | _, ⟨[], pred⟩ => some ([], pred)
  | 0, ⟨_ :: _, _⟩ => none
  | fuel + 1, ⟨v :: q, pred⟩ =>
    match ab_bfs_order g mate fuel (ab_step g mate v ⟨q, pred⟩) with
    | none => none
    | some r => some (v :: r.1, r.2)

/-- Invariant of the search loop on index-safe input (no assumption on the labelling or on
`mate` being a matching): `pred` holds `-2`, `-1` or an earlier discovered vertex one level
up, and the queue holds discovered vertices. -/
structure WInv (g : Graph) (pred : List Int) (d : Nat → Nat) (q : List Nat) : Prop where
  plen : pred.length = g.n
  rng : ∀ w < g.n, pred.getD w 0 = -2 ∨ pred.getD w 0 = -1 ∨
    ∃ v < g.n, pred.getD w 0 = (v : Int)
  root : ∀ w < g.n, pred.getD w 0 = -1 → d w = 0
  tree : ∀ w < g.n, ∀ v : Nat, pred.getD w 0 = (v : Int) →
    pred.getD v 0 ≠ -2 ∧ d w = d v + 1
  queue : ∀ u ∈ q, u < g.n ∧ pred.getD u 0 ≠ -2

/-! ## Verification -/

/-! ### Termination of the colouring loops -/

theorem getD_set_eq {α : Type} (l : List α) (i : Nat) (a d : α) (h : i < l.length) :
    (l.set i a).getD i d = a := by
  simp [List.getD_eq_getElem?_getD, List.getElem?_set, h]

theorem getD_set_ne {α : Type} (l : List α) (i j : Nat) (a d : α) (h : i ≠ j) :
    (l.set i a).getD j d = l.getD j d := by
  simp [List.getD_eq_getElem?_getD, List.getElem?_set, h]

theorem getD_replicate {α : Type} (n i : Nat) (a : α) : (List.replicate n a).getD i a = a := by
  simp [List.getD_eq_getElem?_getD, List.getElem?_replicate]
  split <;> simp

theorem Graph.nbrs_lt {g : Graph} (hr : g.InRange) {u w : Nat} (h : w ∈ g.nbrs u) : w < g.n := by
  unfold Graph.nbrs at h
  by_cases hu : u < g.adj.length
  · rw [List.getD_eq_getElem _ _ hu] at h
    exact hr.2 _ (List.getElem_mem hu) w h
  · rw [List.getD_eq_default _ _ (by omega)] at h
    simp at h

theorem count_false_set (l : List Bool) (w : Nat) (hw : w < l.length)
    (h : l.getD w false = false) : (l.set w true).count false + 1 = l.count false := by
  induction l generalizing w with
  | nil => simp at hw
  | cons a t ih =>
    cases w with
    | zero =>
      simp at h
      subst h
      simp
    | succ k =>
      simp at hw h
      have := ih k hw (by simpa using h)
      simp [List.count_cons]
      omega

theorem bip_visit_measure (g : Graph) (v : Nat) :
    ∀ (ws : List Nat) (s : ColourState), (∀ w ∈ ws, w < g.n) →
      s.part.length = g.n → s.discovered.length = g.n →
      (bip_visit v ws s).part.length = g.n ∧ (bip_visit v ws s).discovered.length = g.n ∧
      (bip_visit v ws s).q.length + (bip_visit v ws s).discovered.count false
        = s.q.length + s.discovered.count false := by
  intro ws
  induction ws with
  | nil => intro s _ hp hd; exact ⟨hp, hd, rfl⟩
  | cons w ws ih =>
    intro s hws hp hd
    have hw : w < g.n := hws w (List.mem_cons_self _ _)
    have hrest : ∀ x ∈ ws, x < g.n := fun x hx => hws x (List.mem_cons_of_mem _ hx)
    unfold bip_visit
    split
    · rename_i hdw
      have := ih { q := s.q ++ [w], part := s.part.set w (!(s.part.getD v false)),
                   discovered := s.discovered.set w true } hrest (by simp [hp]) (by simp [hd])
      refine ⟨this.1, this.2.1, ?_⟩
      rw [this.2.2]
      have hc := count_false_set s.discovered w (by omega) hdw
      simp only [List.length_append, List.length_singleton]
      omega
    · exact ih s hrest hp hd

theorem bip_bfs_total (g : Graph) (hr : g.InRange) :
    ∀ (fuel : Nat) (s : ColourState), s.part.length = g.n → s.discovered.length = g.n →
      s.q.length + s.discovered.count false ≤ fuel →
      ∃ s1, bip_bfs g.adj fuel s = some s1 := by
  intro fuel
  induction fuel with
  | zero =>
    intro s hp hd hm
    obtain ⟨q, part, disc⟩ := s
    cases q with
    | nil => exact ⟨_, rfl⟩
    | cons v q => simp at hm
  | succ fuel ih =>
    intro s hp hd hm
    obtain ⟨q, part, disc⟩ := s
    cases q with
    | nil => exact ⟨_, rfl⟩
    | cons v q =>
      have hv := bip_visit_measure g v (g.adj.getD v []) ⟨q, part, disc⟩
        (fun w hw => Graph.nbrs_lt hr hw) hp hd
      simp only [bip_bfs]
      apply ih _ hv.1 hv.2.1
      rw [hv.2.2]
      simp at hm ⊢
      omega

/-- Induction principle for the colouring loop: a property kept by every iteration holds of
the state the loop returns. -/
theorem bip_bfs_induct (adj : List (List Nat)) (P : ColourState → Prop)
    (hstep : ∀ v q part disc, P ⟨v :: q, part, disc⟩ →
      P (bip_visit v (adj.getD v []) ⟨q, part, disc⟩)) :
    ∀ (fuel : Nat) (s s1 : ColourState), bip_bfs adj fuel s = some s1 → P s → P s1 ∧ s1.q = [] := by
  intro fuel
  induction fuel with
  | zero =>
    intro s s1 h hP
    obtain ⟨q, part, disc⟩ := s
    cases q with
    | nil => simp [bip_bfs] at h; subst h; exact ⟨hP, rfl⟩
    | cons v q => simp [bip_bfs] at h
  | succ fuel ih =>
    intro s s1 h hP
    obtain ⟨q, part, disc⟩ := s
    cases q with
    | nil => simp [bip_bfs] at h; subst h; exact ⟨hP, rfl⟩
    | cons v q =>
      simp only [bip_bfs] at h
      exact ih _ _ h (hstep v q part disc hP)

theorem bip_bfs_lengths (g : Graph) (hr : g.InRange) (fuel : Nat) (s s1 : ColourState)
    (h : bip_bfs g.adj fuel s = some s1) (hp : s.part.length = g.n)
    (hd : s.discovered.length = g.n) :
    s1.part.length = g.n ∧ s1.discovered.length = g.n := by
  have := bip_bfs_induct g.adj (fun t => t.part.length = g.n ∧ t.discovered.length = g.n)
    (fun v q part disc hP =>
      let hv := bip_visit_measure g v (g.adj.getD v []) ⟨q, part, disc⟩
        (fun w hw => Graph.nbrs_lt hr hw) hP.1 hP.2
      ⟨hv.1, hv.2.1⟩) fuel s s1 h ⟨hp, hd⟩
  exact this.1

theorem bip_roots_total (g : Graph) (hr : g.InRange) (fuel : Nat) (hf : g.n ≤ fuel) :
    ∀ (rs : List Nat) (pd : List Bool × List Bool), (∀ r ∈ rs, r < g.n) →
      pd.1.length = g.n → pd.2.length = g.n →
      ∃ pd1, bip_roots g.adj fuel rs pd = some pd1 ∧ pd1.1.length = g.n ∧ pd1.2.length = g.n := by
  intro rs
  induction rs with
  | nil => intro pd _ hp hd; exact ⟨pd, rfl, hp, hd⟩
  | cons r rs ih =>
    intro pd hrs hp hd
    obtain ⟨part, disc⟩ := pd
    have hrn : r < g.n := hrs r (List.mem_cons_self _ _)
    have hrest : ∀ x ∈ rs, x < g.n := fun x hx => hrs x (List.mem_cons_of_mem _ hx)
    simp only [bip_roots]
    split
    · rename_i hdr
      have hc := count_false_set disc r (by simp at hd; omega) hdr
      have hle : disc.count false ≤ disc.length := List.count_le_length _ _
      simp at hp hd
      obtain ⟨s1, hs1⟩ := bip_bfs_total g hr fuel ⟨[r], part.set r true, disc.set r true⟩
        (by simp [hp]) (by simp [hd]) (by simp; omega)
      have hl := bip_bfs_lengths g hr fuel _ s1 hs1 (by simp [hp]) (by simp [hd])
      rw [hs1]
      exact ih (s1.part, s1.discovered) hrest hl.1 hl.2
    · exact ih (part, disc) hrest hp hd

theorem bip_check_true (adj : List (List Nat)) (part : List Bool) (n : Nat) :
    bip_check adj part n = true ↔
      ∀ u < n, ∀ v ∈ adj.getD u [], part.getD u false ≠ part.getD v false := by
  simp [bip_check, List.all_eq_true]

/-! ### Correctness of the colouring loops -/

theorem bool_flip {px pv cx cv cw : Bool} (h1 : (px != cx) = (pv != cv)) (h2 : cx ≠ cw)
    (h3 : cv ≠ cw) : px = pv := by
  cases px <;> cases pv <;> cases cx <;> cases cv <;> cases cw <;> simp_all

theorem bool_flip_new {pv cv cw : Bool} (h3 : cv ≠ cw) : ((!pv) != cw) = (pv != cv) := by
  cases pv <;> cases cv <;> cases cw <;> simp_all

theorem Graph.nbrs_sym {g : Graph} (hr : g.InRange) (hs : g.Symmetric) {u v : Nat}
    (h : v ∈ g.nbrs u) : u ∈ g.nbrs v := by
  by_cases hu : u < g.n
  · exact hs u hu v h
  · unfold Graph.nbrs at h
    rw [List.getD_eq_default _ _ (by rw [hr.1]; omega)] at h
    simp at h

theorem colinv_discover {g : Graph} {c : Nat → Bool} (hr : g.InRange) (hs : g.Symmetric)
    (hc : ProperColouring g c) {part disc : List Bool} {v w : Nat} {q : List Nat}
    (inv : ColInv g c part disc (v :: q)) (hw : w ∈ g.nbrs v)
    (hd : disc.getD w false = false) :
    ColInv g c (part.set w (!(part.getD v false))) (disc.set w true) (v :: (q ++ [w])) := by
  have hwn : w < g.n := Graph.nbrs_lt hr hw
  have hv := inv.opn_disc v (List.mem_cons_self _ _)
  have hvw : v ≠ w := by rintro rfl; rw [hd] at hv; simp at hv
  have hcvw : c v ≠ c w := hc v hv.1 w hw
  have hwlp : w < part.length := by rw [inv.plen]; exact hwn
  have hwld : w < disc.length := by rw [inv.dlen]; exact hwn
  -- every discovered vertex adjacent to `w` is open and carries the label of `v`
  have key : ∀ x, disc.getD x false = true → w ∈ g.nbrs x →
      x ≠ w ∧ part.getD x false = part.getD v false := by
    intro x hx hwx
    have hxn : x < g.n := Graph.nbrs_lt hr (Graph.nbrs_sym hr hs hwx)
    have hxo : x ∈ v :: q := by
      by_contra hno
      have := inv.closed x hxn hx hno w hwx
      rw [hd] at this; simp at this
    refine ⟨by rintro rfl; rw [hd] at hx; simp at hx, ?_⟩
    exact bool_flip (inv.flip x hxo v (List.mem_cons_self _ _)) (hc x hxn w hwx) hcvw
  have hdisc : ∀ x, x ≠ w → (disc.set w true).getD x false = true → disc.getD x false = true := by
    intro x hxw hx
    rwa [getD_set_ne _ _ _ _ _ (Ne.symm hxw)] at hx
  refine ⟨by simp [inv.plen], by simp [inv.dlen], ?_, ?_, ?_, ?_⟩
  · intro u hu hdu x hx hdx
    by_cases huw : u = w
    · subst huw
      by_cases hxw : x = u
      · subst hxw
        exact absurd rfl (hc x hu x hx)
      · have k := key x (hdisc x hxw hdx) (Graph.nbrs_sym hr hs hx)
        rw [getD_set_eq _ _ _ _ hwlp, getD_set_ne _ _ _ _ _ (Ne.symm hxw), k.2]
        cases part.getD v false <;> simp
    · by_cases hxw : x = w
      · subst hxw
        have k := key u (hdisc u huw hdu) hx
        rw [getD_set_eq _ _ _ _ hwlp, getD_set_ne _ _ _ _ _ (Ne.symm huw), k.2]
        cases part.getD v false <;> simp
      · rw [getD_set_ne _ _ _ _ _ (Ne.symm huw), getD_set_ne _ _ _ _ _ (Ne.symm hxw)]
        exact inv.proper u hu (hdisc u huw hdu) x hx (hdisc x hxw hdx)
  · intro u hu hdu huo x hx
    have huw : u ≠ w := by
      rintro rfl; apply huo; simp
    have huo1 : u ∉ v :: q := by
      intro h; apply huo
      rcases List.mem_cons.1 h with h | h
      · simp [h]
      · simp [h]
    have := inv.closed u hu (hdisc u huw hdu) huo1 x hx
    by_cases hxw : x = w
    · subst hxw; exact getD_set_eq _ _ _ _ hwld
    · rw [getD_set_ne _ _ _ _ _ (Ne.symm hxw)]; exact this
  · have hold : ∀ u ∈ v :: q, (part.set w (!(part.getD v false))).getD u false = part.getD u false := by
      intro u hu
      have := inv.opn_disc u hu
      have huw : u ≠ w := by rintro rfl; rw [hd] at this; simp at this
      exact getD_set_ne _ _ _ _ _ (Ne.symm huw)
    have hnew : ((part.set w (!(part.getD v false))).getD w false != c w)
        = (part.getD v false != c v) := by
      rw [getD_set_eq _ _ _ _ hwlp]; exact bool_flip_new hcvw
    have hall : ∀ u ∈ v :: (q ++ [w]),
        ((part.set w (!(part.getD v false))).getD u false != c u) = (part.getD v false != c v) := by
      intro u hu
      have : u ∈ v :: q ∨ u = w := by
        rcases List.mem_cons.1 hu with h | h
        · left; simp [h]
        · rcases List.mem_append.1 h with h | h
          · left; simp [h]
          · right; simpa using h
      rcases this with h | h
      · rw [hold u h]; exact inv.flip u h v (List.mem_cons_self _ _)
      · subst h; exact hnew
    intro u hu x hx
    rw [hall u hu, hall x hx]
  · intro u hu
    have : u ∈ v :: q ∨ u = w := by
      rcases List.mem_cons.1 hu with h | h
      · left; simp [h]
      · rcases List.mem_append.1 h with h | h
        · left; simp [h]
        · right; simpa using h
    rcases this with h | h
    · have := inv.opn_disc u h
      have huw : u ≠ w := by rintro rfl; rw [hd] at this; simp at this
      exact ⟨this.1, by rw [getD_set_ne _ _ _ _ _ (Ne.symm huw)]; exact this.2⟩
    · subst h; exact ⟨hwn, getD_set_eq _ _ _ _ hwld⟩

theorem colinv_visit {g : Graph} {c : Nat → Bool} (hr : g.InRange) (hs : g.Symmetric)
    (hc : ProperColouring g c) (v : Nat) :
    ∀ (ws : List Nat) (s : ColourState), (∀ w ∈ ws, w ∈ g.nbrs v) →
      ColInv g c s.part s.discovered (v :: s.q) →
      ColInv g c (bip_visit v ws s).part (bip_visit v ws s).discovered
          (v :: (bip_visit v ws s).q) ∧
        (∀ x, s.discovered.getD x false = true →
          (bip_visit v ws s).discovered.getD x false = true) ∧
        (∀ w ∈ ws, (bip_visit v ws s).discovered.getD w false = true) := by
  intro ws
  induction ws with
  | nil => intro s _ inv; exact ⟨inv, fun _ h => h, by simp⟩
  | cons w ws ih =>
    intro s hws inv
    have hw : w ∈ g.nbrs v := hws w (List.mem_cons_self _ _)
    have hrest : ∀ x ∈ ws, x ∈ g.nbrs v := fun x hx => hws x (List.mem_cons_of_mem _ hx)
    unfold bip_visit
    split
    · rename_i hdw
      have inv1 := colinv_discover hr hs hc inv hw hdw
      obtain ⟨i1, i2, i3⟩ := ih ⟨s.q ++ [w], s.part.set w (!(s.part.getD v false)),
        s.discovered.set w true⟩ hrest inv1
      have hwl : w < s.discovered.length := by rw [inv.dlen]; exact Graph.nbrs_lt hr hw
      have hmono : ∀ x, s.discovered.getD x false = true →
          (s.discovered.set w true).getD x false = true := by
        intro x hx
        by_cases hxw : x = w
        · subst hxw; exact getD_set_eq _ _ _ _ hwl
        · rw [getD_set_ne _ _ _ _ _ (Ne.symm hxw)]; exact hx
      refine ⟨i1, fun x hx => i2 x (hmono x hx), ?_⟩
      intro x hx
      rcases List.mem_cons.1 hx with h | h
      · subst h; exact i2 x (getD_set_eq _ _ _ _ hwl)
      · exact i3 x h
    · rename_i hdw
      obtain ⟨i1, i2, i3⟩ := ih s hrest inv
      refine ⟨i1, i2, ?_⟩
      intro x hx
      rcases List.mem_cons.1 hx with h | h
      · subst h; apply i2; simpa using hdw
      · exact i3 x h

theorem colinv_close {g : Graph} {c : Nat → Bool} {part disc : List Bool} {v : Nat}
    {q : List Nat} (inv : ColInv g c part disc (v :: q))
    (hall : ∀ w ∈ g.nbrs v, disc.getD w false = true) : ColInv g c part disc q := by
  refine ⟨inv.plen, inv.dlen, inv.proper, ?_, ?_, ?_⟩
  · intro u hu hdu huo x hx
    by_cases huv : u = v
    · subst huv; exact hall x hx
    · exact inv.closed u hu hdu (by simp [huv, huo]) x hx
  · intro u hu x hx
    exact inv.flip u (List.mem_cons_of_mem _ hu) x (List.mem_cons_of_mem _ hx)
  · intro u hu
    exact inv.opn_disc u (List.mem_cons_of_mem _ hu)

theorem colinv_bfs {g : Graph} {c : Nat → Bool} (hr : g.InRange) (hs : g.Symmetric)
    (hc : ProperColouring g c) (fuel : Nat) (s s1 : ColourState)
    (h : bip_bfs g.adj fuel s = some s1) (inv : ColInv g c s.part s.discovered s.q) :
    ColInv g c s1.part s1.discovered [] ∧
      ∀ x, s.discovered.getD x false = true → s1.discovered.getD x false = true := by
  have := bip_bfs_induct g.adj
    (fun t => ColInv g c t.part t.discovered t.q ∧
      ∀ x, s.discovered.getD x false = true → t.discovered.getD x false = true)
    (fun v q part disc hP => by
      obtain ⟨i1, i2, i3⟩ := colinv_visit hr hs hc v (g.adj.getD v []) ⟨q, part, disc⟩
        (fun w hw => hw) hP.1
      exact ⟨colinv_close i1 i3, fun x hx => i2 x (hP.2 x hx)⟩)
    fuel s s1 h ⟨inv, fun _ hx => hx⟩
  obtain ⟨⟨i1, i2⟩, i3⟩ := this
  rw [i3] at i1
  exact ⟨i1, i2⟩

theorem colinv_root {g : Graph} {c : Nat → Bool} (hr : g.InRange) (hs : g.Symmetric)
    (hc : ProperColouring g c) {part disc : List Bool} {r : Nat} (hrn : r < g.n)
    (inv : ColInv g c part disc []) (hd : disc.getD r false = false) :
    ColInv g c (part.set r true) (disc.set r true) [r] := by
  have hrl : r < disc.length := by rw [inv.dlen]; exact hrn
  have hdisc : ∀ x, x ≠ r → (disc.set r true).getD x false = true → disc.getD x false = true := by
    intro x hxw hx
    rwa [getD_set_ne _ _ _ _ _ (Ne.symm hxw)] at hx
  have key : ∀ x, disc.getD x false = true → r ∈ g.nbrs x → False := by
    intro x hx hrx
    have hxn : x < g.n := Graph.nbrs_lt hr (Graph.nbrs_sym hr hs hrx)
    have := inv.closed x hxn hx (by simp) r hrx
    rw [hd] at this; simp at this
  refine ⟨by simp [inv.plen], by simp [inv.dlen], ?_, ?_, ?_, ?_⟩
  · intro u hu hdu x hx hdx
    by_cases hur : u = r
    · subst hur
      by_cases hxr : x = u
      · subst hxr; exact absurd rfl (hc x hu x hx)
      · exact (key x (hdisc x hxr hdx) (Graph.nbrs_sym hr hs hx)).elim
    · by_cases hxr : x = r
      · subst hxr; exact (key u (hdisc u hur hdu) hx).elim
      · rw [getD_set_ne _ _ _ _ _ (Ne.symm hur), getD_set_ne _ _ _ _ _ (Ne.symm hxr)]
        exact inv.proper u hu (hdisc u hur hdu) x hx (hdisc x hxr hdx)
  · intro u hu hdu huo x hx
    have hur : u ≠ r := by rintro rfl; apply huo; simp
    have := inv.closed u hu (hdisc u hur hdu) (by simp) x hx
    by_cases hxr : x = r
    · subst hxr; exact getD_set_eq _ _ _ _ hrl
    · rw [getD_set_ne _ _ _ _ _ (Ne.symm hxr)]; exact this
  · intro u hu x hx
    simp at hu hx
    rw [hu, hx]
  · intro u hu
    simp at hu
    subst hu
    exact ⟨hrn, getD_set_eq _ _ _ _ hrl⟩

theorem colinv_roots {g : Graph} {c : Nat → Bool} (hr : g.InRange) (hs : g.Symmetric)
    (hc : ProperColouring g c) (fuel : Nat) :
    ∀ (rs : List Nat) (pd pd1 : List Bool × List Bool), (∀ r ∈ rs, r < g.n) →
      bip_roots g.adj fuel rs pd = some pd1 → ColInv g c pd.1 pd.2 [] →
      ColInv g c pd1.1 pd1.2 [] ∧
        (∀ x, pd.2.getD x false = true → pd1.2.getD x false = true) ∧
        (∀ r ∈ rs, pd1.2.getD r false = true) := by
  intro rs
  induction rs with
  | nil =>
    intro pd pd1 _ h inv
    simp [bip_roots] at h
    subst h
    exact ⟨inv, fun _ h => h, by simp⟩
  | cons r rs ih =>
    intro pd pd1 hrs h inv
    obtain ⟨part, disc⟩ := pd
    have hrn : r < g.n := hrs r (List.mem_cons_self _ _)
    have hrest : ∀ x ∈ rs, x < g.n := fun x hx => hrs x (List.mem_cons_of_mem _ hx)
    simp only [bip_roots] at h
    split at h
    · rename_i hdr
      split at h
      · simp at h
      · rename_i s1 hs1
        have inv1 := colinv_root hr hs hc hrn inv hdr
        obtain ⟨j1, j2⟩ := colinv_bfs hr hs hc fuel _ s1 hs1 inv1
        obtain ⟨i1, i2, i3⟩ := ih (s1.part, s1.discovered) pd1 hrest h j1
        have hrl : r < disc.length := by rw [inv.dlen]; exact hrn
        have hmono : ∀ x, disc.getD x false = true → pd1.2.getD x false = true := by
          intro x hx
          apply i2; apply j2
          by_cases hxr : x = r
          · subst hxr; exact getD_set_eq _ _ _ _ hrl
          · show (disc.set r true).getD x false = true
            rw [getD_set_ne _ _ _ _ _ (Ne.symm hxr)]; exact hx
        refine ⟨i1, hmono, ?_⟩
        intro x hx
        rcases List.mem_cons.1 hx with h1 | h1
        · subst h1; apply i2; apply j2; exact getD_set_eq _ _ _ _ hrl
        · exact i3 x h1
    · rename_i hdr
      obtain ⟨i1, i2, i3⟩ := ih (part, disc) pd1 hrest h inv
      refine ⟨i1, i2, ?_⟩
      intro x hx
      rcases List.mem_cons.1 hx with h1 | h1
      · subst h1; apply i2; simpa using hdr
      · exact i3 x h1

theorem colinv_init (g : Graph) (c : Nat → Bool) :
    ColInv g c (List.replicate g.n false) (List.replicate g.n false) [] := by
  refine ⟨by simp, by simp, ?_, ?_, by simp, by simp⟩
  · intro u _ hdu
    rw [getD_replicate] at hdu; simp at hdu
  · intro u _ hdu
    rw [getD_replicate] at hdu; simp at hdu

/-- Outcome of `is_bipartite` on a well-formed graph: it returns, `part` has `n` entries,
the boolean is the result of the final edge scan, and a bipartite input passes the scan. -/
theorem is_bipartite_spec (g : Graph) (hr : g.InRange) (fuel : Nat) (hf : g.n ≤ fuel) :
    ∃ part, g.is_bipartite fuel = some (bip_check g.adj part g.n, { g with part := part }) ∧
      part.length = g.n ∧
      (g.Symmetric → g.Bipartite → bip_check g.adj part g.n = true) := by
  obtain ⟨pd1, h1, h2, h3⟩ := bip_roots_total g hr fuel hf (List.range g.n)
    (List.replicate g.n false, List.replicate g.n false)
    (fun r hr => List.mem_range.1 hr) (by simp) (by simp)
  obtain ⟨part, disc⟩ := pd1
  refine ⟨part, ?_, h2, ?_⟩
  · simp [Graph.is_bipartite, h1]
  · rintro hs ⟨c, hc⟩
    obtain ⟨i1, _, i3⟩ := colinv_roots hr hs hc fuel (List.range g.n) _ _
      (fun r hr => List.mem_range.1 hr) h1 (colinv_init g c)
    rw [bip_check_true]
    intro u hu v hv
    exact i1.proper u hu (i3 u (List.mem_range.2 hu)) v hv
      (i3 v (List.mem_range.2 (Graph.nbrs_lt hr hv)))

/-! ### Invariant of the alternating search -/

theorem mem_cons_append_single {v w u : Nat} {q : List Nat} :
    u ∈ v :: (q ++ [w]) ↔ u ∈ v :: q ∨ u = w := by
  simp [List.mem_cons, List.mem_append, or_assoc]

theorem sinv_discover {g : Graph} {mate pred : List Int} {d : Nat → Nat} {v w : Nat}
    {q : List Nat} (inv : SInv g mate pred d (v :: q)) (hwn : w < g.n)
    (hund : pred.getD w 0 = -2) (hadj : w ∈ g.nbrs v)
    (hX : g.part.getD v false = true → mate.getD v 0 ≠ (w : Int))
    (hY : g.part.getD v false = false → mate.getD v 0 = (w : Int)) :
    SInv g mate (pred.set w (v : Int)) (Function.update d w (d v + 1)) (v :: (q ++ [w])) := by
  have hv := inv.opn_disc v (List.mem_cons_self _ _)
  have hwl : w < pred.length := by rw [inv.plen]; exact hwn
  have hne : ∀ x, pred.getD x 0 ≠ -2 → x ≠ w := by
    rintro x hx rfl; exact hx hund
  have hvw : v ≠ w := hne v hv.2
  have hp : ∀ x, x ≠ w → (pred.set w (v : Int)).getD x 0 = pred.getD x 0 :=
    fun x hx => getD_set_ne _ _ _ _ _ (Ne.symm hx)
  have hpw : (pred.set w (v : Int)).getD w 0 = (v : Int) := getD_set_eq _ _ _ _ hwl
  have hd : ∀ x, x ≠ w → Function.update d w (d v + 1) x = d x :=
    fun x hx => Function.update_noteq hx _ _
  have hdw : Function.update d w (d v + 1) w = d v + 1 := Function.update_same _ _ _
  have hmono : ∀ x, pred.getD x 0 ≠ -2 → (pred.set w (v : Int)).getD x 0 ≠ -2 := by
    intro x hx; rw [hp x (hne x hx)]; exact hx
  have hback : ∀ x, x ≠ w → (pred.set w (v : Int)).getD x 0 ≠ -2 → pred.getD x 0 ≠ -2 := by
    intro x hxw hx; rwa [hp x hxw] at hx
  have hopn : ∀ a ∈ v :: q, a ≠ w := fun a ha => hne a (inv.opn_disc a ha).2
  refine ⟨by simp [inv.plen], ?_, ?_, ?_, ?_, ?_, ?_, ?_, ?_, ?_, ?_⟩
  · intro x hx
    by_cases hxw : x = w
    · subst hxw; right; right; exact ⟨v, hv.1, hpw⟩
    · rw [hp x hxw]; exact inv.rng x hx
  · intro x hx hx1
    by_cases hxw : x = w
    · subst hxw; rw [hpw] at hx1; omega
    · rw [hp x hxw] at hx1; rw [hd x hxw]; exact inv.root x hx hx1
  · intro x hx u hxu
    by_cases hxw : x = w
    · subst hxw
      rw [hpw] at hxu
      have huv : v = u := by exact_mod_cast hxu
      subst huv
      refine ⟨hmono v hv.2, ?_, hadj, hX, hY⟩
      rw [hdw, hd v hvw]
    · rw [hp x hxw] at hxu
      obtain ⟨t1, t2, t3, t4, t5⟩ := inv.tree x hx u hxu
      refine ⟨hmono u t1, ?_, t3, t4, t5⟩
      rw [hd x hxw, hd u (hne u t1)]; exact t2
  · intro x hx h1 h2
    exact hmono x (inv.exposed x hx h1 h2)
  · intro u hu
    rcases mem_cons_append_single.1 hu with h | h
    · have := inv.opn_disc u h
      exact ⟨this.1, hmono u this.2⟩
    · subst h; exact ⟨hwn, by rw [hpw]; omega⟩
  · intro u hu hdu huo hpu x hx hmx
    have huo1 : u ∉ v :: q ∧ u ≠ w := by
      constructor
      · intro h; exact huo (mem_cons_append_single.2 (Or.inl h))
      · intro h; exact huo (mem_cons_append_single.2 (Or.inr h))
    obtain ⟨c1, c2⟩ := inv.closedX u hu (hback u huo1.2 hdu) huo1.1 hpu x hx hmx
    refine ⟨hmono x c1, ?_⟩
    rw [hd x (hne x c1), hd u huo1.2]; exact c2
  · intro u hu hdu huo hpu x hmx
    have huo1 : u ∉ v :: q ∧ u ≠ w := by
      constructor
      · intro h; exact huo (mem_cons_append_single.2 (Or.inl h))
      · intro h; exact huo (mem_cons_append_single.2 (Or.inr h))
    obtain ⟨c1, c2⟩ := inv.closedY u hu (hback u huo1.2 hdu) huo1.1 hpu x hmx
    refine ⟨hmono x c1, ?_⟩
    rw [hd x (hne x c1), hd u huo1.2]; exact c2
  · have hs := inv.sorted
    rw [← List.cons_append, List.pairwise_append]
    refine ⟨?_, by simp, ?_⟩
    · exact hs.imp_of_mem (fun {a b} ha hb hab => by
        rw [hd a (hopn a ha), hd b (hopn b hb)]; exact hab)
    · intro a ha b hb
      simp at hb
      subst hb
      rw [hdw, hd a (hopn a ha)]
      exact inv.band a ha v (List.mem_cons_self _ _)
  · have hmin : ∀ b ∈ v :: q, d v ≤ d b := by
      intro b hb
      rcases List.mem_cons.1 hb with h | h
      · subst h; exact le_refl _
      · exact List.rel_of_pairwise_cons inv.sorted h
    intro a ha b hb
    rcases mem_cons_append_single.1 ha with h1 | h1 <;>
      rcases mem_cons_append_single.1 hb with h2 | h2
    · rw [hd a (hopn a h1), hd b (hopn b h2)]; exact inv.band a h1 b h2
    · subst h2
      rw [hd a (hopn a h1), hdw]
      have := inv.band a h1 v (List.mem_cons_self _ _)
      omega
    · subst h1
      rw [hdw, hd b (hopn b h2)]
      have := hmin b h2
      omega
    · subst h1; subst h2; omega
  · intro u hu hdu huo a ha
    have huo1 : u ∉ v :: q ∧ u ≠ w := by
      constructor
      · intro h; exact huo (mem_cons_append_single.2 (Or.inl h))
      · intro h; exact huo (mem_cons_append_single.2 (Or.inr h))
    have hu0 := hback u huo1.2 hdu
    rw [hd u huo1.2]
    rcases mem_cons_append_single.1 ha with h | h
    · rw [hd a (hopn a h)]; exact inv.closed_le u hu hu0 huo1.1 a h
    · subst h
      rw [hdw]
      have := inv.closed_le u hu hu0 huo1.1 v (List.mem_cons_self _ _)
      omega

theorem sinv_visit {g : Graph} {mate : List Int} (hr : g.InRange) (v : Nat) :
    ∀ (ws : List Nat) (s : SearchState) (d : Nat → Nat), (∀ w ∈ ws, w ∈ g.nbrs v) →
      g.part.getD v false = true →
      SInv g mate s.pred d (v :: s.q) →
      ∃ d1, SInv g mate (ab_visit mate v ws s).pred d1 (v :: (ab_visit mate v ws s).q) ∧
        (∀ x, s.pred.getD x 0 ≠ -2 →
          (ab_visit mate v ws s).pred.getD x 0 ≠ -2 ∧ d1 x = d x) ∧
        (∀ w ∈ ws, mate.getD v 0 ≠ (w : Int) →
          (ab_visit mate v ws s).pred.getD w 0 ≠ -2 ∧ d1 w ≤ d1 v + 1) := by
  intro ws
  induction ws with
  | nil => intro s d _ _ inv; exact ⟨d, inv, fun _ h => ⟨h, rfl⟩, by simp⟩
  | cons w ws ih =>
    intro s d hws hX inv
    have hw : w ∈ g.nbrs v := hws w (List.mem_cons_self _ _)
    have hwn : w < g.n := Graph.nbrs_lt hr hw
    have hrest : ∀ x ∈ ws, x ∈ g.nbrs v := fun x hx => hws x (List.mem_cons_of_mem _ hx)
    have hv := inv.opn_disc v (List.mem_cons_self _ _)
    unfold ab_visit
    split
    · rename_i hcond
      have inv1 := sinv_discover inv hwn hcond.2 hw (fun _ => hcond.1)
        (fun h => by rw [hX] at h; simp at h)
      obtain ⟨d1, i1, i2, i3⟩ := ih ⟨s.q ++ [w], s.pred.set w (v : Int)⟩ _ hrest hX inv1
      have hwl : w < s.pred.length := by rw [inv.plen]; exact hwn
      have hne : ∀ x, s.pred.getD x 0 ≠ -2 → x ≠ w := by
        rintro x hx rfl; exact hx hcond.2
      refine ⟨d1, i1, ?_, ?_⟩
      · intro x hx
        have hxw := hne x hx
        have := i2 x (by
          show (s.pred.set w (v : Int)).getD x 0 ≠ -2
          rw [getD_set_ne _ _ _ _ _ (Ne.symm hxw)]; exact hx)
        exact ⟨this.1, by rw [this.2, Function.update_noteq hxw]⟩
      · intro x hx hmx
        rcases List.mem_cons.1 hx with h | h
        · subst h
          have hx1 := i2 x (by
            show (s.pred.set x (v : Int)).getD x 0 ≠ -2
            rw [getD_set_eq _ _ _ _ hwl]; omega)
          have hv1 := i2 v (by
            show (s.pred.set x (v : Int)).getD v 0 ≠ -2
            rw [getD_set_ne _ _ _ _ _ (Ne.symm (hne v hv.2))]; exact hv.2)
          refine ⟨hx1.1, ?_⟩
          rw [hx1.2, hv1.2, Function.update_same, Function.update_noteq (hne v hv.2)]
        · exact i3 x h hmx
    · rename_i hcond
      obtain ⟨d1, i1, i2, i3⟩ := ih s d hrest hX inv
      refine ⟨d1, i1, i2, ?_⟩
      intro x hx hmx
      rcases List.mem_cons.1 hx with h | h
      · subst h
        have hdx : s.pred.getD x 0 ≠ -2 := fun h => hcond ⟨hmx, h⟩
        have hx1 := i2 x hdx
        have hv1 := i2 v hv.2
        refine ⟨hx1.1, ?_⟩
        rw [hx1.2, hv1.2]
        by_cases hxo : x ∈ v :: s.q
        · exact inv.band x hxo v (List.mem_cons_self _ _)
        · have := inv.closed_le x hwn hdx hxo v (List.mem_cons_self _ _)
          omega
      · exact i3 x h hmx

theorem sinv_close {g : Graph} {mate pred : List Int} {d : Nat → Nat} {v : Nat} {q : List Nat}
    (inv : SInv g mate pred d (v :: q))
    (hX : g.part.getD v false = true → ∀ w ∈ g.nbrs v, mate.getD v 0 ≠ (w : Int) →
      pred.getD w 0 ≠ -2 ∧ d w ≤ d v + 1)
    (hY : g.part.getD v false = false → ∀ w : Nat, mate.getD v 0 = (w : Int) →
      pred.getD w 0 ≠ -2 ∧ d w ≤ d v + 1) :
    SInv g mate pred d q := by
  refine ⟨inv.plen, inv.rng, inv.root, inv.tree, inv.exposed, ?_, ?_, ?_, ?_, ?_, ?_⟩
  · intro u hu; exact inv.opn_disc u (List.mem_cons_of_mem _ hu)
  · intro u hu hdu huo hpu x hx hmx
    by_cases huv : u = v
    · subst huv; exact hX hpu x hx hmx
    · exact inv.closedX u hu hdu (by simp [huv, huo]) hpu x hx hmx
  · intro u hu hdu huo hpu x hmx
    by_cases huv : u = v
    · subst huv; exact hY hpu x hmx
    · exact inv.closedY u hu hdu (by simp [huv, huo]) hpu x hmx
  · exact (List.pairwise_cons.1 inv.sorted).2
  · intro a ha b hb
    exact inv.band a (List.mem_cons_of_mem _ ha) b (List.mem_cons_of_mem _ hb)
  · intro u hu hdu huo a ha
    by_cases huv : u = v
    · subst huv; exact List.rel_of_pairwise_cons inv.sorted ha
    · exact inv.closed_le u hu hdu (by simp [huv, huo]) a (List.mem_cons_of_mem _ ha)

theorem sinv_step {g : Graph} {mate : List Int} (hr : g.InRange) (hm : ValidMatching g mate)
    {v : Nat} {q : List Nat} {pred : List Int} {d : Nat → Nat}
    (inv : SInv g mate pred d (v :: q)) :
    ∃ d1, SInv g mate (ab_step g mate v ⟨q, pred⟩).pred d1 (ab_step g mate v ⟨q, pred⟩).q := by
  have hv := inv.opn_disc v (List.mem_cons_self _ _)
  unfold ab_step
  split
  · rename_i hX
    obtain ⟨d1, i1, _, i3⟩ := sinv_visit hr v (g.nbrs v) ⟨q, pred⟩ d (fun _ h => h) hX inv
    exact ⟨d1, sinv_close i1 (fun _ => i3) (fun h => by rw [hX] at h; simp at h)⟩
  · rename_i hX
    have hY : g.part.getD v false = false := by simpa using hX
    split
    · rename_i hmv
      rcases hm.2 v hv.1 with h | ⟨w, hwn, hw1, hw2, _⟩
      · exact absurd h hmv
      · have htn : (mate.getD v 0).toNat = w := by rw [hw1]; simp
        simp only [htn]
        have hwl : w < pred.length := by rw [inv.plen]; exact hwn
        split
        · rename_i hund
          have inv1 := sinv_discover inv hwn hund hw2 (fun h => absurd h hX) (fun _ => hw1)
          refine ⟨_, sinv_close inv1 (fun h => absurd h hX) ?_⟩
          intro _ x hx
          have hxw : w = x := by rw [hw1] at hx; exact_mod_cast hx
          subst hxw
          have hvw : v ≠ w := by rintro rfl; exact hv.2 hund
          refine ⟨by rw [getD_set_eq _ _ _ _ hwl]; omega, ?_⟩
          rw [Function.update_same, Function.update_noteq hvw]
        · rename_i hdw
          refine ⟨d, sinv_close inv (fun h => absurd h hX) ?_⟩
          intro _ x hx
          have hxw : w = x := by rw [hw1] at hx; exact_mod_cast hx
          subst hxw
          refine ⟨hdw, ?_⟩
          by_cases hxo : w ∈ v :: q
          · exact inv.band w hxo v (List.mem_cons_self _ _)
          · have := inv.closed_le w hwn hdw hxo v (List.mem_cons_self _ _)
            omega
    · rename_i hmv
      have hmv1 : mate.getD v 0 = -1 := by simpa using hmv
      refine ⟨d, sinv_close inv (fun h => absurd h hX) ?_⟩
      intro _ x hx
      rw [hmv1] at hx; omega

/-- Induction principle for the search loop of `augmenting_bipartite`. -/
theorem ab_bfs_induct (g : Graph) (mate : List Int) (P : SearchState → Prop)
    (hstep : ∀ v q pred, P ⟨v :: q, pred⟩ → P (ab_step g mate v ⟨q, pred⟩)) :
    ∀ (fuel : Nat) (s : SearchState) (pred1 : List Int),
      ab_bfs g mate fuel s = some pred1 → P s → P ⟨[], pred1⟩ := by
  intro fuel
  induction fuel with
  | zero =>
    intro s pred1 h hP
    obtain ⟨q, pred⟩ := s
    cases q with
    | nil => simp [ab_bfs] at h; subst h; exact hP
    | cons v q => simp [ab_bfs] at h
  | succ fuel ih =>
    intro s pred1 h hP
    obtain ⟨q, pred⟩ := s
    cases q with
    | nil => simp [ab_bfs] at h; subst h; exact hP
    | cons v q =>
      simp only [ab_bfs] at h
      exact ih _ _ h (hstep v q pred hP)

theorem sinv_bfs {g : Graph} {mate : List Int} (hr : g.InRange) (hm : ValidMatching g mate)
    (fuel : Nat) (s : SearchState) (pred1 : List Int)
    (h : ab_bfs g mate fuel s = some pred1) (inv : ∃ d, SInv g mate s.pred d s.q) :
    ∃ d, SInv g mate pred1 d [] :=
  ab_bfs_induct g mate (fun t => ∃ d, SInv g mate t.pred d t.q)
    (fun _ _ _ hP => by obtain ⟨d, hd⟩ := hP; exact sinv_step hr hm hd) fuel s pred1 h inv

/-! ### Termination and initial state of the search -/

theorem count_set_of_eq (l : List Int) (w : Nat) (a b : Int) (hw : w < l.length)
    (h : l.getD w 0 = b) (hab : a ≠ b) : (l.set w a).count b + 1 = l.count b := by
  induction l generalizing w with
  | nil => simp at hw
  | cons x t ih =>
    cases w with
    | zero =>
      simp at h
      subst h
      simp [List.count_cons, hab]
    | succ k =>
      simp at hw h
      have := ih k hw (by simpa using h)
      simp [List.count_cons]
      omega

theorem getD_neg_two_lt {pred : List Int} {w : Nat} (h : pred.getD w 0 = -2) :
    w < pred.length := by
  by_contra hc
  rw [List.getD_eq_default _ _ (by omega)] at h
  omega

theorem ab_visit_measure (mate : List Int) (v : Nat) :
    ∀ (ws : List Nat) (s : SearchState),
      (ab_visit mate v ws s).q.length + (ab_visit mate v ws s).pred.count (-2)
        = s.q.length + s.pred.count (-2) := by
  intro ws
  induction ws with
  | nil => intro s; rfl
  | cons w ws ih =>
    intro s
    unfold ab_visit
    split
    · rename_i hcond
      rw [ih]
      have := count_set_of_eq s.pred w (v : Int) (-2) (getD_neg_two_lt hcond.2) hcond.2 (by omega)
      simp only [List.length_append, List.length_singleton]
      omega
    · exact ih s

theorem ab_step_measure (g : Graph) (mate : List Int) (v : Nat) (s : SearchState) :
    (ab_step g mate v s).q.length + (ab_step g mate v s).pred.count (-2)
      = s.q.length + s.pred.count (-2) := by
  unfold ab_step
  split
  · exact ab_visit_measure mate v _ s
  · split
    · simp only
      split
      · rename_i hund
        have := count_set_of_eq s.pred _ (v : Int) (-2) (getD_neg_two_lt hund) hund (by omega)
        simp only [List.length_append, List.length_singleton]
        omega
      · rfl
    · rfl

theorem ab_bfs_total (g : Graph) (mate : List Int) :
    ∀ (fuel : Nat) (s : SearchState), s.q.length + s.pred.count (-2) ≤ fuel →
      ∃ pred1, ab_bfs g mate fuel s = some pred1 := by
  intro fuel
  induction fuel with
  | zero =>
    intro s hm
    obtain ⟨q, pred⟩ := s
    cases q with
    | nil => exact ⟨_, rfl⟩
    | cons v q => simp at hm
  | succ fuel ih =>
    intro s hm
    obtain ⟨q, pred⟩ := s
    cases q with
    | nil => exact ⟨_, rfl⟩
    | cons v q =>
      simp only [ab_bfs]
      apply ih
      rw [ab_step_measure]
      simp at hm ⊢
      omega

theorem init_pred_fold (q : List Nat) :
    ∀ (pred : List Int),
      (q.foldl (fun pred x => pred.set x (-1)) pred).length = pred.length ∧
      (∀ w, w < pred.length → (q.foldl (fun pred x => pred.set x (-1)) pred).getD w 0
        = if w ∈ q then -1 else pred.getD w 0) ∧
      (q.Nodup → (∀ x ∈ q, pred.getD x 0 = -2) →
        q.length + (q.foldl (fun pred x => pred.set x (-1)) pred).count (-2)
          = pred.count (-2)) := by
  induction q with
  | nil => intro pred; simp
  | cons x q ih =>
    intro pred
    obtain ⟨h1, h2, h3⟩ := ih (pred.set x (-1))
    simp only [List.foldl_cons]
    refine ⟨by rw [h1]; simp, ?_, ?_⟩
    · intro w hw
      rw [h2 w (by simpa using hw)]
      by_cases hwq : w ∈ q
      · simp [hwq]
      · by_cases hwx : w = x
        · subst hwx
          rw [getD_set_eq _ _ _ _ hw]
          simp [hwq]
        · rw [getD_set_ne _ _ _ _ _ (Ne.symm hwx)]
          simp [hwq, hwx]
    · intro hnd hall
      have hx := hall x (List.mem_cons_self _ _)
      have hnd1 := List.nodup_cons.1 hnd
      have := h3 hnd1.2 (fun y hy => by
        have hyx : x ≠ y := by rintro rfl; exact hnd1.1 hy
        rw [getD_set_ne _ _ _ _ _ hyx]
        exact hall y (List.mem_cons_of_mem _ hy))
      have hc := count_set_of_eq pred x (-1) (-2) (getD_neg_two_lt hx) hx (by omega)
      simp only [List.length_cons]
      omega

theorem mem_ab_roots {g : Graph} {mate : List Int} {w : Nat} :
    w ∈ ab_roots g mate ↔ w < g.n ∧ g.part.getD w false = true ∧ mate.getD w 0 = -1 := by
  simp [ab_roots, List.mem_filter]

theorem ab_init_measure (g : Graph) (mate : List Int) :
    (ab_roots g mate).length + (ab_init_pred g.n (ab_roots g mate)).count (-2) = g.n := by
  have h := (init_pred_fold (ab_roots g mate) (List.replicate g.n (-2))).2.2
    (by unfold ab_roots; exact List.Nodup.filter _ (List.nodup_range _))
    (fun x hx => by
      have := (mem_ab_roots.1 hx).1
      simp [List.getD_eq_getElem?_getD, List.getElem?_replicate, this])
  unfold ab_init_pred
  rw [h]
  simp

theorem sinv_init (g : Graph) (mate : List Int) :
    SInv g mate (ab_init_pred g.n (ab_roots g mate)) (fun _ => 0) (ab_roots g mate) := by
  obtain ⟨h1, h2, _⟩ := init_pred_fold (ab_roots g mate) (List.replicate g.n (-2))
  have hlen : (ab_init_pred g.n (ab_roots g mate)).length = g.n := by
    unfold ab_init_pred; rw [h1]; simp
  have hget : ∀ w < g.n, (ab_init_pred g.n (ab_roots g mate)).getD w 0
      = if w ∈ ab_roots g mate then -1 else -2 := by
    intro w hw
    unfold ab_init_pred
    rw [h2 w (by simpa using hw)]
    simp [List.getD_eq_getElem?_getD, List.getElem?_replicate, hw]
  have hdisc : ∀ w < g.n, (ab_init_pred g.n (ab_roots g mate)).getD w 0 ≠ -2 →
      w ∈ ab_roots g mate := by
    intro w hw h
    rw [hget w hw] at h
    by_contra hc
    simp [hc] at h
  refine ⟨hlen, ?_, ?_, ?_, ?_, ?_, ?_, ?_, ?_, ?_, ?_⟩
  · intro w hw
    rw [hget w hw]
    by_cases h : w ∈ ab_roots g mate
    · simp [h]
    · simp [h]
  · intro w hw h
    have := mem_ab_roots.1 (hdisc w hw (by rw [h]; omega))
    exact ⟨this.2.1, this.2.2, rfl⟩
  · intro w hw v h
    rw [hget w hw] at h
    split at h <;> omega
  · intro w hw hp hm
    rw [hget w hw, if_pos (mem_ab_roots.2 ⟨hw, hp, hm⟩)]
    omega
  · intro u hu
    have := (mem_ab_roots.1 hu).1
    refine ⟨this, ?_⟩
    rw [hget u this, if_pos hu]; omega
  · intro u hu hdu huo
    exact absurd (hdisc u hu hdu) huo
  · intro u hu hdu huo
    exact absurd (hdisc u hu hdu) huo
  · exact List.pairwise_of_forall (fun _ _ => le_refl _)
  · intro a _ b _; omega
  · intro u hu hdu huo
    exact absurd (hdisc u hu hdu) huo

/-- The search loop of `augmenting_bipartite` returns with fuel `n`, and its final `pred`
satisfies the invariant with an empty queue. -/
theorem ab_bfs_spec {g : Graph} {mate : List Int} (hr : g.InRange) (hm : ValidMatching g mate)
    (fuel : Nat) (hf : g.n ≤ fuel) :
    ∃ pred, ab_bfs g mate fuel ⟨ab_roots g mate, ab_init_pred g.n (ab_roots g mate)⟩ = some pred ∧
      ∃ d, SInv g mate pred d [] := by
  obtain ⟨pred, hp⟩ := ab_bfs_total g mate fuel
    ⟨ab_roots g mate, ab_init_pred g.n (ab_roots g mate)⟩
    (by rw [ab_init_measure]; exact hf)
  exact ⟨pred, hp, sinv_bfs hr hm fuel _ pred hp ⟨_, sinv_init g mate⟩⟩

/-! ### Path reconstruction and final scan -/

theorem sinv_levels {g : Graph} {mate pred : List Int} {d : Nat → Nat} {opn : List Nat}
    (inv : SInv g mate pred d opn) :
    ∀ (m w : Nat), w < g.n → pred.getD w 0 ≠ -2 → d w = m →
      ∀ k ≤ m, ∃ u < g.n, pred.getD u 0 ≠ -2 ∧ d u = k := by
  intro m
  induction m with
  | zero =>
    intro w hw hd hm k hk
    exact ⟨w, hw, hd, by omega⟩
  | succ m ih =>
    intro w hw hd hm k hk
    by_cases hkm : k = m + 1
    · exact ⟨w, hw, hd, by omega⟩
    · rcases inv.rng w hw with h | h | ⟨v, hv, h⟩
      · exact absurd h hd
      · have := (inv.root w hw h).2.2; omega
      · obtain ⟨t1, t2, _⟩ := inv.tree w hw v h
        exact ih v hv t1 (by omega) k (by omega)

theorem sinv_depth_lt {g : Graph} {mate pred : List Int} {d : Nat → Nat} {opn : List Nat}
    (inv : SInv g mate pred d opn) {w : Nat} (hw : w < g.n) (hd : pred.getD w 0 ≠ -2) :
    d w < g.n := by
  have hsub : Finset.range (d w + 1) ⊆ (Finset.range g.n).image d := by
    intro k hk
    obtain ⟨u, hu, _, hdu⟩ := sinv_levels inv (d w) w hw hd rfl k
      (by have := Finset.mem_range.1 hk; omega)
    exact Finset.mem_image.2 ⟨u, Finset.mem_range.2 hu, hdu⟩
  have h1 := Finset.card_le_card hsub
  have h2 : ((Finset.range g.n).image d).card ≤ (Finset.range g.n).card := Finset.card_image_le
  simp at h1 h2
  omega

theorem ab_walk_neg_one (pred : List Int) (fuel : Nat) (res : List Nat) :
    ab_walk pred fuel (-1) res = some res := by
  cases fuel <;> simp [ab_walk]

theorem ab_walk_succ (pred : List Int) (fuel t : Nat) (res : List Nat) :
    ab_walk pred (fuel + 1) (t : Int) res = ab_walk pred fuel (pred.getD t 0) (res ++ [t]) := by
  have h1 : (t : Int) ≠ -1 := by omega
  simp only [ab_walk, if_neg h1, Int.toNat_ofNat]

/-- The path-reconstruction loop started at a discovered vertex `t` of depth `m` appends the
chain `t, pred[t], ..., root` of `m + 1` vertices. -/
theorem ab_walk_spec {g : Graph} {mate pred : List Int} {d : Nat → Nat} {opn : List Nat}
    (inv : SInv g mate pred d opn) :
    ∀ (m t : Nat), t < g.n → pred.getD t 0 ≠ -2 → d t = m →
      ∀ (fuel : Nat), m + 1 ≤ fuel → ∀ res : List Nat,
      ∃ c : List Nat, ab_walk pred fuel (t : Int) res = some (res ++ c) ∧
        c.length = m + 1 ∧
        (∀ j ≤ m, c.getD j 0 < g.n ∧ d (c.getD j 0) = m - j) ∧
        c.getD 0 0 = t ∧
        (∀ j < m, pred.getD (c.getD j 0) 0 = (c.getD (j + 1) 0 : Int)) ∧
        pred.getD (c.getD m 0) 0 = -1 := by
  intro m
  induction m with
  | zero =>
    intro t ht hd hm fuel hf res
    have hroot : pred.getD t 0 = -1 := by
      rcases inv.rng t ht with h | h | ⟨v, _, h⟩
      · exact absurd h hd
      · exact h
      · have := (inv.tree t ht v h).2.1; omega
    refine ⟨[t], ?_, rfl, ?_, rfl, by simp, by simpa using hroot⟩
    · obtain ⟨f, rfl⟩ : ∃ f, fuel = f + 1 := ⟨fuel - 1, by omega⟩
      rw [ab_walk_succ, hroot, ab_walk_neg_one]
    · intro j hj
      have : j = 0 := by omega
      subst this
      simpa using ⟨ht, hm⟩
  | succ m ih =>
    intro t ht hd hm fuel hf res
    obtain ⟨v, hv, hpv⟩ : ∃ v < g.n, pred.getD t 0 = (v : Int) := by
      rcases inv.rng t ht with h | h | h
      · exact absurd h hd
      · have := (inv.root t ht h).2.2; omega
      · exact h
    obtain ⟨t1, t2, _⟩ := inv.tree t ht v hpv
    obtain ⟨f, rfl⟩ : ∃ f, fuel = f + 1 := ⟨fuel - 1, by omega⟩
    obtain ⟨c, hc1, hc2, hc3, hc4, hc5, hc6⟩ := ih v hv t1 (by omega) f (by omega) (res ++ [t])
    refine ⟨t :: c, ?_, by simp [hc2], ?_, rfl, ?_, ?_⟩
    · rw [ab_walk_succ, hpv, hc1]
      simp
    · intro j hj
      cases j with
      | zero => simpa using ⟨ht, hm⟩
      | succ j =>
        have := hc3 j (by omega)
        simp only [List.getD_cons_succ]
        exact ⟨this.1, by rw [this.2]; omega⟩
    · intro j hj
      cases j with
      | zero => simp only [List.getD_cons_zero, List.getD_cons_succ]; rw [hpv, hc4]
      | succ j =>
        simp only [List.getD_cons_succ]
        exact hc5 j (by omega)
    · simp only [List.getD_cons_succ]; exact hc6

/-- The final scan of `augmenting_bipartite`: either no index passes the test and `false` is
returned with `res` untouched, or the path is rebuilt from the first index that passes. -/
theorem ab_scan_spec (g : Graph) (mate pred : List Int) (fuel : Nat) (res : List Nat) :
    ∀ (is : List Nat),
      (ab_scan g mate pred fuel res is = some (false, res) ∧
        ∀ i ∈ is, ¬(pred.getD i 0 > -2 ∧ g.part.getD i false = false ∧ mate.getD i 0 = -1)) ∨
      (∃ t ∈ is, (pred.getD t 0 > -2 ∧ g.part.getD t false = false ∧ mate.getD t 0 = -1) ∧
        ab_scan g mate pred fuel res is =
          (ab_walk pred fuel (t : Int) res).map fun r => (true, r.reverse)) := by
  intro is
  induction is with
  | nil => left; simp [ab_scan]
  | cons i rest ih =>
    by_cases hc : pred.getD i 0 > -2 ∧ g.part.getD i false = false ∧ mate.getD i 0 = -1
    · right
      refine ⟨i, List.mem_cons_self _ _, hc, ?_⟩
      rw [ab_scan, if_pos hc]
      cases ab_walk pred fuel (i : Int) res <;> rfl
    · rcases ih with ⟨h1, h2⟩ | ⟨t, ht, hct, h⟩
      · left
        refine ⟨by simp only [ab_scan, if_neg hc]; exact h1, ?_⟩
        intro j hj
        rcases List.mem_cons.1 hj with h | h
        · subst h; exact hc
        · exact h2 j h
      · right
        exact ⟨t, List.mem_cons_of_mem _ ht, hct, by simp only [ab_scan, if_neg hc]; exact h⟩

theorem getD_reverse_nat (l : List Nat) (i : Nat) (h : i < l.length) :
    l.reverse.getD i 0 = l.getD (l.length - 1 - i) 0 := by
  rw [List.getD_eq_getElem _ _ (by simpa using h), List.getD_eq_getElem _ _ (by omega)]
  simp [List.getElem_reverse]

theorem mem_getD_nat {l : List Nat} {v : Nat} (h : v ∈ l) : ∃ i < l.length, l.getD i 0 = v := by
  obtain ⟨i, hi, rfl⟩ := List.mem_iff_getElem.1 h
  exact ⟨i, hi, List.getD_eq_getElem _ _ hi⟩

theorem nodup_of_getD_inj {l : List Nat} (f : Nat → Nat)
    (h : ∀ i < l.length, f (l.getD i 0) = i) : l.Nodup := by
  rw [List.nodup_iff_injective_get]
  intro a b hab
  have ha := h a.1 a.2
  have hb := h b.1 b.2
  rw [List.getD_eq_getElem _ _ a.2] at ha
  rw [List.getD_eq_getElem _ _ b.2] at hb
  have : l[a.1] = l[b.1] := hab
  rw [this] at ha
  exact Fin.ext (by omega)

/-- The reversed pred-chain of a discovered exposed vertex labelled `false` is an
augmenting path with `d t + 1` vertices ending in `t`. -/
theorem path_of_chain {g : Graph} {mate pred : List Int} {d : Nat → Nat} {opn : List Nat}
    (hp : g.PartProper) (inv : SInv g mate pred d opn) {t : Nat}
    (htp : g.part.getD t false = false) (htm : mate.getD t 0 = -1)
    {c : List Nat} (hc2 : c.length = d t + 1)
    (hc3 : ∀ j ≤ d t, c.getD j 0 < g.n ∧ d (c.getD j 0) = d t - j)
    (hc4 : c.getD 0 0 = t)
    (hc5 : ∀ j < d t, pred.getD (c.getD j 0) 0 = (c.getD (j + 1) 0 : Int))
    (hc6 : pred.getD (c.getD (d t) 0) 0 = -1) :
    IsAugmentingPath g mate c.reverse ∧ c.reverse.length = d t + 1 ∧
      c.reverse.getD (c.reverse.length - 1) 0 = t := by
  have hlen : c.reverse.length = d t + 1 := by simp [hc2]
  have hidx : ∀ i ≤ d t, c.reverse.getD i 0 = c.getD (d t - i) 0 := by
    intro i hi
    rw [getD_reverse_nat c i (by omega), hc2]
    congr 1
  have P1 : ∀ i ≤ d t, c.reverse.getD i 0 < g.n ∧ d (c.reverse.getD i 0) = i := by
    intro i hi
    rw [hidx i hi]
    have := hc3 (d t - i) (by omega)
    exact ⟨this.1, by rw [this.2]; omega⟩
  have P2 : pred.getD (c.reverse.getD 0 0) 0 = -1 := by
    rw [hidx 0 (by omega)]; exact hc6
  have P3 : ∀ i < d t, pred.getD (c.reverse.getD (i + 1) 0) 0 = (c.reverse.getD i 0 : Int) := by
    intro i hi
    rw [hidx i (by omega), hidx (i + 1) (by omega), hc5 (d t - (i + 1)) (by omega)]
    congr 3
    omega
  have P4 : c.reverse.getD (d t) 0 = t := by
    rw [hidx (d t) (le_refl _)]; simpa using hc4
  have T : ∀ i < d t, c.reverse.getD (i + 1) 0 ∈ g.nbrs (c.reverse.getD i 0) ∧
      (g.part.getD (c.reverse.getD i 0) false = true →
        mate.getD (c.reverse.getD i 0) 0 ≠ (c.reverse.getD (i + 1) 0 : Int)) ∧
      (g.part.getD (c.reverse.getD i 0) false = false →
        mate.getD (c.reverse.getD i 0) 0 = (c.reverse.getD (i + 1) 0 : Int)) := by
    intro i hi
    obtain ⟨_, _, t3, t4, t5⟩ := inv.tree _ (P1 (i + 1) (by omega)).1 _ (P3 i hi)
    exact ⟨t3, t4, t5⟩
  have hroot := inv.root _ (P1 0 (by omega)).1 P2
  have C : ∀ i ≤ d t, (g.part.getD (c.reverse.getD i 0) false = true ↔ i % 2 = 0) := by
    intro i
    induction i with
    | zero => intro _; simpa using hroot.1
    | succ i ih =>
      intro hi
      have h1 := ih (by omega)
      have h2 := hp.2 _ (P1 i (by omega)).1 _ (T i (by omega)).1
      revert h1 h2
      cases g.part.getD (c.reverse.getD i 0) false <;>
        cases g.part.getD (c.reverse.getD (i + 1) 0) false <;> simp <;> omega
  have hodd : d t % 2 = 1 := by
    have := C (d t) (le_refl _)
    rw [P4, htp] at this
    simp at this
    omega
  refine ⟨⟨?_, by omega, by omega, ?_, ⟨hroot.1, hroot.2.1⟩, ?_, ?_, ?_, ?_⟩, hlen, ?_⟩
  · exact nodup_of_getD_inj d (fun i hi => (P1 i (by omega)).2)
  · intro v hv
    obtain ⟨i, hi, rfl⟩ := mem_getD_nat hv
    exact (P1 i (by omega)).1
  · rw [hlen]; simp only [Nat.add_sub_cancel]; rw [P4]; exact ⟨htp, htm⟩
  · intro i _ hi
    exact (T i (by omega)).1
  · intro i _ hi
    exact (T (2 * i) (by omega)).2.1 ((C (2 * i) (by omega)).2 (by omega))
  · intro i _ hi
    have hf : g.part.getD (c.reverse.getD (2 * i + 1) 0) false = false := by
      have := C (2 * i + 1) (by omega)
      cases h : g.part.getD (c.reverse.getD (2 * i + 1) 0) false
      · rfl
      · rw [h] at this; simp at this; omega
    exact (T (2 * i + 1) (by omega)).2.2 hf
  · rw [hlen]; simp only [Nat.add_sub_cancel]; exact P4

/-! ### Outcome of the augmenting path finder -/

theorem matched_back {g : Graph} {mate : List Int} (hm : ValidMatching g mate) {v w : Nat}
    (hv : v < g.n) (h : mate.getD v 0 = (w : Int)) :
    w < g.n ∧ w ∈ g.nbrs v ∧ mate.getD w 0 = (v : Int) := by
  rcases hm.2 v hv with h1 | ⟨x, hx, h1, h2, h3⟩
  · rw [h1] at h; omega
  · have : x = w := by rw [h1] at h; exact_mod_cast h
    subst this
    exact ⟨hx, h2, h3⟩

/-- Every vertex of an augmenting path is discovered by the drained search, at a depth not
exceeding its position on the path. -/
theorem sinv_reach {g : Graph} {mate pred : List Int} {d : Nat → Nat}
    (hp : g.PartProper) (hm : ValidMatching g mate) (inv : SInv g mate pred d [])
    {p : List Nat} (hpath : IsAugmentingPath g mate p) :
    ∀ i < p.length, pred.getD (p.getD i 0) 0 ≠ -2 ∧ d (p.getD i 0) ≤ i ∧
      (g.part.getD (p.getD i 0) false = true ↔ i % 2 = 0) := by
  obtain ⟨_, h2, _, hin, hhead, _, hadj, heven, hodd⟩ := hpath
  have hlt : ∀ i < p.length, p.getD i 0 < g.n := by
    intro i hi
    apply hin
    rw [List.getD_eq_getElem _ _ hi]
    exact List.getElem_mem hi
  intro i
  induction i with
  | zero =>
    intro hi
    have h0 := hlt 0 hi
    have hdisc := inv.exposed _ h0 hhead.1 hhead.2
    refine ⟨hdisc, ?_, by simpa using hhead.1⟩
    rcases inv.rng _ h0 with h | h | ⟨v, hv, h⟩
    · exact absurd h hdisc
    · have := (inv.root _ h0 h).2.2; omega
    · exfalso
      obtain ⟨_, _, t3, _, t5⟩ := inv.tree _ h0 v h
      have hne := hp.2 v hv _ t3
      rw [hhead.1] at hne
      have hvf : g.part.getD v false = false := by simpa using hne
      have := (matched_back hm hv (t5 hvf)).2.2
      rw [hhead.2] at this
      omega
  | succ i ih =>
    intro hi
    obtain ⟨i1, i2, i3⟩ := ih (by omega)
    have hu := hlt i (by omega)
    have hne := hp.2 _ hu _ (hadj i (by omega) hi)
    rcases Nat.even_or_odd' i with ⟨j, hj | hj⟩
    · have hX : g.part.getD (p.getD i 0) false = true := i3.2 (by omega)
      have hunm := heven j (by omega) (by omega)
      rw [← hj] at hunm
      obtain ⟨c1, c2⟩ := inv.closedX _ hu i1 (by simp) hX _ (hadj i (by omega) hi) hunm
      refine ⟨c1, by omega, ?_⟩
      rw [hX] at hne
      have : g.part.getD (p.getD (i + 1) 0) false = false := by
        revert hne; cases g.part.getD (p.getD (i + 1) 0) false <;> simp
      rw [this]; simp; omega
    · have hY : g.part.getD (p.getD i 0) false = false := by
        cases h : g.part.getD (p.getD i 0) false
        · rfl
        · have := i3.1 h; omega
      have hmt := hodd j (by omega) (by omega)
      have hj2 : 2 * j + 2 = i + 1 := by omega
      rw [hj2, ← hj] at hmt
      obtain ⟨c1, c2⟩ := inv.closedY _ hu i1 (by simp) hY _ hmt
      refine ⟨c1, by omega, ?_⟩
      rw [hY] at hne
      have : g.part.getD (p.getD (i + 1) 0) false = true := by
        revert hne; cases g.part.getD (p.getD (i + 1) 0) false <;> simp
      rw [this]; simp; omega

theorem sinv_disc_iff {g : Graph} {mate pred : List Int} {d : Nat → Nat} {opn : List Nat}
    (inv : SInv g mate pred d opn) {w : Nat} (hw : w < g.n) :
    pred.getD w 0 > -2 ↔ pred.getD w 0 ≠ -2 := by
  rcases inv.rng w hw with h | h | ⟨v, _, h⟩ <;> rw [h] <;> omega

/-- Outcome of `augmenting_bipartite` on valid input, in terms of the drained search forest:
either `false` is returned and no discovered vertex labelled `false` is exposed, or `true` is
returned with an augmenting path whose length is the depth of its last vertex plus one. -/
theorem ab_outcome {g : Graph} {mate : List Int} (hr : g.InRange) (hp : g.PartProper)
    (hm : ValidMatching g mate) (fuel : Nat) (hf : g.n ≤ fuel) :
    ∃ pred d, SInv g mate pred d [] ∧
      ((augmenting_bipartite fuel g mate [] = some (false, []) ∧
          ∀ t < g.n, pred.getD t 0 ≠ -2 → g.part.getD t false = false → mate.getD t 0 ≠ -1) ∨
        (∃ p, augmenting_bipartite fuel g mate [] = some (true, p) ∧ IsAugmentingPath g mate p ∧
          pred.getD (p.getD (p.length - 1) 0) 0 ≠ -2 ∧
          p.length = d (p.getD (p.length - 1) 0) + 1)) := by
  obtain ⟨pred, hbfs, d, inv⟩ := ab_bfs_spec hr hm fuel hf
  refine ⟨pred, d, inv, ?_⟩
  rcases ab_scan_spec g mate pred fuel [] (List.range g.n) with ⟨h1, h2⟩ | ⟨t, ht, hct, h⟩
  · left
    refine ⟨by simp only [augmenting_bipartite, hbfs]; exact h1, ?_⟩
    intro t ht hd hpt hmt
    exact h2 t (List.mem_range.2 ht) ⟨(sinv_disc_iff inv ht).2 hd, hpt, hmt⟩
  · right
    have htn := List.mem_range.1 ht
    have hd : pred.getD t 0 ≠ -2 := (sinv_disc_iff inv htn).1 hct.1
    have hdl := sinv_depth_lt inv htn hd
    obtain ⟨c, hc1, hc2, hc3, hc4, hc5, hc6⟩ :=
      ab_walk_spec inv (d t) t htn hd rfl fuel (by omega) []
    obtain ⟨q1, q2, q3⟩ := path_of_chain hp inv hct.2.1 hct.2.2 hc2 hc3 hc4 hc5 hc6
    refine ⟨c.reverse, ?_, q1, by rw [q3]; exact hd, by rw [q3]; exact q2⟩
    simp only [augmenting_bipartite, hbfs]
    rw [h, hc1]
    simp

/-! ### Augmentation -/

theorem countP_eq_card_matched (mate : List Int) :
    (mate.countP fun x => decide (x ≠ -1)) = (matchedSet mate).card := by
  unfold matchedSet
  induction mate using List.reverseRecOn with
  | nil => simp
  | append_singleton l a ih =>
    have hfil : (Finset.range l.length).filter (fun v => (l ++ [a]).getD v 0 ≠ -1)
        = (Finset.range l.length).filter (fun v => l.getD v 0 ≠ -1) := by
      apply Finset.filter_congr
      intro v hv
      have hv1 := Finset.mem_range.1 hv
      rw [List.getD_eq_getElem _ _ (by simp; omega), List.getD_eq_getElem _ _ hv1,
        List.getElem_append_left hv1]
    have hlast : (l ++ [a]).getD l.length 0 = a := by
      rw [List.getD_eq_getElem _ _ (by simp)]
      simp
    rw [List.countP_append, ih, List.length_append, List.length_singleton, Finset.range_succ,
      Finset.filter_insert, hlast, hfil]
    by_cases ha : a = -1
    · simp [ha]
    · rw [if_pos ha, Finset.card_insert_of_not_mem (by simp)]
      simp [ha]

theorem mem_matchedSet {mate : List Int} {v : Nat} :
    v ∈ matchedSet mate ↔ v < mate.length ∧ mate.getD v 0 ≠ -1 := by
  simp [matchedSet]

theorem augment_pairs_spec :
    ∀ (k : Nat) (p : List Nat) (mate : List Int), p.length = 2 * k → p.Nodup →
      (∀ v ∈ p, v < mate.length) →
      (augment_pairs p mate).length = mate.length ∧
      (∀ x, x ∉ p → (augment_pairs p mate).getD x 0 = mate.getD x 0) ∧
      (∀ i, 2 * i + 1 < p.length →
        (augment_pairs p mate).getD (p.getD (2 * i) 0) 0 = (p.getD (2 * i + 1) 0 : Int) ∧
        (augment_pairs p mate).getD (p.getD (2 * i + 1) 0) 0 = (p.getD (2 * i) 0 : Int)) := by
  intro k
  induction k with
  | zero =>
    intro p mate hl _ _
    have : p = [] := List.length_eq_zero.1 (by omega)
    subst this
    simp [augment_pairs]
  | succ k ih =>
    intro p mate hl hnd hlt
    match p, hl, hnd, hlt with
    | u :: v :: rest, hl, hnd, hlt =>
      have hu : u < mate.length := hlt u (by simp)
      have hv : v < mate.length := hlt v (by simp)
      have hnd1 := List.nodup_cons.1 hnd
      have hnd2 := List.nodup_cons.1 hnd1.2
      have huv : u ≠ v := by
        intro h; apply hnd1.1; simp [h]
      have hur : u ∉ rest := fun h => hnd1.1 (List.mem_cons_of_mem _ h)
      obtain ⟨i1, i2, i3⟩ := ih rest ((mate.set u (v : Int)).set v (u : Int))
        (by simp at hl; omega) hnd2.2
        (fun x hx => by simp; exact hlt x (by simp [hx]))
      simp only [augment_pairs]
      refine ⟨by rw [i1]; simp, ?_, ?_⟩
      · intro x hx
        have hxu : x ≠ u := by rintro rfl; apply hx; simp
        have hxv : x ≠ v := by rintro rfl; apply hx; simp
        have hxr : x ∉ rest := fun h => hx (by simp [h])
        rw [i2 x hxr, getD_set_ne _ _ _ _ _ (Ne.symm hxv), getD_set_ne _ _ _ _ _ (Ne.symm hxu)]
      · intro i hi
        cases i with
        | zero =>
          simp only [Nat.mul_zero, Nat.zero_add, List.getD_cons_zero, List.getD_cons_succ]
          rw [i2 u hur, i2 v hnd2.1]
          refine ⟨?_, getD_set_eq _ _ _ _ (by simpa using hv)⟩
          rw [getD_set_ne _ _ _ _ _ (Ne.symm huv), getD_set_eq _ _ _ _ hu]
        | succ i =>
          have h1 : 2 * (i + 1) = (2 * i) + 1 + 1 := by omega
          rw [h1]
          simp only [List.getD_cons_succ]
          exact i3 i (by simp at hi; omega)
    | [], hl, _, _ => simp at hl
    | [_], hl, _, _ => simp at hl; omega

theorem getD_mem_nat {l : List Nat} {i : Nat} (h : i < l.length) : l.getD i 0 ∈ l := by
  rw [List.getD_eq_getElem _ _ h]; exact List.getElem_mem h

/-- On an augmenting path the old partner of every inner vertex lies on the path. -/
theorem path_old_mate {g : Graph} {mate : List Int} (hm : ValidMatching g mate) {p : List Nat}
    (hpath : IsAugmentingPath g mate p) :
    ∀ j, 0 < j → j + 1 < p.length → ∃ j1 < p.length, mate.getD (p.getD j 0) 0 = (p.getD j1 0 : Int) := by
  obtain ⟨_, _, hev, hin, _, _, _, _, hodd⟩ := hpath
  intro j hj0 hj
  rcases Nat.even_or_odd' j with ⟨i, hi | hi⟩
  · obtain ⟨i0, rfl⟩ : ∃ i0, i = i0 + 1 := ⟨i - 1, by omega⟩
    have h1 := hodd i0 (by omega) (by omega)
    have h2 := (matched_back hm (hin _ (getD_mem_nat (by omega))) h1).2.2
    refine ⟨2 * i0 + 1, by omega, ?_⟩
    rw [hi]
    exact h2
  · refine ⟨j + 1, hj, ?_⟩
    have h1 := hodd i (by omega) (by omega)
    rw [hi]
    exact h1

/-- After `augment` every path vertex is paired with a path neighbour. -/
theorem path_new_mate {g : Graph} {mate : List Int} (hr : g.InRange) (hs : g.Symmetric)
    (hm : ValidMatching g mate) {p : List Nat} (hpath : IsAugmentingPath g mate p) :
    ∀ j < p.length, ∃ j1 < p.length,
      (augment_pairs p mate).getD (p.getD j 0) 0 = (p.getD j1 0 : Int) ∧
      (augment_pairs p mate).getD (p.getD j1 0) 0 = (p.getD j 0 : Int) ∧
      p.getD j1 0 ∈ g.nbrs (p.getD j 0) := by
  obtain ⟨hnd, _, hev, hin, _, _, hadj, _, _⟩ := hpath
  obtain ⟨_, _, h3⟩ := augment_pairs_spec (p.length / 2) p mate (by omega) hnd
    (fun v hv => by rw [hm.1]; exact hin v hv)
  intro j hj
  rcases Nat.even_or_odd' j with ⟨i, hi | hi⟩
  · have := h3 i (by omega)
    refine ⟨j + 1, by omega, ?_, ?_, hadj j hj (by omega)⟩
    · rw [hi]; exact this.1
    · rw [hi]; exact this.2
  · have := h3 i (by omega)
    refine ⟨2 * i, by omega, ?_, ?_, ?_⟩
    · rw [hi]; exact this.2
    · rw [hi]; exact this.1
    · rw [hi]
      exact Graph.nbrs_sym hr hs (hadj (2 * i) (by omega) (by omega))

theorem augment_valid {g : Graph} {mate : List Int} (hr : g.InRange) (hs : g.Symmetric)
    (hm : ValidMatching g mate) {p : List Nat} (hpath : IsAugmentingPath g mate p) :
    ValidMatching g (augment_pairs p mate) := by
  have hnew := path_new_mate hr hs hm hpath
  have hold := path_old_mate hm hpath
  obtain ⟨hnd, h2, hev, hin, hhead, hlast, _, _, _⟩ := hpath
  obtain ⟨a1, a2, _⟩ := augment_pairs_spec (p.length / 2) p mate (by omega) hnd
    (fun v hv => by rw [hm.1]; exact hin v hv)
  refine ⟨by rw [a1]; exact hm.1, ?_⟩
  intro v hv
  by_cases hvp : v ∈ p
  · obtain ⟨j, hj, rfl⟩ := mem_getD_nat hvp
    obtain ⟨j1, hj1, n1, n2, n3⟩ := hnew j hj
    right
    exact ⟨_, hin _ (getD_mem_nat hj1), n1, n3, n2⟩
  · rw [a2 v hvp]
    rcases hm.2 v hv with h | ⟨w, hw, w1, w2, w3⟩
    · left; exact h
    · right
      refine ⟨w, hw, w1, w2, ?_⟩
      have hwp : w ∉ p := by
        intro hwp
        obtain ⟨j, hj, rfl⟩ := mem_getD_nat hwp
        by_cases hj0 : j = 0
        · subst hj0; rw [hhead.2] at w3; omega
        · by_cases hjl : j = p.length - 1
          · subst hjl; rw [hlast.2] at w3; omega
          · obtain ⟨j1, hj1, e⟩ := hold j (by omega) (by omega)
            rw [w3] at e
            have : v = p.getD j1 0 := by exact_mod_cast e
            exact hvp (this ▸ getD_mem_nat hj1)
      rw [a2 w hwp]; exact w3

theorem augment_matchedSet {g : Graph} {mate : List Int} (hr : g.InRange) (hs : g.Symmetric)
    (hm : ValidMatching g mate) {p : List Nat} (hpath : IsAugmentingPath g mate p) :
    (matchedSet (augment_pairs p mate)).card = (matchedSet mate).card + 2 := by
  have hnew := path_new_mate hr hs hm hpath
  have hold := path_old_mate hm hpath
  obtain ⟨hnd, h2, hev, hin, hhead, hlast, _, _, _⟩ := hpath
  obtain ⟨a1, a2, _⟩ := augment_pairs_spec (p.length / 2) p mate (by omega) hnd
    (fun v hv => by rw [hm.1]; exact hin v hv)
  have h0n : p.getD 0 0 < g.n := hin _ (getD_mem_nat (by omega))
  have hln : p.getD (p.length - 1) 0 < g.n := hin _ (getD_mem_nat (by omega))
  have hne : p.getD 0 0 ≠ p.getD (p.length - 1) 0 := by
    intro h
    rw [List.getD_eq_getElem p 0 (show 0 < p.length by omega),
      List.getD_eq_getElem p 0 (show p.length - 1 < p.length by omega)] at h
    have := (List.Nodup.getElem_inj_iff hnd).1 h
    omega
  have hset : matchedSet (augment_pairs p mate)
      = insert (p.getD 0 0) (insert (p.getD (p.length - 1) 0) (matchedSet mate)) := by
    ext v
    simp only [Finset.mem_insert, mem_matchedSet, a1, hm.1]
    constructor
    · rintro ⟨hv, hmv⟩
      by_cases hvp : v ∈ p
      · obtain ⟨j, hj, rfl⟩ := mem_getD_nat hvp
        by_cases hj0 : j = 0
        · left; rw [hj0]
        · by_cases hjl : j = p.length - 1
          · right; left; rw [hjl]
          · right; right
            obtain ⟨j1, _, e⟩ := hold j (by omega) (by omega)
            exact ⟨hv, by rw [e]; omega⟩
      · right; right
        rw [a2 v hvp] at hmv
        exact ⟨hv, hmv⟩
    · intro h
      have hpv : ∀ j < p.length, p.getD j 0 < g.n ∧
          (augment_pairs p mate).getD (p.getD j 0) 0 ≠ -1 := by
        intro j hj
        obtain ⟨j1, _, n1, _, _⟩ := hnew j hj
        exact ⟨hin _ (getD_mem_nat hj), by rw [n1]; omega⟩
      rcases h with h | h | ⟨hv, hmv⟩
      · rw [h]; exact hpv 0 (by omega)
      · rw [h]; exact hpv _ (by omega)
      · by_cases hvp : v ∈ p
        · obtain ⟨j, hj, rfl⟩ := mem_getD_nat hvp
          exact hpv j hj
        · rw [a2 v hvp]; exact ⟨hv, hmv⟩
  rw [hset, Finset.card_insert_of_not_mem, Finset.card_insert_of_not_mem]
  · rw [mem_matchedSet]
    exact fun h => h.2 hlast.2
  · rw [Finset.mem_insert, mem_matchedSet]
    rintro (h | h)
    · exact hne h
    · exact h.2 hhead.2

/-! ### Counting matched vertices and the König bound -/

theorem mem_matchedX {n : Nat} {c : Nat → Bool} {mate : List Int} {v : Nat} :
    v ∈ matchedX n c mate ↔ v < n ∧ c v = true ∧ mate.getD v 0 ≠ -1 := by
  simp [matchedX]

theorem matched_partner {g : Graph} {mate : List Int} (hm : ValidMatching g mate) {v : Nat}
    (hv : v < g.n) (h : mate.getD v 0 ≠ -1) :
    ∃ w < g.n, mate.getD v 0 = (w : Int) ∧ w ∈ g.nbrs v ∧ mate.getD w 0 = (v : Int) := by
  rcases hm.2 v hv with h1 | h1
  · exact absurd h1 h
  · exact h1

/-- In a valid matching of a properly coloured graph the matched vertices split evenly between
the two colour classes. -/
theorem matched_card_two_mul {g : Graph} {mate : List Int} {c : Nat → Bool}
    (hc : ProperColouring g c) (hm : ValidMatching g mate) :
    (matchedSet mate).card = 2 * (matchedX g.n c mate).card := by
  have hsplit := Finset.filter_card_add_filter_neg_card_eq_card (s := matchedSet mate)
    (fun v => c v = true)
  have hX : (matchedSet mate).filter (fun v => c v = true) = matchedX g.n c mate := by
    ext v
    simp only [Finset.mem_filter, mem_matchedSet, mem_matchedX, hm.1]
    tauto
  have hY : ((matchedSet mate).filter (fun v => ¬ c v = true)).card
      = (matchedX g.n c mate).card := by
    symm
    apply Finset.card_bij (fun x _ => (mate.getD x 0).toNat)
    · intro x hx
      obtain ⟨hxn, hcx, hmx⟩ := mem_matchedX.1 hx
      obtain ⟨w, hw, w1, w2, w3⟩ := matched_partner hm hxn hmx
      have hne := hc x hxn w w2
      simp only [Finset.mem_filter, mem_matchedSet, hm.1, w1, Int.toNat_ofNat]
      refine ⟨⟨hw, by rw [w3]; omega⟩, ?_⟩
      rw [hcx] at hne
      intro h; exact hne h.symm
    · intro x1 hx1 x2 hx2 he
      obtain ⟨hxn1, _, hmx1⟩ := mem_matchedX.1 hx1
      obtain ⟨hxn2, _, hmx2⟩ := mem_matchedX.1 hx2
      obtain ⟨w, hw, w1, w2, w3⟩ := matched_partner hm hxn1 hmx1
      obtain ⟨u, hu, u1, u2, u3⟩ := matched_partner hm hxn2 hmx2
      simp only [w1, u1, Int.toNat_ofNat] at he
      subst he
      rw [w3] at u3
      exact_mod_cast u3
    · intro y hy
      simp only [Finset.mem_filter, mem_matchedSet, hm.1] at hy
      obtain ⟨⟨hyn, hmy⟩, hcy⟩ := hy
      obtain ⟨x, hx, x1, x2, x3⟩ := matched_partner hm hyn hmy
      have hne := hc y hyn x x2
      refine ⟨x, mem_matchedX.2 ⟨hx, ?_, by rw [x3]; omega⟩, by rw [x3]; simp⟩
      revert hne hcy
      cases c y <;> cases c x <;> simp
  rw [← hsplit, hX, hY]
  omega

/-- The final search forest is closed under the edges leaving a discovered vertex labelled
`true`, and every discovered vertex labelled `false` is matched to a discovered one. -/
theorem sinv_cover {g : Graph} {mate pred : List Int} {d : Nat → Nat}
    (hp : g.PartProper) (hm : ValidMatching g mate) (inv : SInv g mate pred d [])
    (hfin : ∀ t < g.n, pred.getD t 0 ≠ -2 → g.part.getD t false = false → mate.getD t 0 ≠ -1)
    {x y : Nat} (hx : x < g.n) (hy : y < g.n) (hxp : g.part.getD x false = true)
    (hyp : g.part.getD y false = false) (hadj : y ∈ g.nbrs x) (hdx : pred.getD x 0 ≠ -2) :
    ∃ x1 < g.n, mate.getD y 0 = (x1 : Int) ∧ mate.getD x1 0 = (y : Int) ∧
      g.part.getD x1 false = true ∧ pred.getD x1 0 ≠ -2 := by
  have hdy : pred.getD y 0 ≠ -2 := by
    by_cases hxy : mate.getD x 0 = (y : Int)
    · rcases inv.rng x hx with h | h | ⟨v, hv, h⟩
      · exact absurd h hdx
      · have := (inv.root x hx h).2.1
        rw [this] at hxy; omega
      · obtain ⟨t1, _, t3, _, t5⟩ := inv.tree x hx v h
        have hne := hp.2 v hv x t3
        rw [hxp] at hne
        have hvf : g.part.getD v false = false := by simpa using hne
        have := (matched_back hm hv (t5 hvf)).2.2
        rw [hxy] at this
        have : y = v := by exact_mod_cast this
        rw [this]; exact t1
    · exact (inv.closedX x hx hdx (by simp) hxp y hadj hxy).1
  obtain ⟨x1, hx1, e1, e2, e3⟩ := matched_partner hm hy (hfin y hy hdy hyp)
  refine ⟨x1, hx1, e1, e3, ?_, (inv.closedY y hy hdy (by simp) hyp x1 e1).1⟩
  have hne := hp.2 y hy x1 e2
  rw [hyp] at hne
  revert hne; cases g.part.getD x1 false <;> simp

/-- König's bound from a drained search without exposed terminal: a matching of `g` has at
most as many edges as there are matched vertices labelled `true`. -/
theorem konig_bound {g : Graph} {mate pred : List Int} {d : Nat → Nat}
    (hr : g.InRange) (hs : g.Symmetric)
    (hp : g.PartProper) (hm : ValidMatching g mate) (inv : SInv g mate pred d [])
    (hfin : ∀ t < g.n, pred.getD t 0 ≠ -2 → g.part.getD t false = false → mate.getD t 0 ≠ -1)
    (M : Finset (Nat × Nat)) (hM : IsMatchingOf g M) :
    M.card ≤ (matchedX g.n (fun v => g.part.getD v false) mate).card := by
  -- orientation of an edge: its endpoint labelled `true` first
  let xo : Nat × Nat → Nat := fun e => if g.part.getD e.1 false = true then e.1 else e.2
  let yo : Nat × Nat → Nat := fun e => if g.part.getD e.1 false = true then e.2 else e.1
  let φ : Nat × Nat → Nat := fun e =>
    if pred.getD (xo e) 0 ≠ -2 then (mate.getD (yo e) 0).toNat else xo e
  have horient : ∀ e ∈ M, xo e < g.n ∧ yo e < g.n ∧ g.part.getD (xo e) false = true ∧
      g.part.getD (yo e) false = false ∧ yo e ∈ g.nbrs (xo e) ∧
      ((xo e = e.1 ∧ yo e = e.2) ∨ (xo e = e.2 ∧ yo e = e.1)) := by
    intro e he
    obtain ⟨h1, h2⟩ := hM.1 e he
    have h3 := Graph.nbrs_lt hr h2
    have hne := hp.2 e.1 h1 e.2 h2
    by_cases hc : g.part.getD e.1 false = true
    · simp only [xo, yo, if_pos hc]
      refine ⟨h1, h3, hc, ?_, h2, Or.inl ⟨trivial, trivial⟩⟩
      rw [hc] at hne
      revert hne; cases g.part.getD e.2 false <;> simp
    · simp only [xo, yo, if_neg hc]
      have hc1 : g.part.getD e.1 false = false := by simpa using hc
      refine ⟨h3, h1, ?_, hc1, Graph.nbrs_sym hr hs h2, Or.inr ⟨trivial, trivial⟩⟩
      rw [hc1] at hne
      revert hne; cases g.part.getD e.2 false <;> simp
  have hφ : ∀ e ∈ M,
      (pred.getD (xo e) 0 ≠ -2 ∧ pred.getD (φ e) 0 ≠ -2 ∧ φ e < g.n ∧
        g.part.getD (φ e) false = true ∧ mate.getD (φ e) 0 = (yo e : Int)) ∨
      (¬ pred.getD (xo e) 0 ≠ -2 ∧ φ e = xo e ∧ mate.getD (xo e) 0 ≠ -1) := by
    intro e he
    obtain ⟨o1, o2, o3, o4, o5, _⟩ := horient e he
    by_cases hd : pred.getD (xo e) 0 ≠ -2
    · left
      obtain ⟨x1, hx1, e1, e2, e3, e4⟩ := sinv_cover hp hm inv hfin o1 o2 o3 o4 o5 hd
      have : φ e = x1 := by simp only [φ, if_pos hd, e1, Int.toNat_ofNat]
      rw [this]
      exact ⟨hd, e4, hx1, e3, e2⟩
    · right
      refine ⟨hd, by simp only [φ, if_neg hd], ?_⟩
      intro hexp
      exact hd (inv.exposed _ o1 o3 hexp)
  apply Finset.card_le_card_of_injOn φ
  · intro e he
    have he' : e ∈ M := he
    obtain ⟨o1, _, o3, _, _, _⟩ := horient e he'
    rcases hφ e he' with ⟨_, _, f1, f2, f3⟩ | ⟨_, f1, f2⟩
    · exact Finset.mem_coe.2 (mem_matchedX.2 ⟨f1, f2, by rw [f3]; omega⟩)
    · rw [f1]
      exact Finset.mem_coe.2 (mem_matchedX.2 ⟨o1, o3, f2⟩)
  · intro e1 he1 e2 he2 heq
    have he1' : e1 ∈ M := he1
    have he2' : e2 ∈ M := he2
    by_contra hne
    obtain ⟨n1, n2, n3, n4⟩ := hM.2 e1 he1' e2 he2' hne
    obtain ⟨_, _, _, _, _, a6⟩ := horient e1 he1'
    obtain ⟨_, _, _, _, _, b6⟩ := horient e2 he2'
    rcases hφ e1 he1' with ⟨f0, f1, _, _, f4⟩ | ⟨f0, f1, _⟩ <;>
      rcases hφ e2 he2' with ⟨k0, k1, _, _, k4⟩ | ⟨k0, k1, _⟩
    · rw [heq, k4] at f4
      have hy : yo e2 = yo e1 := by exact_mod_cast f4
      rcases a6 with ⟨_, a⟩ | ⟨_, a⟩ <;> rcases b6 with ⟨_, b⟩ | ⟨_, b⟩ <;>
        rw [a, b] at hy <;> simp_all
    · rw [heq, k1] at f1
      exact k0 f1
    · rw [← heq, f1] at k1
      exact f0 k1
    · rw [f1, k1] at heq
      rcases a6 with ⟨a, _⟩ | ⟨a, _⟩ <;> rcases b6 with ⟨b, _⟩ | ⟨b, _⟩ <;>
        rw [a, b] at heq <;> simp_all

/-! ### The matching driver -/

theorem matchedSet_card_le (mate : List Int) : (matchedSet mate).card ≤ mate.length := by
  have := Finset.card_filter_le (Finset.range mate.length) (fun v => mate.getD v 0 ≠ -1)
  simpa [matchedSet] using this

theorem augment_eq {g : Graph} {mate : List Int} {p : List Nat}
    (hpath : IsAugmentingPath g mate p) : augment p mate = some (augment_pairs p mate) := by
  unfold augment
  rw [if_pos hpath.2.2.1]

/-- The augmentation loop on a properly labelled graph: it returns within
`(n - matched) / 2 + 1` rounds, with a valid matching for which the drained search finds no
exposed terminal. -/
theorem mcm_loop_spec {g : Graph} (hr : g.InRange) (hs : g.Symmetric) (hp : g.PartProper)
    (fuel0 : Nat) (hf0 : g.n ≤ fuel0) :
    ∀ (fuel : Nat) (mate : List Int), ValidMatching g mate →
      g.n + 1 ≤ (matchedSet mate).card + 2 * fuel →
      ∃ mate1, mcm_loop (augmenting_bipartite fuel0 g) fuel mate [] = some mate1 ∧
        ValidMatching g mate1 ∧
        ∃ pred d, SInv g mate1 pred d [] ∧
          ∀ t < g.n, pred.getD t 0 ≠ -2 → g.part.getD t false = false →
            mate1.getD t 0 ≠ -1 := by
  intro fuel
  induction fuel with
  | zero =>
    intro mate hm hfuel
    have := matchedSet_card_le mate
    rw [hm.1] at this
    omega
  | succ fuel ih =>
    intro mate hm hfuel
    obtain ⟨pred, d, inv, h | ⟨p, h1, h2, _⟩⟩ := ab_outcome hr hp hm fuel0 hf0
    · refine ⟨mate, ?_, hm, pred, d, inv, h.2⟩
      simp only [mcm_loop, h.1]
    · have hv := augment_valid hr hs hm h2
      have hc := augment_matchedSet hr hs hm h2
      obtain ⟨mate1, e1, e2, e3⟩ := ih (augment_pairs p mate) hv (by omega)
      refine ⟨mate1, ?_, e2, e3⟩
      simp only [mcm_loop, h1, augment_eq h2]
      exact e1

theorem valid_all_unmatched (g : Graph) : ValidMatching g (List.replicate g.n (-1)) := by
  refine ⟨by simp, ?_⟩
  intro v hv
  left
  simp [List.getD_eq_getElem?_getD, List.getElem?_replicate, hv]

theorem matchedSet_all_unmatched (n : Nat) : matchedSet (List.replicate n (-1)) = ∅ := by
  ext v
  rw [mem_matchedSet]
  simp only [Finset.not_mem_empty, iff_false, not_and, not_not, List.length_replicate]
  intro hv
  simp [List.getD_eq_getElem?_getD, List.getElem?_replicate, hv]

/-- Outcome of `maximum_cardinality_matching` from the all `-1` vector, by the result of the
final edge scan of `is_bipartite`. -/
theorem mcm_spec (g : Graph) (hr : g.InRange) (hs : g.Symmetric) (fuel : Nat)
    (hf : g.n < fuel) :
    ∃ part mate1,
      g.is_bipartite fuel = some (bip_check g.adj part g.n, { g with part := part }) ∧
      part.length = g.n ∧ (g.Bipartite → bip_check g.adj part g.n = true) ∧
      g.maximum_cardinality_matching fuel (List.replicate g.n (-1))
        = some ({ g with part := part }, mate1) ∧
      ValidMatching g mate1 ∧
      (bip_check g.adj part g.n = false → mate1 = List.replicate g.n (-1)) ∧
      (bip_check g.adj part g.n = true →
        (matchedSet mate1).card
          = 2 * (matchedX g.n (fun v => part.getD v false) mate1).card ∧
        ∀ M : Finset (Nat × Nat), IsMatchingOf g M →
          M.card ≤ (matchedX g.n (fun v => part.getD v false) mate1).card) := by
  obtain ⟨part, h1, h2, h3⟩ := is_bipartite_spec g hr fuel (by omega)
  cases hb : bip_check g.adj part g.n with
  | false =>
    have h1b := h1
    rw [hb] at h1b
    refine ⟨part, List.replicate g.n (-1), h1, h2,
      fun hbip => by rw [h3 hs hbip] at hb; exact absurd hb (by simp), ?_,
      valid_all_unmatched g, fun _ => rfl, ?_⟩
    · obtain ⟨f, rfl⟩ : ∃ f, fuel = f + 1 := ⟨fuel - 1, by omega⟩
      simp [Graph.maximum_cardinality_matching, h1b, mcm_loop, augmenting_non_bipartite]
    · intro h; rw [hb] at h; exact absurd h (by simp)
  | true =>
    have h1b := h1
    rw [hb] at h1b
    have hp : Graph.PartProper { g with part := part } :=
      ⟨h2, (bip_check_true g.adj part g.n).1 hb⟩
    have hr1 : Graph.InRange { g with part := part } := hr
    have hs1 : Graph.Symmetric { g with part := part } := hs
    obtain ⟨mate1, e1, e2, pred, d, inv, hfin⟩ :=
      mcm_loop_spec hr1 hs1 hp fuel (by show g.n ≤ fuel; omega) fuel
        (List.replicate g.n (-1)) (valid_all_unmatched g) (by show g.n + 1 ≤ _; omega)
    refine ⟨part, mate1, h1, h2, fun _ => hb, ?_, e2,
      fun h => by rw [hb] at h; exact absurd h (by simp), ?_⟩
    · simp only [Graph.maximum_cardinality_matching, h1b, if_true]
      rw [e1]
    · intro _
      refine ⟨matched_card_two_mul (g := { g with part := part }) hp.2 e2, ?_⟩
      intro M hM
      exact konig_bound hr1 hs1 hp e2 inv hfin M hM

/-! ### Graph builders -/

theorem push_nbr_length (adj : List (List Nat)) (u v : Nat) :
    (push_nbr adj u v).length = adj.length := by
  simp [push_nbr]

theorem push_nbr_getD (adj : List (List Nat)) (u v x : Nat) (hu : u < adj.length) :
    (push_nbr adj u v).getD x [] = if x = u then adj.getD u [] ++ [v] else adj.getD x [] := by
  unfold push_nbr
  by_cases h : x = u
  · subst h; rw [if_pos rfl, getD_set_eq _ _ _ _ hu]
  · rw [if_neg h, getD_set_ne _ _ _ _ _ (Ne.symm h)]

theorem mem_add_edge_unchecked (g : Graph) (u v x y : Nat) (hu : u < g.adj.length)
    (hv : v < g.adj.length) :
    y ∈ (g.add_edge_unchecked u v).nbrs x ↔
      y ∈ g.nbrs x ∨ (x = u ∧ y = v) ∨ (x = v ∧ y = u) := by
  unfold Graph.add_edge_unchecked Graph.nbrs
  simp only
  rw [push_nbr_getD _ _ _ _ (by rw [push_nbr_length]; exact hv), push_nbr_getD _ _ _ _ hu,
    push_nbr_getD _ _ _ _ hu]
  by_cases hxv : x = v <;> by_cases hxu : x = u <;> by_cases hvu : v = u <;>
    simp_all [List.mem_append]

theorem EdgesAre.add {g : Graph} {N : Nat} {R : Nat → Nat → Prop} (h : EdgesAre g N R)
    {u v : Nat} (hu : u < N) (hv : v < N) :
    EdgesAre (g.add_edge_unchecked u v) N
      (fun x y => R x y ∨ (x = u ∧ y = v) ∨ (x = v ∧ y = u)) := by
  refine ⟨h.n_eq, ?_, ?_⟩
  · show (push_nbr (push_nbr g.adj u v) v u).length = N
    rw [push_nbr_length, push_nbr_length]; exact h.len
  · intro x y
    rw [mem_add_edge_unchecked g u v x y (by rw [h.len]; exact hu) (by rw [h.len]; exact hv),
      h.mem]

theorem EdgesAre.congr {g : Graph} {N : Nat} {R S : Nat → Nat → Prop} (h : EdgesAre g N R)
    (hRS : ∀ x y, R x y ↔ S x y) : EdgesAre g N S :=
  ⟨h.n_eq, h.len, fun x y => (h.mem x y).trans (hRS x y)⟩

theorem EdgesAre.create (n : Nat) : EdgesAre (Graph.create n) n (fun _ _ => False) := by
  refine ⟨rfl, by simp [Graph.create], ?_⟩
  intro x y
  simp only [Graph.nbrs, Graph.create, iff_false]
  by_cases hx : x < n
  · rw [List.getD_eq_getElem _ _ (by simpa using hx)]; simp
  · rw [List.getD_eq_default _ _ (by simp; omega)]; simp

theorem EdgesAre.inRange {g : Graph} {N : Nat} {R : Nat → Nat → Prop} (h : EdgesAre g N R)
    (hR : ∀ x y, R x y → y < N) : g.InRange := by
  refine ⟨by rw [h.len, h.n_eq], ?_⟩
  intro l hl w hw
  obtain ⟨i, hi, rfl⟩ := List.mem_iff_getElem.1 hl
  rw [h.n_eq]
  apply hR i w
  rw [← h.mem]
  unfold Graph.nbrs
  rw [List.getD_eq_getElem _ _ hi]
  exact hw

theorem EdgesAre.symmetric {g : Graph} {N : Nat} {R : Nat → Nat → Prop} (h : EdgesAre g N R)
    (hR : ∀ x y, R x y → R y x) : g.Symmetric := by
  intro u _ v hv
  rw [h.mem] at hv ⊢
  exact hR u v hv

/-- A loop adding the edges `(f i, h i)` for `i` in a list. -/
theorem EdgesAre.fold {N : Nat} (f h : Nat → Nat) :
    ∀ (is : List Nat) (g : Graph) (R : Nat → Nat → Prop), EdgesAre g N R →
      (∀ i ∈ is, f i < N ∧ h i < N) →
      EdgesAre (is.foldl (fun res i => res.add_edge_unchecked (f i) (h i)) g) N
        (fun x y => R x y ∨ ∃ i ∈ is, (x = f i ∧ y = h i) ∨ (x = h i ∧ y = f i)) := by
  intro is
  induction is with
  | nil => intro g R hg _; exact hg.congr (by simp)
  | cons i is ih =>
    intro g R hg hlt
    have hi := hlt i (List.mem_cons_self _ _)
    have := ih _ _ (hg.add hi.1 hi.2) (fun j hj => hlt j (List.mem_cons_of_mem _ hj))
    simp only [List.foldl_cons]
    refine this.congr ?_
    intro x y
    constructor
    · rintro ((h1 | h1) | ⟨j, hj, h1⟩)
      · exact Or.inl h1
      · exact Or.inr ⟨i, List.mem_cons_self _ _, h1⟩
      · exact Or.inr ⟨j, List.mem_cons_of_mem _ hj, h1⟩
    · rintro (h1 | ⟨j, hj, h1⟩)
      · exact Or.inl (Or.inl h1)
      · rcases List.mem_cons.1 hj with rfl | hj
        · exact Or.inl (Or.inr h1)
        · exact Or.inr ⟨j, hj, h1⟩

theorem path_edges (n : Nat) :
    EdgesAre (Graph.path n) n (fun x y => (x + 1 = y ∧ y < n) ∨ (y + 1 = x ∧ x < n)) := by
  have := EdgesAre.fold (N := n) (fun i => i) (fun i => i + 1) (List.range (n - 1))
    (Graph.create n) _ (EdgesAre.create n)
    (fun i hi => by
      have := List.mem_range.1 hi
      constructor <;> dsimp only <;> omega)
  unfold Graph.path
  refine this.congr ?_
  intro x y
  simp only [List.mem_range, false_or]
  constructor
  · rintro ⟨i, hi, h | h⟩
    · left; omega
    · right; omega
  · rintro (h | h)
    · exact ⟨x, by omega, Or.inl ⟨rfl, by omega⟩⟩
    · exact ⟨y, by omega, Or.inr ⟨by omega, rfl⟩⟩

theorem cycle_edges (n : Nat) (hn : 1 ≤ n) :
    EdgesAre (Graph.cycle n) n (fun x y => (x + 1 = y ∧ y < n) ∨ (y + 1 = x ∧ x < n) ∨
      (x = 0 ∧ y = n - 1) ∨ (x = n - 1 ∧ y = 0)) := by
  have := (path_edges n).add (u := 0) (v := n - 1) (by omega) (by omega)
  unfold Graph.cycle
  refine this.congr ?_
  intro x y
  tauto

theorem complete_bipartite_edges (n m : Nat) :
    EdgesAre (Graph.complete_bipartite n m) (n + m)
      (fun x y => (x < n ∧ n ≤ y ∧ y < n + m) ∨ (y < n ∧ n ≤ x ∧ x < n + m)) := by
  have houter : ∀ (is : List Nat) (g : Graph) (R : Nat → Nat → Prop), EdgesAre g (n + m) R →
      (∀ i ∈ is, i < n) →
      EdgesAre (is.foldl (fun res i => (List.range' n m).foldl
          (fun res j => res.add_edge_unchecked i j) res) g) (n + m)
        (fun x y => R x y ∨ ∃ i ∈ is, ∃ j, (n ≤ j ∧ j < n + m) ∧
          ((x = i ∧ y = j) ∨ (x = j ∧ y = i))) := by
    intro is
    induction is with
    | nil => intro g R hg _; exact hg.congr (by simp)
    | cons i is ih =>
      intro g R hg hlt
      have hi := hlt i (List.mem_cons_self _ _)
      have hin := EdgesAre.fold (N := n + m) (fun _ => i) (fun j => j) (List.range' n m) g R hg
        (fun j hj => by
          have := List.mem_range'_1.1 hj
          constructor <;> dsimp only <;> omega)
      have := ih _ _ hin (fun j hj => hlt j (List.mem_cons_of_mem _ hj))
      simp only [List.foldl_cons]
      refine this.congr ?_
      intro x y
      constructor
      · rintro ((h1 | ⟨j, hj, h1⟩) | ⟨k, hk, h1⟩)
        · exact Or.inl h1
        · have hj1 := List.mem_range'_1.1 hj
          exact Or.inr ⟨i, List.mem_cons_self _ _, j, ⟨hj1.1, hj1.2⟩, h1⟩
        · exact Or.inr ⟨k, List.mem_cons_of_mem _ hk, h1⟩
      · rintro (h1 | ⟨k, hk, j, hj, h1⟩)
        · exact Or.inl (Or.inl h1)
        · rcases List.mem_cons.1 hk with rfl | hk
          · exact Or.inl (Or.inr ⟨j, List.mem_range'_1.2 ⟨hj.1, hj.2⟩, h1⟩)
          · exact Or.inr ⟨k, hk, j, hj, h1⟩
  have := houter (List.range n) (Graph.create (n + m)) _ (EdgesAre.create (n + m))
    (fun i hi => List.mem_range.1 hi)
  unfold Graph.complete_bipartite
  refine this.congr ?_
  intro x y
  simp only [List.mem_range, false_or]
  constructor
  · rintro ⟨i, hi, j, hj, h | h⟩
    · left; omega
    · right; omega
  · rintro (h | h)
    · exact ⟨x, h.1, y, h.2, Or.inl ⟨rfl, rfl⟩⟩
    · exact ⟨y, h.1, x, h.2, Or.inr ⟨rfl, rfl⟩⟩

/-! ### Claims about the driver and the oracle -/

theorem matching_size_of_card {mate : List Int} {k : Nat}
    (h : (matchedSet mate).card = 2 * k) :
    (mate.countP fun x => decide (x ≠ -1)) = 2 * k ∧ matching_size mate = some k := by
  have hc := countP_eq_card_matched mate
  rw [h] at hc
  refine ⟨hc, ?_⟩
  unfold matching_size
  rw [hc, if_pos (by omega)]
  congr 1
  omega

theorem valid_matching_entries {g : Graph} {mate : List Int} (hm : ValidMatching g mate) :
    ∀ v < g.n, ∀ w : Int, mate.getD v 0 = w → w ≠ -1 →
      0 ≤ w ∧ w < g.n ∧ w.toNat ∈ g.nbrs v ∧ mate.getD w.toNat 0 = (v : Int) := by
  intro v hv w hw hne
  obtain ⟨x, hx, x1, x2, x3⟩ := matched_partner hm hv (by rw [hw]; exact hne)
  rw [← hw, x1]
  simp only [Int.toNat_ofNat]
  exact ⟨by omega, by omega, x2, x3⟩

/-- C1: on a bipartite graph with in-range, symmetric adjacency lists,
`maximum_cardinality_matching` started from the all `-1` vector returns a `mate` that encodes
a matching of `g`, and no matching of `g` has more edges than half the number of entries of
`mate` different from `-1`. -/
theorem maximum_cardinality_matching_is_maximum (g : Graph) (fuel : Nat) (hr : g.InRange)
    (hs : g.Symmetric) (hb : g.Bipartite) (hf : g.n < fuel) :
    ∃ g1 mate1, g.maximum_cardinality_matching fuel (List.replicate g.n (-1)) = some (g1, mate1) ∧
      ValidMatching g mate1 ∧
      ∀ M : Finset (Nat × Nat), IsMatchingOf g M →
        M.card ≤ (mate1.countP fun x => decide (x ≠ -1)) / 2 := by
  obtain ⟨part, mate1, _, _, h3, h4, h5, _, h7⟩ := mcm_spec g hr hs fuel hf
  obtain ⟨h8, h9⟩ := h7 (h3 hb)
  refine ⟨_, mate1, h4, h5, ?_⟩
  intro M hM
  rw [(matching_size_of_card h8).1]
  have := h9 M hM
  omega

theorem maximum_cardinality_matching_is_maximum_witness :
    ∃ g1 mate1, (Graph.path 2).maximum_cardinality_matching 3
        (List.replicate (Graph.path 2).n (-1)) = some (g1, mate1) ∧
      ValidMatching (Graph.path 2) mate1 ∧
      ∀ M : Finset (Nat × Nat), IsMatchingOf (Graph.path 2) M →
        M.card ≤ (mate1.countP fun x => decide (x ≠ -1)) / 2 :=
  maximum_cardinality_matching_is_maximum (Graph.path 2) 3 (by decide) (by decide)
    ⟨fun v => decide (v = 0), by decide⟩ (by decide)

/-- C2: on every graph with in-range, symmetric adjacency lists (bipartite or not),
`maximum_cardinality_matching` started from the all `-1` vector returns a `mate` of length `n`
in which every entry `w` different from `-1` at index `v` lies in `[0, n)`, is a neighbour of
`v` and satisfies `mate[w] = v`; the number of entries different from `-1` is even. -/
theorem maximum_cardinality_matching_is_matching (g : Graph) (fuel : Nat) (hr : g.InRange)
    (hs : g.Symmetric) (hf : g.n < fuel) :
    ∃ g1 mate1, g.maximum_cardinality_matching fuel (List.replicate g.n (-1)) = some (g1, mate1) ∧
      mate1.length = g.n ∧
      (∀ v < g.n, ∀ w : Int, mate1.getD v 0 = w → w ≠ -1 →
        0 ≤ w ∧ w < g.n ∧ w.toNat ∈ g.nbrs v ∧ mate1.getD w.toNat 0 = (v : Int)) ∧
      (mate1.countP fun x => decide (x ≠ -1)) % 2 = 0 := by
  obtain ⟨part, mate1, _, _, _, h4, h5, h6, h7⟩ := mcm_spec g hr hs fuel hf
  refine ⟨_, mate1, h4, h5.1, valid_matching_entries h5, ?_⟩
  cases hb : bip_check g.adj part g.n with
  | false =>
    rw [h6 hb, countP_eq_card_matched, matchedSet_all_unmatched]
    rfl
  | true =>
    rw [(matching_size_of_card (h7 hb).1).1]
    omega

theorem maximum_cardinality_matching_is_matching_witness :
    ∃ g1 mate1, (Graph.cycle 3).maximum_cardinality_matching 4
        (List.replicate (Graph.cycle 3).n (-1)) = some (g1, mate1) ∧
      mate1.length = (Graph.cycle 3).n ∧
      (∀ v < (Graph.cycle 3).n, ∀ w : Int, mate1.getD v 0 = w → w ≠ -1 →
        0 ≤ w ∧ w < (Graph.cycle 3).n ∧ w.toNat ∈ (Graph.cycle 3).nbrs v ∧
          mate1.getD w.toNat 0 = (v : Int)) ∧
      (mate1.countP fun x => decide (x ≠ -1)) % 2 = 0 :=
  maximum_cardinality_matching_is_matching (Graph.cycle 3) 4 (by decide) (by decide)
    (by decide)

/-- C3: on every graph with in-range, symmetric adjacency lists `is_bipartite` returns, and
it returns `true` exactly when some assignment of one boolean per vertex gives the two ends
of every edge different labels. -/
theorem is_bipartite_iff_bipartite (g : Graph) (fuel : Nat) (hr : g.InRange)
    (hs : g.Symmetric) (hf : g.n ≤ fuel) :
    ∃ b g1, g.is_bipartite fuel = some (b, g1) ∧ (b = true ↔ g.Bipartite) := by
  obtain ⟨part, h1, _, h3⟩ := is_bipartite_spec g hr fuel hf
  refine ⟨_, _, h1, ?_, h3 hs⟩
  intro hb
  exact ⟨fun v => part.getD v false, (bip_check_true g.adj part g.n).1 hb⟩

theorem is_bipartite_iff_bipartite_witness :
    ∃ b g1, (Graph.complete_bipartite 1 2).is_bipartite 3 = some (b, g1) ∧
      (b = true ↔ (Graph.complete_bipartite 1 2).Bipartite) :=
  is_bipartite_iff_bipartite (Graph.complete_bipartite 1 2) 3 (by decide) (by decide)
    (by decide)

/-- C4: on every graph with in-range adjacency lists `is_bipartite` returns, leaving the graph
otherwise unchanged, and whenever it returns `true` the `part` vector it leaves has exactly
`n` entries and gives different labels to `u` and to every `v` in the neighbour list of `u`. -/
theorem is_bipartite_part_proper (g : Graph) (fuel : Nat) (hr : g.InRange) (hf : g.n ≤ fuel) :
    ∃ b part, g.is_bipartite fuel = some (b, { g with part := part }) ∧
      (b = true → part.length = g.n ∧
        ∀ u < g.n, ∀ v ∈ g.nbrs u, part.getD u false ≠ part.getD v false) := by
  obtain ⟨part, h1, h2, _⟩ := is_bipartite_spec g hr fuel hf
  exact ⟨_, part, h1, fun hb => ⟨h2, (bip_check_true g.adj part g.n).1 hb⟩⟩

theorem is_bipartite_part_proper_witness :
    ∃ b part, (Graph.path 3).is_bipartite 3 = some (b, { Graph.path 3 with part := part }) ∧
      (b = true → part.length = (Graph.path 3).n ∧
        ∀ u < (Graph.path 3).n, ∀ v ∈ (Graph.path 3).nbrs u,
          part.getD u false ≠ part.getD v false) :=
  is_bipartite_part_proper (Graph.path 3) 3 (by decide) (by decide)

/-! ### Claims about the path finder -/

/-- C5: on a graph with in-range adjacency lists, a proper labelling `part` and a valid
matching `mate`, `augmenting_bipartite` called with an empty result vector returns, and when it
returns `true` the result is an augmenting path: pairwise distinct vertices, even length at
least 2, first vertex labelled `true` and exposed, last vertex labelled `false` and exposed,
consecutive vertices adjacent, edges `(res[2i], res[2i+1])` unmatched and edges
`(res[2i+1], res[2i+2])` matched. -/
theorem augmenting_bipartite_returns_augmenting_path (g : Graph) (mate : List Int) (fuel : Nat)
    (hr : g.InRange) (hp : g.PartProper) (hm : ValidMatching g mate) (hf : g.n ≤ fuel) :
    ∃ b p, augmenting_bipartite fuel g mate [] = some (b, p) ∧
      (b = true → IsAugmentingPath g mate p) := by
  obtain ⟨pred, d, _, h | ⟨p, h1, h2, _⟩⟩ := ab_outcome hr hp hm fuel hf
  · exact ⟨false, [], h.1, fun hb => absurd hb (by simp)⟩
  · exact ⟨true, p, h1, fun _ => h2⟩

theorem augmenting_bipartite_returns_augmenting_path_witness :
    ∃ b p, augmenting_bipartite 4 ⟨4, 3, [true, false, true, false], [[1], [0, 2], [1, 3], [2]]⟩
        [-1, 2, 1, -1] [] = some (b, p) ∧
      (b = true → IsAugmentingPath ⟨4, 3, [true, false, true, false], [[1], [0, 2], [1, 3], [2]]⟩
        [-1, 2, 1, -1] p) :=
  augmenting_bipartite_returns_augmenting_path
    ⟨4, 3, [true, false, true, false], [[1], [0, 2], [1, 3], [2]]⟩ [-1, 2, 1, -1] 4
    (by decide) (by decide) (by decide) (by decide)

/-- C6: on a graph with in-range adjacency lists, a proper labelling `part` and a valid
matching `mate`, if an augmenting path (alternating, from an exposed vertex labelled `true` to
an exposed vertex labelled `false`) exists, then `augmenting_bipartite` returns `true`. -/
theorem augmenting_bipartite_finds_path (g : Graph) (mate : List Int) (fuel : Nat)
    (hr : g.InRange) (hp : g.PartProper) (hm : ValidMatching g mate) (hf : g.n ≤ fuel)
    (hex : ∃ p, IsAugmentingPath g mate p) :
    ∃ p, augmenting_bipartite fuel g mate [] = some (true, p) := by
  obtain ⟨pred, d, inv, h | ⟨p, h1, _⟩⟩ := ab_outcome hr hp hm fuel hf
  · exfalso
    obtain ⟨p1, hp1⟩ := hex
    have hl : p1.length - 1 < p1.length := by have := hp1.2.1; omega
    have hreach := sinv_reach hp hm inv hp1 (p1.length - 1) hl
    have hlast := hp1.2.2.2.2.2.1
    exact h.2 _ (hp1.2.2.2.1 _ (getD_mem_nat hl)) hreach.1 hlast.1 hlast.2
  · exact ⟨p, h1⟩

theorem augmenting_bipartite_finds_path_witness :
    ∃ p, augmenting_bipartite 4 ⟨4, 3, [true, false, true, false], [[1], [0, 2], [1, 3], [2]]⟩
        [-1, 2, 1, -1] [] = some (true, p) :=
  augmenting_bipartite_finds_path
    ⟨4, 3, [true, false, true, false], [[1], [0, 2], [1, 3], [2]]⟩ [-1, 2, 1, -1] 4
    (by decide) (by decide) (by decide) (by decide) ⟨[0, 1, 2, 3], by decide⟩

/-- C7 (as stated, refuted): on the path `0 - 3 = 2 - 1 - 4` with the edge `{2, 3}` matched,
`augmenting_bipartite` returns the augmenting path `1, 2, 3, 0` of four vertices although
`1, 4` is an augmenting path of two vertices. -/
theorem augmenting_bipartite_not_shortest :
    Graph.InRange ⟨5, 4, [false, true, false, true, false], [[3], [4, 2], [1, 3], [2, 0], [1]]⟩ ∧
    Graph.Symmetric ⟨5, 4, [false, true, false, true, false], [[3], [4, 2], [1, 3], [2, 0], [1]]⟩ ∧
    Graph.PartProper ⟨5, 4, [false, true, false, true, false], [[3], [4, 2], [1, 3], [2, 0], [1]]⟩ ∧
    ValidMatching ⟨5, 4, [false, true, false, true, false], [[3], [4, 2], [1, 3], [2, 0], [1]]⟩
      [-1, -1, 3, 2, -1] ∧
    augmenting_bipartite 5
      ⟨5, 4, [false, true, false, true, false], [[3], [4, 2], [1, 3], [2, 0], [1]]⟩
      [-1, -1, 3, 2, -1] [] = some (true, [1, 2, 3, 0]) ∧
    IsAugmentingPath ⟨5, 4, [false, true, false, true, false], [[3], [4, 2], [1, 3], [2, 0], [1]]⟩
      [-1, -1, 3, 2, -1] [1, 4] ∧
    [1, 4].length < [1, 2, 3, 0].length := by
  decide

/-- C7 (amended): on a graph with in-range adjacency lists, a proper labelling `part` and a
valid matching `mate`, whenever `augmenting_bipartite` returns a path, that path is an
augmenting path and no augmenting path with respect to the same `mate` that ends in the same
vertex has fewer vertices. -/
theorem augmenting_bipartite_shortest_to_terminal (g : Graph) (mate : List Int) (fuel : Nat)
    (hr : g.InRange) (hp : g.PartProper) (hm : ValidMatching g mate) (hf : g.n ≤ fuel) :
    ∃ b p, augmenting_bipartite fuel g mate [] = some (b, p) ∧
      (b = true → IsAugmentingPath g mate p ∧
        ∀ p1, IsAugmentingPath g mate p1 →
          p1.getD (p1.length - 1) 0 = p.getD (p.length - 1) 0 → p.length ≤ p1.length) := by
  obtain ⟨pred, d, inv, h | ⟨p, h1, h2, _, h4⟩⟩ := ab_outcome hr hp hm fuel hf
  · exact ⟨false, [], h.1, fun hb => absurd hb (by simp)⟩
  · refine ⟨true, p, h1, fun _ => ⟨h2, ?_⟩⟩
    intro p1 hp1 hlast
    have hl : p1.length - 1 < p1.length := by have := hp1.2.1; omega
    have hreach := sinv_reach hp hm inv hp1 (p1.length - 1) hl
    rw [hlast] at hreach
    omega

theorem augmenting_bipartite_shortest_to_terminal_witness :
    ∃ b p, augmenting_bipartite 5
        ⟨5, 4, [false, true, false, true, false], [[3], [4, 2], [1, 3], [2, 0], [1]]⟩
        [-1, -1, 3, 2, -1] [] = some (b, p) ∧
      (b = true →
        IsAugmentingPath
          ⟨5, 4, [false, true, false, true, false], [[3], [4, 2], [1, 3], [2, 0], [1]]⟩
          [-1, -1, 3, 2, -1] p ∧
        ∀ p1, IsAugmentingPath
            ⟨5, 4, [false, true, false, true, false], [[3], [4, 2], [1, 3], [2, 0], [1]]⟩
            [-1, -1, 3, 2, -1] p1 →
          p1.getD (p1.length - 1) 0 = p.getD (p.length - 1) 0 → p.length ≤ p1.length) :=
  augmenting_bipartite_shortest_to_terminal
    ⟨5, 4, [false, true, false, true, false], [[3], [4, 2], [1, 3], [2, 0], [1]]⟩
    [-1, -1, 3, 2, -1] 5 (by decide) (by decide) (by decide) (by decide)

/-! ### Claims about paths, cycles and complete bipartite graphs -/

/-- A bipartite graph with a matching covering all vertices: the driver classifies it as
bipartite and returns a perfect matching. -/
theorem mcm_perfect (g : Graph) (fuel : Nat) (hr : g.InRange) (hs : g.Symmetric)
    (hb : g.Bipartite) (hf : g.n < fuel) (M0 : Finset (Nat × Nat)) (hM0 : IsMatchingOf g M0)
    (hcard : g.n ≤ 2 * M0.card) :
    ∃ g1 mate1, g.is_bipartite fuel = some (true, g1) ∧
      g.maximum_cardinality_matching fuel (List.replicate g.n (-1)) = some (g1, mate1) ∧
      matching_size mate1 = some (g.n / 2) ∧ ∀ v < g.n, mate1.getD v 0 ≠ -1 := by
  obtain ⟨part, mate1, h1, _, h3, h4, h5, _, h7⟩ := mcm_spec g hr hs fuel hf
  have hb1 := h3 hb
  obtain ⟨h8, h9⟩ := h7 hb1
  rw [hb1] at h1
  have hle := matchedSet_card_le mate1
  rw [h5.1] at hle
  have hM := h9 M0 hM0
  have hk : (matchedX g.n (fun v => part.getD v false) mate1).card = g.n / 2 := by omega
  have hfull : matchedSet mate1 = Finset.range mate1.length := by
    apply Finset.eq_of_subset_of_card_le
    · exact Finset.filter_subset _ _
    · rw [Finset.card_range, h5.1]; omega
  refine ⟨_, mate1, h1, h4, ?_, ?_⟩
  · rw [← hk]; exact (matching_size_of_card h8).2
  · intro v hv
    have : v ∈ matchedSet mate1 := by rw [hfull, h5.1]; exact Finset.mem_range.2 hv
    exact (mem_matchedSet.1 this).2

theorem pairsMatching_card (k : Nat) : (pairsMatching k).card = k := by
  unfold pairsMatching
  rw [Finset.card_image_of_injective _ (fun a b h => by simp at h; omega), Finset.card_range]

theorem pairsMatching_isMatching {g : Graph} {n : Nat} {R : Nat → Nat → Prop}
    (hE : EdgesAre g n R) (hR : ∀ x y, x + 1 = y ∧ y < n → R x y) (k : Nat) (hk : 2 * k ≤ n) :
    IsMatchingOf g (pairsMatching k) := by
  constructor
  · intro e he
    obtain ⟨i, hi, rfl⟩ := Finset.mem_image.1 he
    have := Finset.mem_range.1 hi
    refine ⟨by rw [hE.n_eq]; dsimp only; omega, ?_⟩
    rw [hE.mem]
    exact hR _ _ ⟨rfl, by omega⟩
  · intro e1 he1 e2 he2 hne
    obtain ⟨i, _, rfl⟩ := Finset.mem_image.1 he1
    obtain ⟨j, _, rfl⟩ := Finset.mem_image.1 he2
    have hij : i ≠ j := by rintro rfl; exact hne rfl
    dsimp only
    omega

theorem parity_proper {g : Graph} {n : Nat} {R : Nat → Nat → Prop} (hE : EdgesAre g n R)
    (hR : ∀ x y, R x y → x % 2 ≠ y % 2) :
    ProperColouring g (fun v => decide (v % 2 = 0)) := by
  intro u _ v hv
  have := hR u v ((hE.mem u v).1 hv)
  simp only [ne_eq, decide_eq_decide]
  omega

/-- C9: for every even `n ≥ 2`, `is_bipartite` returns `true` on `path(n)` and on `cycle(n)`,
and `maximum_cardinality_matching` from the all `-1` vector returns on each a matching of size
`n / 2` in which every vertex is matched. -/
theorem path_cycle_even_perfect_matching (n fuel : Nat) (hn : 2 ≤ n) (he : n % 2 = 0)
    (hf : n < fuel) :
    (∃ g1 mate1, (Graph.path n).is_bipartite fuel = some (true, g1) ∧
      (Graph.path n).maximum_cardinality_matching fuel (List.replicate n (-1))
        = some (g1, mate1) ∧
      matching_size mate1 = some (n / 2) ∧ ∀ v < n, mate1.getD v 0 ≠ -1) ∧
    (∃ g1 mate1, (Graph.cycle n).is_bipartite fuel = some (true, g1) ∧
      (Graph.cycle n).maximum_cardinality_matching fuel (List.replicate n (-1))
        = some (g1, mate1) ∧
      matching_size mate1 = some (n / 2) ∧ ∀ v < n, mate1.getD v 0 ≠ -1) := by
  have hP := path_edges n
  have hC := cycle_edges n (by omega)
  constructor
  · have := mcm_perfect (Graph.path n) fuel
      (hP.inRange (fun x y h => by omega)) (hP.symmetric (fun x y h => by omega))
      ⟨_, parity_proper hP (fun x y h => by omega)⟩ (by rw [hP.n_eq]; exact hf)
      (pairsMatching (n / 2)) (pairsMatching_isMatching hP (fun x y h => Or.inl h) _ (by omega))
      (by rw [pairsMatching_card, hP.n_eq]; omega)
    rw [hP.n_eq] at this
    exact this
  · have := mcm_perfect (Graph.cycle n) fuel
      (hC.inRange (fun x y h => by omega)) (hC.symmetric (fun x y h => by omega))
      ⟨_, parity_proper hC (fun x y h => by omega)⟩ (by rw [hC.n_eq]; exact hf)
      (pairsMatching (n / 2)) (pairsMatching_isMatching hC (fun x y h => Or.inl h) _ (by omega))
      (by rw [pairsMatching_card, hC.n_eq]; omega)
    rw [hC.n_eq] at this
    exact this

theorem path_cycle_even_perfect_matching_witness :
    (∃ g1 mate1, (Graph.path 4).is_bipartite 5 = some (true, g1) ∧
      (Graph.path 4).maximum_cardinality_matching 5 (List.replicate 4 (-1))
        = some (g1, mate1) ∧
      matching_size mate1 = some (4 / 2) ∧ ∀ v < 4, mate1.getD v 0 ≠ -1) ∧
    (∃ g1 mate1, (Graph.cycle 4).is_bipartite 5 = some (true, g1) ∧
      (Graph.cycle 4).maximum_cardinality_matching 5 (List.replicate 4 (-1))
        = some (g1, mate1) ∧
      matching_size mate1 = some (4 / 2) ∧ ∀ v < 4, mate1.getD v 0 ≠ -1) :=
  path_cycle_even_perfect_matching 4 5 (by decide) (by decide) (by decide)

theorem odd_cycle_not_bipartite (n : Nat) (hn : n % 2 = 1) : ¬ (Graph.cycle n).Bipartite := by
  rintro ⟨c, hc⟩
  have hC := cycle_edges n (by omega)
  have hstep : ∀ i, i < n → c i = (if i % 2 = 0 then c 0 else !(c 0)) := by
    intro i
    induction i with
    | zero => intro _; simp
    | succ i ih =>
      intro hi
      have h1 := ih (by omega)
      have h2 := hc i (by rw [hC.n_eq]; omega) (i + 1) ((hC.mem _ _).2 (Or.inl ⟨rfl, hi⟩))
      rw [h1] at h2
      by_cases hpar : i % 2 = 0
      · have : (i + 1) % 2 ≠ 0 := by omega
        rw [if_pos hpar] at h2
        rw [if_neg this]
        revert h2; cases c 0 <;> cases c (i + 1) <;> simp
      · have : (i + 1) % 2 = 0 := by omega
        rw [if_neg hpar] at h2
        rw [if_pos this]
        revert h2; cases c 0 <;> cases c (i + 1) <;> simp
  have hlast := hstep (n - 1) (by omega)
  rw [if_pos (by omega)] at hlast
  have hedge := hc 0 (by rw [hC.n_eq]; omega) (n - 1)
    ((hC.mem _ _).2 (Or.inr (Or.inr (Or.inl ⟨rfl, rfl⟩))))
  exact hedge hlast.symm

/-- C10: for every odd `n ≥ 1`, `is_bipartite` returns `false` on `cycle(n)`. -/
theorem cycle_odd_is_bipartite_false (n fuel : Nat) (hn : n % 2 = 1) (hf : n ≤ fuel) :
    ∃ g1, (Graph.cycle n).is_bipartite fuel = some (false, g1) := by
  have hC := cycle_edges n (by omega)
  obtain ⟨part, h1, _, _⟩ := is_bipartite_spec (Graph.cycle n)
    (hC.inRange (fun x y h => by omega)) fuel (by rw [hC.n_eq]; exact hf)
  cases hb : bip_check (Graph.cycle n).adj part (Graph.cycle n).n with
  | false => rw [hb] at h1; exact ⟨_, h1⟩
  | true =>
    exfalso
    exact odd_cycle_not_bipartite n hn
      ⟨fun v => part.getD v false, (bip_check_true _ _ _).1 hb⟩

theorem cycle_odd_is_bipartite_false_witness :
    ∃ g1, (Graph.cycle 3).is_bipartite 3 = some (false, g1) :=
  cycle_odd_is_bipartite_false 3 3 (by decide) (by decide)

theorem crossMatching_card (n k : Nat) : (crossMatching n k).card = k := by
  unfold crossMatching
  rw [Finset.card_image_of_injective _ (fun a b h => by simp at h; omega), Finset.card_range]

theorem crossMatching_isMatching (n m k : Nat) (hkn : k ≤ n) (hkm : k ≤ m) :
    IsMatchingOf (Graph.complete_bipartite n m) (crossMatching n k) := by
  have hE := complete_bipartite_edges n m
  constructor
  · intro e he
    obtain ⟨i, hi, rfl⟩ := Finset.mem_image.1 he
    have := Finset.mem_range.1 hi
    refine ⟨by rw [hE.n_eq]; dsimp only; omega, ?_⟩
    rw [hE.mem]
    left
    dsimp only
    omega
  · intro e1 he1 e2 he2 hne
    obtain ⟨i, hi, rfl⟩ := Finset.mem_image.1 he1
    obtain ⟨j, hj, rfl⟩ := Finset.mem_image.1 he2
    have := Finset.mem_range.1 hi
    have := Finset.mem_range.1 hj
    have hij : i ≠ j := by rintro rfl; exact hne rfl
    dsimp only
    omega

/-- C8: for all `n` and `m` (in particular `n, m ≥ 1`), `maximum_cardinality_matching` on
`complete_bipartite(n, m)` from the all `-1` vector of length `n + m` returns a `mate` whose
`matching_size` (number of entries different from `-1`, halved) is `min(n, m)`. -/
theorem complete_bipartite_matching_size (n m fuel : Nat) (hf : n + m < fuel) :
    ∃ g1 mate1, (Graph.complete_bipartite n m).maximum_cardinality_matching fuel
        (List.replicate (n + m) (-1)) = some (g1, mate1) ∧
      matching_size mate1 = some (min n m) := by
  have hE := complete_bipartite_edges n m
  have hr := hE.inRange (fun x y h => by omega)
  have hs := hE.symmetric (fun x y h => by omega)
  have hc1 : ProperColouring (Graph.complete_bipartite n m) (fun v => decide (v < n)) := by
    intro u _ v hv
    have := (hE.mem u v).1 hv
    simp only [ne_eq, decide_eq_decide]
    omega
  have hc2 : ProperColouring (Graph.complete_bipartite n m) (fun v => decide (n ≤ v)) := by
    intro u _ v hv
    have := (hE.mem u v).1 hv
    simp only [ne_eq, decide_eq_decide]
    omega
  obtain ⟨part, mate1, _, _, h3, h4, h5, _, h7⟩ :=
    mcm_spec (Graph.complete_bipartite n m) hr hs fuel (by rw [hE.n_eq]; exact hf)
  obtain ⟨h8, h9⟩ := h7 (h3 ⟨_, hc1⟩)
  rw [hE.n_eq] at h4 h8 h9
  have hlow := h9 (crossMatching n (min n m))
    (crossMatching_isMatching n m (min n m) (Nat.min_le_left _ _) (Nat.min_le_right _ _))
  rw [crossMatching_card] at hlow
  have e1 := matched_card_two_mul hc1 h5
  have e2 := matched_card_two_mul hc2 h5
  rw [hE.n_eq] at e1 e2
  have b1 : (matchedX (n + m) (fun v => decide (v < n)) mate1).card ≤ n := by
    have hsub : matchedX (n + m) (fun v => decide (v < n)) mate1 ⊆ Finset.range n := by
      intro v hv
      have := (mem_matchedX.1 hv).2.1
      exact Finset.mem_range.2 (by simpa using this)
    simpa using Finset.card_le_card hsub
  have b2 : (matchedX (n + m) (fun v => decide (n ≤ v)) mate1).card ≤ m := by
    have hsub : matchedX (n + m) (fun v => decide (n ≤ v)) mate1 ⊆ Finset.Ico n (n + m) := by
      intro v hv
      have h := mem_matchedX.1 hv
      exact Finset.mem_Ico.2 ⟨by simpa using h.2.1, h.1⟩
    simpa using Finset.card_le_card hsub
  have hk : (matchedX (n + m) (fun v => part.getD v false) mate1).card = min n m := by
    have := Nat.min_le_left n m
    have := Nat.min_le_right n m
    rcases Nat.le_total n m with h | h
    · rw [Nat.min_eq_left h] at hlow ⊢; omega
    · rw [Nat.min_eq_right h] at hlow ⊢; omega
  refine ⟨_, mate1, h4, ?_⟩
  rw [← hk]
  exact (matching_size_of_card h8).2

theorem complete_bipartite_matching_size_witness :
    ∃ g1 mate1, (Graph.complete_bipartite 2 3).maximum_cardinality_matching 6
        (List.replicate (2 + 3) (-1)) = some (g1, mate1) ∧
      matching_size mate1 = some (min 2 3) :=
  complete_bipartite_matching_size 2 3 6 (by decide)

/-! ### The graph store under add_edge -/

theorem nbrs_add_edge_unchecked (g : Graph) (u v x : Nat) (hu : u < g.adj.length)
    (hv : v < g.adj.length) :
    (g.add_edge_unchecked u v).nbrs x =
      if x = v then (if v = u then g.nbrs u ++ [v] else g.nbrs v) ++ [u]
      else if x = u then g.nbrs u ++ [v] else g.nbrs x := by
  unfold Graph.add_edge_unchecked Graph.nbrs
  simp only
  rw [push_nbr_getD _ _ _ _ (by rw [push_nbr_length]; exact hv), push_nbr_getD _ _ _ _ hu,
    push_nbr_getD _ _ _ _ hu]

theorem count_add_edge_unchecked (g : Graph) (u v x y : Nat) (hu : u < g.adj.length)
    (hv : v < g.adj.length) :
    ((g.add_edge_unchecked u v).nbrs x).count y =
      (g.nbrs x).count y + (if x = u ∧ y = v then 1 else 0) + (if x = v ∧ y = u then 1 else 0) := by
  rw [nbrs_add_edge_unchecked g u v x hu hv]
  by_cases hxv : x = v <;> by_cases hxu : x = u <;> by_cases hvu : v = u <;>
    by_cases hyu : y = u <;> by_cases hyv : y = v <;>
    simp_all [List.count_append, List.count_cons, List.count_nil]

theorem add_edge_eq_some {g : Graph} {u v : Int} {g1 : Graph} (h : g.add_edge u v = some g1) :
    (0 ≤ u ∧ u < g.n) ∧ (0 ≤ v ∧ v < g.n) ∧ u ≠ v ∧
      g1 = g.add_edge_unchecked u.toNat v.toNat := by
  unfold Graph.add_edge at h
  split at h
  · rename_i h1
    split at h
    · rename_i h2
      split at h
      · rename_i h3
        simp at h
        exact ⟨h1, h2, h3, h.symm⟩
      · simp at h
    · simp at h
  · simp at h

/-- C15: on a graph whose adjacency vector has `n` lists, `add_edge(u, v)` faults exactly when
`u` is outside `[0, n)`, or `v` is outside `[0, n)`, or `u = v`; otherwise it succeeds, appends
`v` to the neighbour list of `u` and `u` to the neighbour list of `v`, increments the edge
count, and leaves `n`, `part` and every other neighbour list unchanged. -/
theorem add_edge_spec (g : Graph) (u v : Int) (hlen : g.adj.length = g.n) :
    (g.add_edge u v = none ↔
      (u < 0 ∨ (g.n : Int) ≤ u) ∨ (v < 0 ∨ (g.n : Int) ≤ v) ∨ u = v) ∧
    (¬ ((u < 0 ∨ (g.n : Int) ≤ u) ∨ (v < 0 ∨ (g.n : Int) ≤ v) ∨ u = v) →
      ∃ g1, g.add_edge u v = some g1 ∧ g1.n = g.n ∧ g1.m = g.m + 1 ∧ g1.part = g.part ∧
        g1.adj.length = g.adj.length ∧
        g1.nbrs u.toNat = g.nbrs u.toNat ++ [v.toNat] ∧
        g1.nbrs v.toNat = g.nbrs v.toNat ++ [u.toNat] ∧
        ∀ x, x ≠ u.toNat → x ≠ v.toNat → g1.nbrs x = g.nbrs x) := by
  constructor
  · unfold Graph.add_edge
    constructor
    · intro h
      by_contra hc
      rw [if_pos (by omega), if_pos (by omega), if_pos (by omega)] at h
      simp at h
    · intro h
      split
      · split
        · split
          · omega
          · rfl
        · rfl
      · rfl
  · intro hc
    have hu : u.toNat < g.adj.length := by omega
    have hv : v.toNat < g.adj.length := by omega
    have huv : u.toNat ≠ v.toNat := by omega
    refine ⟨g.add_edge_unchecked u.toNat v.toNat, ?_, rfl, rfl, rfl, ?_, ?_, ?_, ?_⟩
    · unfold Graph.add_edge
      rw [if_pos (by omega), if_pos (by omega), if_pos (by omega)]
    · show (push_nbr (push_nbr g.adj u.toNat v.toNat) v.toNat u.toNat).length = g.adj.length
      rw [push_nbr_length, push_nbr_length]
    · rw [nbrs_add_edge_unchecked g _ _ _ hu hv, if_neg huv, if_pos rfl]
    · rw [nbrs_add_edge_unchecked g _ _ _ hu hv, if_pos rfl, if_neg (Ne.symm huv)]
    · intro x hxu hxv
      rw [nbrs_add_edge_unchecked g _ _ _ hu hv, if_neg hxv, if_neg hxu]

theorem add_edge_spec_witness :
    ((Graph.create 3).add_edge 0 2 = none ↔
      ((0 : Int) < 0 ∨ ((Graph.create 3).n : Int) ≤ 0) ∨
        ((2 : Int) < 0 ∨ ((Graph.create 3).n : Int) ≤ 2) ∨ (0 : Int) = 2) ∧
    (¬ (((0 : Int) < 0 ∨ ((Graph.create 3).n : Int) ≤ 0) ∨
        ((2 : Int) < 0 ∨ ((Graph.create 3).n : Int) ≤ 2) ∨ (0 : Int) = 2) →
      ∃ g1, (Graph.create 3).add_edge 0 2 = some g1 ∧ g1.n = (Graph.create 3).n ∧
        g1.m = (Graph.create 3).m + 1 ∧ g1.part = (Graph.create 3).part ∧
        g1.adj.length = (Graph.create 3).adj.length ∧
        g1.nbrs (0 : Int).toNat = (Graph.create 3).nbrs (0 : Int).toNat ++ [(2 : Int).toNat] ∧
        g1.nbrs (2 : Int).toNat = (Graph.create 3).nbrs (2 : Int).toNat ++ [(0 : Int).toNat] ∧
        ∀ x, x ≠ (0 : Int).toNat → x ≠ (2 : Int).toNat →
          g1.nbrs x = (Graph.create 3).nbrs x) :=
  add_edge_spec (Graph.create 3) 0 2 (by decide)

/-- Invariant of the graph store under `add_edge`: `n` lists, entries below `n`, and `v`
occurs in the list of `u` as often as `u` occurs in the list of `v`. -/
theorem add_edges_invariant (n : Nat) :
    ∀ (es : List (Int × Int)) (g g1 : Graph), g.add_edges es = some g1 →
      (g.n = n ∧ g.adj.length = n ∧ (∀ x y, y ∈ g.nbrs x → y < n) ∧
        ∀ x y, (g.nbrs x).count y = (g.nbrs y).count x) →
      (g1.n = n ∧ g1.adj.length = n ∧ (∀ x y, y ∈ g1.nbrs x → y < n) ∧
        ∀ x y, (g1.nbrs x).count y = (g1.nbrs y).count x) := by
  intro es
  induction es with
  | nil =>
    intro g g1 h inv
    simp [Graph.add_edges] at h
    subst h
    exact inv
  | cons e es ih =>
    intro g g1 h inv
    simp only [Graph.add_edges] at h
    split at h
    · simp at h
    · rename_i g2 hg2
      obtain ⟨h1, h2, _, h4⟩ := add_edge_eq_some hg2
      obtain ⟨i1, i2, i3, i4⟩ := inv
      have hu : e.1.toNat < g.adj.length := by omega
      have hv : e.2.toNat < g.adj.length := by omega
      apply ih g2 g1 h
      subst h4
      refine ⟨i1, ?_, ?_, ?_⟩
      · show (push_nbr (push_nbr g.adj e.1.toNat e.2.toNat) e.2.toNat e.1.toNat).length = n
        rw [push_nbr_length, push_nbr_length]; exact i2
      · intro x y hy
        rcases (mem_add_edge_unchecked g _ _ x y hu hv).1 hy with h5 | h5 | h5
        · exact i3 x y h5
        · omega
        · omega
      · intro x y
        rw [count_add_edge_unchecked g _ _ x y hu hv, count_add_edge_unchecked g _ _ y x hu hv,
          i4 x y]
        by_cases c1 : x = e.1.toNat ∧ y = e.2.toNat <;>
          by_cases c2 : x = e.2.toNat ∧ y = e.1.toNat <;>
          simp [c1, c2, and_comm] <;> omega

/-- C16: in every graph obtained from `Graph(n)` by a finite sequence of successful `add_edge`
calls, for all `u, v` in `[0, n)`, `v` occurs in the neighbour list of `u` if and only if `u`
occurs in the neighbour list of `v`, with the same multiplicity, and every neighbour-list
entry lies in `[0, n)`. -/
theorem add_edges_symmetric (n : Nat) (es : List (Int × Int)) (g : Graph)
    (h : (Graph.create n).add_edges es = some g) :
    g.n = n ∧ g.adj.length = n ∧ (∀ l ∈ g.adj, ∀ w ∈ l, w < n) ∧
      ∀ u < n, ∀ v < n, (v ∈ g.nbrs u ↔ u ∈ g.nbrs v) ∧
        (g.nbrs u).count v = (g.nbrs v).count u := by
  have hE := EdgesAre.create n
  obtain ⟨h1, h2, h3, h4⟩ := add_edges_invariant n es (Graph.create n) g h
    ⟨rfl, hE.len, fun x y hy => absurd ((hE.mem x y).1 hy) (by simp), fun x y => by
      have hx : (Graph.create n).nbrs x = [] := by
        apply List.eq_nil_iff_forall_not_mem.2
        intro a ha; exact (hE.mem x a).1 ha
      have hy : (Graph.create n).nbrs y = [] := by
        apply List.eq_nil_iff_forall_not_mem.2
        intro a ha; exact (hE.mem y a).1 ha
      rw [hx, hy]; rfl⟩
  refine ⟨h1, h2, ?_, ?_⟩
  · intro l hl w hw
    obtain ⟨i, hi, rfl⟩ := List.mem_iff_getElem.1 hl
    apply h3 i w
    unfold Graph.nbrs
    rw [List.getD_eq_getElem _ _ hi]
    exact hw
  · intro u _ v _
    refine ⟨?_, h4 u v⟩
    rw [← List.count_pos_iff, ← List.count_pos_iff, h4 u v]

theorem add_edges_symmetric_witness :
    (⟨3, 2, [], [[1, 2], [0], [0]]⟩ : Graph).n = 3 ∧
      (⟨3, 2, [], [[1, 2], [0], [0]]⟩ : Graph).adj.length = 3 ∧
      (∀ l ∈ (⟨3, 2, [], [[1, 2], [0], [0]]⟩ : Graph).adj, ∀ w ∈ l, w < 3) ∧
      ∀ u < 3, ∀ v < 3,
        (v ∈ (⟨3, 2, [], [[1, 2], [0], [0]]⟩ : Graph).nbrs u ↔
          u ∈ (⟨3, 2, [], [[1, 2], [0], [0]]⟩ : Graph).nbrs v) ∧
        ((⟨3, 2, [], [[1, 2], [0], [0]]⟩ : Graph).nbrs u).count v =
          ((⟨3, 2, [], [[1, 2], [0], [0]]⟩ : Graph).nbrs v).count u :=
  add_edges_symmetric 3 [(0, 1), (0, 2)] ⟨3, 2, [], [[1, 2], [0], [0]]⟩ rfl

/-! ### Complete graphs and the non-bipartite driver path -/

/-- A doubly nested loop adding the edges `(f i, h j)` for `i` in a list and `j` in a list
depending on `i`. -/
theorem EdgesAre.fold_nested {N : Nat} (f h : Nat → Nat) (js : Nat → List Nat) :
    ∀ (is : List Nat) (g : Graph) (R : Nat → Nat → Prop), EdgesAre g N R →
      (∀ i ∈ is, f i < N ∧ ∀ j ∈ js i, h j < N) →
      EdgesAre (is.foldl (fun res i => (js i).foldl
          (fun res j => res.add_edge_unchecked (f i) (h j)) res) g) N
        (fun x y => R x y ∨ ∃ i ∈ is, ∃ j ∈ js i,
          (x = f i ∧ y = h j) ∨ (x = h j ∧ y = f i)) := by
  intro is
  induction is with
  | nil => intro g R hg _; exact hg.congr (by simp)
  | cons i is ih =>
    intro g R hg hlt
    have hi := hlt i (List.mem_cons_self _ _)
    have hin := EdgesAre.fold (N := N) (fun _ => f i) h (js i) g R hg
      (fun j hj => ⟨hi.1, hi.2 j hj⟩)
    have := ih _ _ hin (fun j hj => hlt j (List.mem_cons_of_mem _ hj))
    simp only [List.foldl_cons]
    refine this.congr ?_
    intro x y
    constructor
    · rintro ((h1 | ⟨j, hj, h1⟩) | ⟨k, hk, h1⟩)
      · exact Or.inl h1
      · exact Or.inr ⟨i, List.mem_cons_self _ _, j, hj, h1⟩
      · exact Or.inr ⟨k, List.mem_cons_of_mem _ hk, h1⟩
    · rintro (h1 | ⟨k, hk, j, hj, h1⟩)
      · exact Or.inl (Or.inl h1)
      · rcases List.mem_cons.1 hk with rfl | hk
        · exact Or.inl (Or.inr ⟨j, hj, h1⟩)
        · exact Or.inr ⟨k, hk, j, hj, h1⟩

theorem complete_edges (n : Nat) :
    EdgesAre (Graph.complete n) n (fun x y => x ≠ y ∧ x < n ∧ y < n) := by
  have := EdgesAre.fold_nested (N := n) (fun i => i) (fun j => j)
    (fun i => List.range' (i + 1) (n - (i + 1))) (List.range n) (Graph.create n) _
    (EdgesAre.create n)
    (fun i hi => by
      have := List.mem_range.1 hi
      refine ⟨this, fun j hj => ?_⟩
      have := List.mem_range'_1.1 hj
      dsimp only
      omega)
  unfold Graph.complete
  refine this.congr ?_
  intro x y
  simp only [List.mem_range, List.mem_range'_1, false_or]
  constructor
  · rintro ⟨i, hi, j, hj, h | h⟩ <;> omega
  · intro h
    rcases Nat.lt_or_gt_of_ne h.1 with hlt | hlt
    · exact ⟨x, h.2.1, y, by omega, Or.inl ⟨rfl, rfl⟩⟩
    · exact ⟨y, h.2.2, x, by omega, Or.inr ⟨rfl, rfl⟩⟩

theorem complete_not_bipartite (n : Nat) (hn : 3 ≤ n) : ¬ (Graph.complete n).Bipartite := by
  rintro ⟨c, hc⟩
  have hE := complete_edges n
  have h01 := hc 0 (by rw [hE.n_eq]; omega) 1 ((hE.mem _ _).2 ⟨by omega, by omega, by omega⟩)
  have h02 := hc 0 (by rw [hE.n_eq]; omega) 2 ((hE.mem _ _).2 ⟨by omega, by omega, by omega⟩)
  have h12 := hc 1 (by rw [hE.n_eq]; omega) 2 ((hE.mem _ _).2 ⟨by omega, by omega, by omega⟩)
  revert h01 h02 h12
  cases c 0 <;> cases c 1 <;> cases c 2 <;> simp

theorem matching_size_all_unmatched (n : Nat) :
    matching_size (List.replicate n (-1)) = some 0 := by
  apply (matching_size_of_card _).2
  rw [matchedSet_all_unmatched]
  rfl

/-- C11: for every `n ≥ 3`, `is_bipartite` returns `false` on `complete(n)`, and
`maximum_cardinality_matching` from the all `-1` vector returns that vector unchanged, of
`matching_size` 0. -/
theorem complete_not_bipartite_size_zero (n fuel : Nat) (hn : 3 ≤ n) (hf : n < fuel) :
    ∃ g1, (Graph.complete n).is_bipartite fuel = some (false, g1) ∧
      (Graph.complete n).maximum_cardinality_matching fuel (List.replicate n (-1))
        = some (g1, List.replicate n (-1)) ∧
      matching_size (List.replicate n (-1)) = some 0 := by
  have hE := complete_edges n
  obtain ⟨part, mate1, h1, _, _, h4, _, h6, _⟩ := mcm_spec (Graph.complete n)
    (hE.inRange (fun x y h => h.2.2)) (hE.symmetric (fun x y h => ⟨Ne.symm h.1, h.2.2, h.2.1⟩))
    fuel (by rw [hE.n_eq]; exact hf)
  cases hb : bip_check (Graph.complete n).adj part (Graph.complete n).n with
  | false =>
    rw [hb] at h1
    rw [h6 hb] at h4
    rw [hE.n_eq] at h1 h4
    exact ⟨_, h1, h4, matching_size_all_unmatched n⟩
  | true =>
    exfalso
    exact complete_not_bipartite n hn
      ⟨fun v => part.getD v false, (bip_check_true _ _ _).1 hb⟩

theorem complete_not_bipartite_size_zero_witness :
    ∃ g1, (Graph.complete 4).is_bipartite 5 = some (false, g1) ∧
      (Graph.complete 4).maximum_cardinality_matching 5 (List.replicate 4 (-1))
        = some (g1, List.replicate 4 (-1)) ∧
      matching_size (List.replicate 4 (-1)) = some 0 :=
  complete_not_bipartite_size_zero 4 5 (by decide) (by decide)

/-- C19: when `is_bipartite` returns `false`, the finder chosen by the driver reports no path
on every input, and `maximum_cardinality_matching` returns without fault with `mate`
unchanged, whatever `mate` is; from the all `-1` vector the reported size is 0. -/
theorem not_bipartite_mate_unchanged (g g1 : Graph) (mate : List Int) (fuel : Nat)
    (hb : g.is_bipartite fuel = some (false, g1)) (hf : 1 ≤ fuel) :
    (∀ m p, augmenting_non_bipartite g1 m p = some (false, p)) ∧
      g.maximum_cardinality_matching fuel mate = some (g1, mate) ∧
      matching_size (List.replicate g.n (-1)) = some 0 := by
  refine ⟨fun _ _ => rfl, ?_, matching_size_all_unmatched g.n⟩
  obtain ⟨f, rfl⟩ : ∃ f, fuel = f + 1 := ⟨fuel - 1, by omega⟩
  simp [Graph.maximum_cardinality_matching, hb, mcm_loop, augmenting_non_bipartite]

/-- The triangle `complete(3)` has a matching of one edge and none of two. -/
theorem triangle_matching_number :
    (∃ M : Finset (Nat × Nat), IsMatchingOf (Graph.complete 3) M ∧ M.card = 1) ∧
      ∀ M : Finset (Nat × Nat), IsMatchingOf (Graph.complete 3) M → M.card ≤ 1 := by
  have hE := complete_edges 3
  constructor
  · exact ⟨{(0, 1)}, by decide, rfl⟩
  · intro M hM
    by_contra hc
    obtain ⟨a, ha, b, hb, hab⟩ := Finset.one_lt_card.1 (by omega : 1 < M.card)
    have ha2 := (hE.mem _ _).1 (hM.1 a ha).2
    have hb2 := (hE.mem _ _).1 (hM.1 b hb).2
    have := hM.2 a ha b hb hab
    omega

theorem not_bipartite_mate_unchanged_witness :
    ((∀ m p, augmenting_non_bipartite ⟨3, 3, [true, false, false], [[1, 2], [0, 2], [0, 1]]⟩ m p
        = some (false, p)) ∧
      (Graph.complete 3).maximum_cardinality_matching 3 [-1, -1, -1]
        = some (⟨3, 3, [true, false, false], [[1, 2], [0, 2], [0, 1]]⟩, [-1, -1, -1]) ∧
      matching_size (List.replicate (Graph.complete 3).n (-1)) = some 0) ∧
    ((∃ M : Finset (Nat × Nat), IsMatchingOf (Graph.complete 3) M ∧ M.card = 1) ∧
      ∀ M : Finset (Nat × Nat), IsMatchingOf (Graph.complete 3) M → M.card ≤ 1) :=
  ⟨not_bipartite_mate_unchanged (Graph.complete 3)
    ⟨3, 3, [true, false, false], [[1, 2], [0, 2], [0, 1]]⟩ [-1, -1, -1] 3 rfl (by decide),
    triangle_matching_number⟩

/-! ### Disjoint union -/

theorem Graph.nbrs_index_lt {g : Graph} {x y : Nat} (h : y ∈ g.nbrs x) : x < g.adj.length := by
  by_contra hc
  unfold Graph.nbrs at h
  rw [List.getD_eq_default _ _ (by omega)] at h
  simp at h

/-- Edges of the graph returned by `operator+`: both directions of every adjacency entry of
either operand, the second operand shifted by the vertex count of the first. -/
theorem union_edges (g1 g2 : Graph) (h1 : g1.InRange) (h2 : g2.InRange) :
    EdgesAre (g1.union g2) (g1.n + g2.n) (fun x y =>
      (y ∈ g1.nbrs x ∨ x ∈ g1.nbrs y) ∨
      ∃ a b, x = a + g1.n ∧ y = b + g1.n ∧ (b ∈ g2.nbrs a ∨ a ∈ g2.nbrs b)) := by
  have s1 := EdgesAre.fold_nested (N := g1.n + g2.n) (fun i => i) (fun j => j) g1.nbrs
    (List.range g1.n) (Graph.create (g1.n + g2.n)) _ (EdgesAre.create _)
    (fun i hi => by
      have := List.mem_range.1 hi
      refine ⟨by dsimp only; omega, fun j hj => ?_⟩
      have := Graph.nbrs_lt h1 hj
      dsimp only
      omega)
  have s2 := EdgesAre.fold_nested (N := g1.n + g2.n) (fun i => i + g1.n) (fun j => j + g1.n)
    g2.nbrs (List.range g2.n) _ _ s1
    (fun i hi => by
      have := List.mem_range.1 hi
      refine ⟨by dsimp only; omega, fun j hj => ?_⟩
      have := Graph.nbrs_lt h2 hj
      dsimp only
      omega)
  unfold Graph.union
  refine s2.congr ?_
  intro x y
  simp only [List.mem_range, false_or]
  constructor
  · rintro (⟨u, _, v, hv, h | h⟩ | ⟨u, _, v, hv, h | h⟩)
    · left; left; rw [h.1, h.2]; exact hv
    · left; right; rw [h.1, h.2]; exact hv
    · right; exact ⟨u, v, h.1, h.2, Or.inl hv⟩
    · right; exact ⟨v, u, h.1, h.2, Or.inr hv⟩
  · rintro ((h | h) | ⟨a, b, hx, hy, h | h⟩)
    · have := Graph.nbrs_index_lt h
      rw [h1.1] at this
      exact Or.inl ⟨x, this, y, h, Or.inl ⟨rfl, rfl⟩⟩
    · have := Graph.nbrs_index_lt h
      rw [h1.1] at this
      exact Or.inl ⟨y, this, x, h, Or.inr ⟨rfl, rfl⟩⟩
    · have := Graph.nbrs_index_lt h
      rw [h2.1] at this
      exact Or.inr ⟨a, this, b, h, Or.inl ⟨hx, hy⟩⟩
    · have := Graph.nbrs_index_lt h
      rw [h2.1] at this
      exact Or.inr ⟨b, this, a, h, Or.inr ⟨hx, hy⟩⟩

/-- Edges of the union of two graphs with symmetric adjacency lists. -/
theorem union_edges_symmetric (g1 g2 : Graph) (h1 : g1.InRange) (h2 : g2.InRange)
    (s1 : g1.Symmetric) (s2 : g2.Symmetric) :
    EdgesAre (g1.union g2) (g1.n + g2.n) (fun x y =>
      y ∈ g1.nbrs x ∨ ∃ a b, x = a + g1.n ∧ y = b + g1.n ∧ b ∈ g2.nbrs a) := by
  refine (union_edges g1 g2 h1 h2).congr ?_
  intro x y
  constructor
  · rintro ((h | h) | ⟨a, b, hx, hy, h | h⟩)
    · exact Or.inl h
    · exact Or.inl (Graph.nbrs_sym h1 s1 h)
    · exact Or.inr ⟨a, b, hx, hy, h⟩
    · exact Or.inr ⟨a, b, hx, hy, Graph.nbrs_sym h2 s2 h⟩
  · rintro (h | ⟨a, b, hx, hy, h⟩)
    · exact Or.inl (Or.inl h)
    · exact Or.inr ⟨a, b, hx, hy, Or.inl h⟩

theorem union_inRange_symmetric (g1 g2 : Graph) (h1 : g1.InRange) (h2 : g2.InRange)
    (s1 : g1.Symmetric) (s2 : g2.Symmetric) :
    (g1.union g2).InRange ∧ (g1.union g2).Symmetric := by
  have hE := union_edges_symmetric g1 g2 h1 h2 s1 s2
  constructor
  · apply hE.inRange
    rintro x y (h | ⟨a, b, _, hy, h⟩)
    · have := Graph.nbrs_lt h1 h; omega
    · have := Graph.nbrs_lt h2 h; omega
  · apply hE.symmetric
    rintro x y (h | ⟨a, b, hx, hy, h⟩)
    · exact Or.inl (Graph.nbrs_sym h1 s1 h)
    · exact Or.inr ⟨b, a, hy, hx, Graph.nbrs_sym h2 s2 h⟩

theorem union_bipartite_iff (g1 g2 : Graph) (h1 : g1.InRange) (h2 : g2.InRange)
    (s1 : g1.Symmetric) (s2 : g2.Symmetric) :
    (g1.union g2).Bipartite ↔ g1.Bipartite ∧ g2.Bipartite := by
  have hE := union_edges_symmetric g1 g2 h1 h2 s1 s2
  constructor
  · rintro ⟨c, hc⟩
    constructor
    · refine ⟨c, ?_⟩
      intro u hu v hv
      exact hc u (by rw [hE.n_eq]; omega) v ((hE.mem u v).2 (Or.inl hv))
    · refine ⟨fun v => c (v + g1.n), ?_⟩
      intro u hu v hv
      exact hc (u + g1.n) (by rw [hE.n_eq]; omega) (v + g1.n)
        ((hE.mem _ _).2 (Or.inr ⟨u, v, rfl, rfl, hv⟩))
  · rintro ⟨⟨c1, hc1⟩, ⟨c2, hc2⟩⟩
    refine ⟨fun v => if v < g1.n then c1 v else c2 (v - g1.n), ?_⟩
    intro u _ v hv
    rcases (hE.mem u v).1 hv with h | ⟨a, b, hx, hy, h⟩
    · have hu1 : u < g1.n := by have := Graph.nbrs_index_lt h; rw [h1.1] at this; exact this
      have hv1 := Graph.nbrs_lt h1 h
      simp only [if_pos hu1, if_pos hv1]
      exact hc1 u hu1 v h
    · have ha : a < g2.n := by have := Graph.nbrs_index_lt h; rw [h2.1] at this; exact this
      subst hx; subst hy
      simp only [if_neg (show ¬ a + g1.n < g1.n by omega),
        if_neg (show ¬ b + g1.n < g1.n by omega), Nat.add_sub_cancel]
      exact hc2 a ha b h

/-- On a graph with in-range, symmetric adjacency lists `is_bipartite` returns `true` exactly
when the graph is bipartite. -/
theorem is_bipartite_decides (g : Graph) (fuel : Nat) (hr : g.InRange) (hs : g.Symmetric)
    (hf : g.n ≤ fuel) :
    ∃ b g1, g.is_bipartite fuel = some (b, g1) ∧ (b = true ↔ g.Bipartite) := by
  obtain ⟨part, h1, _, h3⟩ := is_bipartite_spec g hr fuel hf
  exact ⟨_, _, h1, fun hb => ⟨fun v => part.getD v false, (bip_check_true g.adj part g.n).1 hb⟩,
    h3 hs⟩

/-- C12: for graphs `g1`, `g2` with in-range, symmetric adjacency lists, `is_bipartite`
returns `true` on the disjoint union `g1 + g2` if and only if it returns `true` on both `g1`
and `g2`. -/
theorem union_is_bipartite_iff (g1 g2 : Graph) (fuel : Nat) (h1 : g1.InRange)
    (h2 : g2.InRange) (s1 : g1.Symmetric) (s2 : g2.Symmetric) (hf : g1.n + g2.n ≤ fuel) :
    ∃ b b1 b2 r r1 r2, (g1.union g2).is_bipartite fuel = some (b, r) ∧
      g1.is_bipartite fuel = some (b1, r1) ∧ g2.is_bipartite fuel = some (b2, r2) ∧
      (b = true ↔ b1 = true ∧ b2 = true) := by
  obtain ⟨hr, hs⟩ := union_inRange_symmetric g1 g2 h1 h2 s1 s2
  have hn := (union_edges_symmetric g1 g2 h1 h2 s1 s2).n_eq
  obtain ⟨b, r, e, hb⟩ := is_bipartite_decides (g1.union g2) fuel hr hs (by omega)
  obtain ⟨b1, r1, e1, hb1⟩ := is_bipartite_decides g1 fuel h1 s1 (by omega)
  obtain ⟨b2, r2, e2, hb2⟩ := is_bipartite_decides g2 fuel h2 s2 (by omega)
  refine ⟨b, b1, b2, r, r1, r2, e, e1, e2, ?_⟩
  rw [hb, hb1, hb2]
  exact union_bipartite_iff g1 g2 h1 h2 s1 s2

theorem union_is_bipartite_iff_witness :
    ∃ b b1 b2 r r1 r2, ((Graph.path 2).union (Graph.cycle 3)).is_bipartite 5 = some (b, r) ∧
      (Graph.path 2).is_bipartite 5 = some (b1, r1) ∧
      (Graph.cycle 3).is_bipartite 5 = some (b2, r2) ∧
      (b = true ↔ b1 = true ∧ b2 = true) :=
  union_is_bipartite_iff (Graph.path 2) (Graph.cycle 3) 5 (by decide) (by decide) (by decide)
    (by decide) (by decide)

/-- C14 (the code at the failing input): `path(3) + path(2)` has five vertices and no entry
from the other side, but every neighbour-list entry of the operands occurs twice in the
result and the edge count is 6 instead of 3. -/
theorem union_doubles_entries :
    (Graph.path 3).adj = [[1], [0, 2], [1]] ∧ (Graph.path 2).adj = [[1], [0]] ∧
      ((Graph.path 3).union (Graph.path 2)).n = 5 ∧
      ((Graph.path 3).union (Graph.path 2)).adj = [[1, 1], [0, 0, 2, 2], [1, 1], [4, 4], [3, 3]] ∧
      ((Graph.path 3).union (Graph.path 2)).m = 6 ∧ (Graph.path 3).m + (Graph.path 2).m = 3 := by
  decide

/-! ### Bound on the augmentation loop -/

theorem mcm_loop_mono (aug : List Int → List Nat → Option (Bool × List Nat)) :
    ∀ (fuel : Nat) (mate : List Int) (a : List Nat) (r : List Int),
      mcm_loop aug fuel mate a = some r → ∀ k, mcm_loop aug (fuel + k) mate a = some r := by
  intro fuel
  induction fuel with
  | zero => intro mate a r h; simp [mcm_loop] at h
  | succ fuel ih =>
    intro mate a r h k
    have hk : fuel + 1 + k = (fuel + k) + 1 := by omega
    rw [hk]
    simp only [mcm_loop] at h ⊢
    cases haug : aug mate a with
    | none => rw [haug] at h; simp at h
    | some bp =>
      obtain ⟨b, p⟩ := bp
      rw [haug] at h
      cases b with
      | false => simpa using h
      | true =>
        simp only at h ⊢
        cases hau : augment p mate with
        | none => rw [hau] at h; simp at h
        | some m1 =>
          rw [hau] at h
          simp only at h ⊢
          exact ih m1 [] r h k

/-- One round of the driver on a properly labelled graph: a path returned by the finder is
augmenting, `augment` accepts it, and the new `mate` is a valid matching with one more edge. -/
theorem augment_round {g : Graph} {mate : List Int} {p : List Nat} (hr : g.InRange)
    (hs : g.Symmetric) (hp : g.PartProper) (hm : ValidMatching g mate) (fuel : Nat)
    (hf : g.n ≤ fuel) (h : augmenting_bipartite fuel g mate [] = some (true, p)) :
    ∃ mate2 s, augment p mate = some mate2 ∧ ValidMatching g mate2 ∧
      matching_size mate = some s ∧ matching_size mate2 = some (s + 1) := by
  obtain ⟨pred, d, _, h1 | ⟨p1, h1, h2, _⟩⟩ := ab_outcome hr hp hm fuel hf
  · rw [h1.1] at h; simp at h
  · rw [h1] at h
    have hpp : p1 = p := by simpa using h
    subst hpp
    have hv := augment_valid hr hs hm h2
    have hc := augment_matchedSet hr hs hm h2
    have e1 := matched_card_two_mul hp.2 hm
    refine ⟨augment_pairs p1 mate, _, augment_eq h2, hv, (matching_size_of_card e1).2, ?_⟩
    apply (matching_size_of_card _).2
    rw [hc, e1]
    omega

/-- C17: on a graph with in-range, symmetric adjacency lists and the all `-1` start vector,
the augmentation loop of `maximum_cardinality_matching` returns within `n / 2 + 1` calls of the
finder (so after at most `n / 2` successful augmentations), every successful round turns a
valid matching of size `s` into one of size `s + 1`, and the final size is at most `n / 2`. -/
theorem augmentation_loop_bound (g : Graph) (fuel : Nat) (hr : g.InRange) (hs : g.Symmetric)
    (hf : g.n < fuel) :
    ∃ b g1 mate1, g.is_bipartite fuel = some (b, g1) ∧
      g.maximum_cardinality_matching fuel (List.replicate g.n (-1)) = some (g1, mate1) ∧
      (∀ F, g.n / 2 + 1 ≤ F →
        mcm_loop (if b = true then augmenting_bipartite fuel g1 else augmenting_non_bipartite g1)
          F (List.replicate g.n (-1)) [] = some mate1) ∧
      (∀ mate p, ValidMatching g mate →
        (if b = true then augmenting_bipartite fuel g1 else augmenting_non_bipartite g1) mate []
          = some (true, p) →
        ∃ mate2 s, augment p mate = some mate2 ∧ ValidMatching g mate2 ∧
          matching_size mate = some s ∧ matching_size mate2 = some (s + 1)) ∧
      ∃ k, k ≤ g.n / 2 ∧ matching_size mate1 = some k := by
  obtain ⟨part, h1, h2, _⟩ := is_bipartite_spec g hr fuel (by omega)
  cases hb : bip_check g.adj part g.n with
  | false =>
    rw [hb] at h1
    have hloop : ∀ F, g.n / 2 + 1 ≤ F →
        mcm_loop (augmenting_non_bipartite { g with part := part }) F
          (List.replicate g.n (-1)) [] = some (List.replicate g.n (-1)) := by
      intro F hF
      obtain ⟨f, rfl⟩ : ∃ f, F = f + 1 := ⟨F - 1, by omega⟩
      simp [mcm_loop, augmenting_non_bipartite]
    refine ⟨false, _, List.replicate g.n (-1), h1, ?_, ?_, ?_, 0, Nat.zero_le _,
      matching_size_all_unmatched g.n⟩
    · simp only [Graph.maximum_cardinality_matching, h1]
      rw [if_neg (by simp), hloop fuel (by omega)]
    · intro F hF
      rw [if_neg (by simp)]
      exact hloop F hF
    · intro mate p _ h
      rw [if_neg (by simp)] at h
      simp [augmenting_non_bipartite] at h
  | true =>
    rw [hb] at h1
    have hp : Graph.PartProper { g with part := part } :=
      ⟨h2, (bip_check_true g.adj part g.n).1 hb⟩
    have hr1 : Graph.InRange { g with part := part } := hr
    have hs1 : Graph.Symmetric { g with part := part } := hs
    obtain ⟨mate1, e1, e2, _⟩ :=
      mcm_loop_spec hr1 hs1 hp fuel (by show g.n ≤ fuel; omega) (g.n / 2 + 1)
        (List.replicate g.n (-1)) (valid_all_unmatched g)
        (by show g.n + 1 ≤ _; omega)
    have hloop : ∀ F, g.n / 2 + 1 ≤ F →
        mcm_loop (augmenting_bipartite fuel { g with part := part }) F
          (List.replicate g.n (-1)) [] = some mate1 := by
      intro F hF
      have := mcm_loop_mono _ _ _ _ _ e1 (F - (g.n / 2 + 1))
      rwa [show g.n / 2 + 1 + (F - (g.n / 2 + 1)) = F by omega] at this
    have hcard : (matchedSet mate1).card
        = 2 * (matchedX g.n (fun v => part.getD v false) mate1).card :=
      matched_card_two_mul (g := { g with part := part }) hp.2 e2
    have hle := matchedSet_card_le mate1
    rw [e2.1] at hle
    refine ⟨true, _, mate1, h1, ?_, ?_, ?_, _, ?_, (matching_size_of_card hcard).2⟩
    · simp only [Graph.maximum_cardinality_matching, h1, if_true]
      rw [hloop fuel (by omega)]
    · intro F hF
      rw [if_pos rfl]
      exact hloop F hF
    · intro mate p hm h
      rw [if_pos rfl] at h
      have hm1 : ValidMatching { g with part := part } mate := hm
      have hround := augment_round (g := { g with part := part }) hr1 hs1 hp hm1 fuel
        (by show g.n ≤ fuel; omega) h
      exact hround
    · have : (matchedX g.n (fun v => part.getD v false) mate1).card * 2 ≤ g.n := by
        have h3 : (matchedSet mate1).card ≤ g.n := hle
        rw [hcard] at h3
        show _ ≤ g.n
        omega
      exact (Nat.le_div_iff_mul_le (by omega)).2 this

theorem augmentation_loop_bound_witness :
    ∃ b g1 mate1, (Graph.complete_bipartite 1 2).is_bipartite 4 = some (b, g1) ∧
      (Graph.complete_bipartite 1 2).maximum_cardinality_matching 4
        (List.replicate (Graph.complete_bipartite 1 2).n (-1)) = some (g1, mate1) ∧
      (∀ F, (Graph.complete_bipartite 1 2).n / 2 + 1 ≤ F →
        mcm_loop (if b = true then augmenting_bipartite 4 g1 else augmenting_non_bipartite g1)
          F (List.replicate (Graph.complete_bipartite 1 2).n (-1)) [] = some mate1) ∧
      (∀ mate p, ValidMatching (Graph.complete_bipartite 1 2) mate →
        (if b = true then augmenting_bipartite 4 g1 else augmenting_non_bipartite g1) mate []
          = some (true, p) →
        ∃ mate2 s, augment p mate = some mate2 ∧
          ValidMatching (Graph.complete_bipartite 1 2) mate2 ∧
          matching_size mate = some s ∧ matching_size mate2 = some (s + 1)) ∧
      ∃ k, k ≤ (Graph.complete_bipartite 1 2).n / 2 ∧ matching_size mate1 = some k :=
  augmentation_loop_bound (Graph.complete_bipartite 1 2) 4 (by decide) (by decide) (by decide)

/-! ### Augmentation on bare mate vectors -/

theorem mem_cliqueAt_nbrs {n r v w : Nat} :
    w ∈ (cliqueAt n r).nbrs v ↔ v < n ∧ w < n ∧ w ≠ v := by
  unfold Graph.nbrs cliqueAt
  by_cases hv : v < n
  · rw [List.getD_eq_getElem _ _ (by simpa using hv)]
    simp [hv]
  · rw [List.getD_eq_default _ _ (by simp; omega)]
    simp [hv]

theorem cliqueAt_part {n r v : Nat} (hv : v < n) :
    (cliqueAt n r).part.getD v false = decide (v = r) := by
  unfold cliqueAt
  rw [List.getD_eq_getElem _ _ (by simpa using hv)]
  simp

theorem cliqueAt_wf (n r : Nat) : (cliqueAt n r).InRange ∧ (cliqueAt n r).Symmetric := by
  constructor
  · refine ⟨by simp [cliqueAt], ?_⟩
    intro l hl w hw
    obtain ⟨i, hi, rfl⟩ := List.mem_iff_getElem.1 hl
    have : w ∈ (cliqueAt n r).nbrs i := by
      unfold Graph.nbrs
      rw [List.getD_eq_getElem _ _ hi]; exact hw
    exact (mem_cliqueAt_nbrs.1 this).2.1
  · intro u _ v hv
    have := mem_cliqueAt_nbrs.1 hv
    exact mem_cliqueAt_nbrs.2 ⟨this.2.1, this.1, Ne.symm this.2.2⟩

theorem valid_cliqueAt_iff (mate : List Int) (r : Nat) :
    ValidMatching (cliqueAt mate.length r) mate ↔ MateSymmetric mate := by
  constructor
  · intro h v hv
    rcases h.2 v hv with h1 | ⟨w, hw, w1, w2, w3⟩
    · exact Or.inl h1
    · exact Or.inr ⟨w, hw, w1, (mem_cliqueAt_nbrs.1 w2).2.2, w3⟩
  · intro h
    refine ⟨rfl, ?_⟩
    intro v hv
    rcases h v hv with h1 | ⟨w, hw, w1, w2, w3⟩
    · exact Or.inl h1
    · exact Or.inr ⟨w, hw, w1, mem_cliqueAt_nbrs.2 ⟨hv, hw, w2⟩, w3⟩

theorem augmenting_cliqueAt {mate : List Int} {p : List Nat} (hp : IsAlternatingPath mate p) :
    IsAugmentingPath (cliqueAt mate.length (p.getD 0 0)) mate p := by
  obtain ⟨hnd, h2, hev, hin, hhead, hlast, heven, hodd⟩ := hp
  have hidx : ∀ i j, i < p.length → j < p.length → i ≠ j → p.getD i 0 ≠ p.getD j 0 := by
    intro i j hi hj hij h
    rw [List.getD_eq_getElem p 0 hi, List.getD_eq_getElem p 0 hj] at h
    exact hij ((List.Nodup.getElem_inj_iff hnd).1 h)
  refine ⟨hnd, h2, hev, hin, ⟨?_, hhead⟩, ⟨?_, hlast⟩, ?_, heven, hodd⟩
  · rw [cliqueAt_part (hin _ (getD_mem_nat (by omega)))]
    simp
  · rw [cliqueAt_part (hin _ (getD_mem_nat (by omega)))]
    simpa using hidx (p.length - 1) 0 (by omega) (by omega) (by omega)
  · intro i hi hi1
    exact mem_cliqueAt_nbrs.2 ⟨hin _ (getD_mem_nat hi), hin _ (getD_mem_nat hi1),
      hidx (i + 1) i hi1 hi (by omega)⟩

/-- After `augment` along an augmenting path the matched vertices are the old ones and the
two ends of the path. -/
theorem augment_matched_iff {g : Graph} {mate : List Int} (hr : g.InRange) (hs : g.Symmetric)
    (hm : ValidMatching g mate) {p : List Nat} (hpath : IsAugmentingPath g mate p) :
    ∀ v < g.n, (augment_pairs p mate).getD v 0 ≠ -1 ↔
      (mate.getD v 0 ≠ -1 ∨ v = p.getD 0 0 ∨ v = p.getD (p.length - 1) 0) := by
  have hnew := path_new_mate hr hs hm hpath
  have hold := path_old_mate hm hpath
  obtain ⟨hnd, h2, hev, hin, hhead, hlast, _, _, _⟩ := hpath
  obtain ⟨_, a2, _⟩ := augment_pairs_spec (p.length / 2) p mate (by omega) hnd
    (fun v hv => by rw [hm.1]; exact hin v hv)
  have hpv : ∀ j < p.length, (augment_pairs p mate).getD (p.getD j 0) 0 ≠ -1 := by
    intro j hj
    obtain ⟨j1, _, n1, _, _⟩ := hnew j hj
    rw [n1]; omega
  intro v _
  by_cases hvp : v ∈ p
  · obtain ⟨j, hj, rfl⟩ := mem_getD_nat hvp
    constructor
    · intro _
      by_cases hj0 : j = 0
      · right; left; rw [hj0]
      · by_cases hjl : j = p.length - 1
        · right; right; rw [hjl]
        · left
          obtain ⟨j1, _, e⟩ := hold j (by omega) (by omega)
          rw [e]; omega
    · intro _; exact hpv j hj
  · rw [a2 v hvp]
    constructor
    · intro h; exact Or.inl h
    · rintro (h | h | h)
      · exact h
      · exact absurd (h ▸ getD_mem_nat (by omega)) hvp
      · exact absurd (h ▸ getD_mem_nat (by omega)) hvp

/-- C18: for a mate vector that is a matching (symmetric, no entry equal to its own index) and
an augmenting path `p` with respect to it, `augment(p, mate)` succeeds and yields a mate vector
of the same length that is again such a matching, pairs `p[2i]` with `p[2i+1]` for every `i`,
leaves every entry off the path unchanged, and has as matched vertices exactly the old ones
plus the two ends of `p`; the number of matched entries grows by two, so the matching size
grows by exactly one. -/
theorem augment_spec (mate : List Int) (p : List Nat) (hm : MateSymmetric mate)
    (hp : IsAlternatingPath mate p) :
    ∃ mate2, augment p mate = some mate2 ∧ mate2.length = mate.length ∧ MateSymmetric mate2 ∧
      (∀ i, 2 * i + 1 < p.length →
        mate2.getD (p.getD (2 * i) 0) 0 = (p.getD (2 * i + 1) 0 : Int) ∧
        mate2.getD (p.getD (2 * i + 1) 0) 0 = (p.getD (2 * i) 0 : Int)) ∧
      (∀ x, x ∉ p → mate2.getD x 0 = mate.getD x 0) ∧
      (∀ v < mate.length, mate2.getD v 0 ≠ -1 ↔
        (mate.getD v 0 ≠ -1 ∨ v = p.getD 0 0 ∨ v = p.getD (p.length - 1) 0)) ∧
      (mate2.countP fun x => decide (x ≠ -1)) = (mate.countP fun x => decide (x ≠ -1)) + 2 ∧
      ∀ s, matching_size mate = some s → matching_size mate2 = some (s + 1) := by
  obtain ⟨hr, hs⟩ := cliqueAt_wf mate.length (p.getD 0 0)
  have hv := (valid_cliqueAt_iff mate (p.getD 0 0)).2 hm
  have hpath := augmenting_cliqueAt hp
  have hv2 := augment_valid hr hs hv hpath
  have hc := augment_matchedSet hr hs hv hpath
  have hiff := augment_matched_iff hr hs hv hpath
  obtain ⟨a1, a2, a3⟩ := augment_pairs_spec (p.length / 2) p mate (by have := hp.2.2.1; omega)
    hp.1 hp.2.2.2.1
  have hcount : ((augment_pairs p mate).countP fun x => decide (x ≠ -1))
      = (mate.countP fun x => decide (x ≠ -1)) + 2 := by
    rw [countP_eq_card_matched, countP_eq_card_matched, hc]
  refine ⟨augment_pairs p mate, augment_eq hpath, a1, ?_, a3, a2, hiff, hcount, ?_⟩
  · have := (valid_cliqueAt_iff (augment_pairs p mate) (p.getD 0 0)).1
    rw [a1] at this
    exact this hv2
  · intro s h
    unfold matching_size at h ⊢
    rw [hcount]
    split at h
    · rename_i he
      rw [if_pos (by omega)]
      simp only [Option.some.injEq] at h ⊢
      omega
    · simp at h

theorem augment_spec_witness :
    ∃ mate2, augment [0, 1, 2, 3] [-1, 2, 1, -1] = some mate2 ∧
      mate2.length = [(-1 : Int), 2, 1, -1].length ∧ MateSymmetric mate2 ∧
      (∀ i, 2 * i + 1 < [0, 1, 2, 3].length →
        mate2.getD ([0, 1, 2, 3].getD (2 * i) 0) 0 = ((([0, 1, 2, 3] : List Nat).getD (2 * i + 1) 0 : Nat) : Int) ∧
        mate2.getD ([0, 1, 2, 3].getD (2 * i + 1) 0) 0 = ((([0, 1, 2, 3] : List Nat).getD (2 * i) 0 : Nat) : Int)) ∧
      (∀ x, x ∉ [0, 1, 2, 3] → mate2.getD x 0 = [(-1 : Int), 2, 1, -1].getD x 0) ∧
      (∀ v < [(-1 : Int), 2, 1, -1].length, mate2.getD v 0 ≠ -1 ↔
        ([(-1 : Int), 2, 1, -1].getD v 0 ≠ -1 ∨ v = [0, 1, 2, 3].getD 0 0 ∨
          v = [0, 1, 2, 3].getD ([0, 1, 2, 3].length - 1) 0)) ∧
      (mate2.countP fun x => decide (x ≠ -1))
        = ([(-1 : Int), 2, 1, -1].countP fun x => decide (x ≠ -1)) + 2 ∧
      ∀ s, matching_size [-1, 2, 1, -1] = some s → matching_size mate2 = some (s + 1) :=
  augment_spec [-1, 2, 1, -1] [0, 1, 2, 3] (by decide) (by decide)

/-! ### Totality of the search on index-safe input -/

theorem ab_bfs_order_snd (g : Graph) (mate : List Int) :
    ∀ (fuel : Nat) (s : SearchState),
      ab_bfs g mate fuel s = (ab_bfs_order g mate fuel s).map Prod.snd := by
  intro fuel
  induction fuel with
  | zero =>
    intro s
    obtain ⟨q, pred⟩ := s
    cases q <;> simp [ab_bfs, ab_bfs_order]
  | succ fuel ih =>
    intro s
    obtain ⟨q, pred⟩ := s
    cases q with
    | nil => simp [ab_bfs, ab_bfs_order]
    | cons v q =>
      simp only [ab_bfs, ab_bfs_order]
      rw [ih]
      cases ab_bfs_order g mate fuel (ab_step g mate v ⟨q, pred⟩) <;> rfl

theorem ab_bfs_order_length (g : Graph) (mate : List Int) :
    ∀ (fuel : Nat) (s : SearchState) (r : List Nat × List Int),
      ab_bfs_order g mate fuel s = some r → r.1.length ≤ fuel := by
  intro fuel
  induction fuel with
  | zero =>
    intro s r h
    obtain ⟨q, pred⟩ := s
    cases q with
    | nil => simp [ab_bfs_order] at h; subst h; simp
    | cons v q => simp [ab_bfs_order] at h
  | succ fuel ih =>
    intro s r h
    obtain ⟨q, pred⟩ := s
    cases q with
    | nil => simp [ab_bfs_order] at h; subst h; simp
    | cons v q =>
      simp only [ab_bfs_order] at h
      cases hrec : ab_bfs_order g mate fuel (ab_step g mate v ⟨q, pred⟩) with
      | none => rw [hrec] at h; simp at h
      | some r1 =>
        rw [hrec] at h
        simp only [Option.some.injEq] at h
        subst h
        have := ih _ _ hrec
        simp only [List.length_cons]
        omega

/-- What one run of the inner loop does to the queue and to `pred`: it appends pairwise
distinct vertices whose entry was `-2` and is now `v`, and changes nothing else. -/
theorem ab_visit_writes (mate : List Int) (v : Nat) :
    ∀ (ws : List Nat) (s : SearchState),
      ∃ new : List Nat, (ab_visit mate v ws s).q = s.q ++ new ∧ new.Nodup ∧
        (∀ w ∈ new, w ∈ ws ∧ s.pred.getD w 0 = -2 ∧
          (ab_visit mate v ws s).pred.getD w 0 = (v : Int)) ∧
        (∀ x, x ∉ new → (ab_visit mate v ws s).pred.getD x 0 = s.pred.getD x 0) ∧
        (ab_visit mate v ws s).pred.length = s.pred.length := by
  intro ws
  induction ws with
  | nil => intro s; exact ⟨[], by simp [ab_visit], List.nodup_nil, by simp, fun _ _ => rfl, rfl⟩
  | cons w ws ih =>
    intro s
    unfold ab_visit
    split
    · rename_i hcond
      have hwl := getD_neg_two_lt hcond.2
      obtain ⟨new, h1, h2, h3, h4, h5⟩ := ih ⟨s.q ++ [w], s.pred.set w (v : Int)⟩
      have hw_set : (s.pred.set w (v : Int)).getD w 0 = (v : Int) := getD_set_eq _ _ _ _ hwl
      have hwn : w ∉ new := by
        intro hmem
        have := (h3 w hmem).2.1
        rw [hw_set] at this
        omega
      refine ⟨w :: new, by rw [h1]; simp, List.nodup_cons.2 ⟨hwn, h2⟩, ?_, ?_, by rw [h5]; simp⟩
      · intro x hx0
        rcases List.mem_cons.1 hx0 with hxe | hx1
        · subst hxe
          exact ⟨List.mem_cons_self _ _, hcond.2, by rw [h4 x hwn]; exact hw_set⟩
        · obtain ⟨a, b, c⟩ := h3 x hx1
          have hxw : x ≠ w := fun h => hwn (h ▸ hx1)
          refine ⟨List.mem_cons_of_mem _ a, ?_, c⟩
          rwa [getD_set_ne _ _ _ _ _ (Ne.symm hxw)] at b
      · intro x hx
        have hxw : x ≠ w := by rintro rfl; exact hx (List.mem_cons_self _ _)
        rw [h4 x (fun h => hx (List.mem_cons_of_mem _ h)),
          getD_set_ne _ _ _ _ _ (Ne.symm hxw)]
    · obtain ⟨new, h1, h2, h3, h4, h5⟩ := ih s
      exact ⟨new, h1, h2, fun x hx => ⟨List.mem_cons_of_mem _ (h3 x hx).1, (h3 x hx).2⟩, h4, h5⟩

/-- What one iteration of the search loop does: it appends to the queue pairwise distinct
vertices whose `pred` entry was `-2` and is now `v`, and changes no other entry. -/
theorem ab_step_writes (g : Graph) (mate : List Int) (v : Nat) (s : SearchState) :
    ∃ new : List Nat, (ab_step g mate v s).q = s.q ++ new ∧ new.Nodup ∧
      (∀ w ∈ new, s.pred.getD w 0 = -2 ∧ (ab_step g mate v s).pred.getD w 0 = (v : Int) ∧
        ((g.part.getD v false = true ∧ w ∈ g.nbrs v) ∨
          (mate.getD v 0 ≠ -1 ∧ w = (mate.getD v 0).toNat))) ∧
      (∀ x, x ∉ new → (ab_step g mate v s).pred.getD x 0 = s.pred.getD x 0) ∧
      (ab_step g mate v s).pred.length = s.pred.length := by
  unfold ab_step
  split
  · rename_i hX
    obtain ⟨new, h1, h2, h3, h4, h5⟩ := ab_visit_writes mate v (g.nbrs v) s
    exact ⟨new, h1, h2, fun w hw => ⟨(h3 w hw).2.1, (h3 w hw).2.2, Or.inl ⟨hX, (h3 w hw).1⟩⟩,
      h4, h5⟩
  · split
    · rename_i hm
      simp only
      split
      · rename_i hund
        have hwl := getD_neg_two_lt hund
        refine ⟨[(mate.getD v 0).toNat], rfl, by simp, ?_, ?_, by simp⟩
        · intro w hw
          simp only [List.mem_singleton] at hw
          subst hw
          exact ⟨hund, getD_set_eq _ _ _ _ hwl, Or.inr ⟨hm, rfl⟩⟩
        · intro x hx
          simp only [List.mem_singleton] at hx
          exact getD_set_ne _ _ _ _ _ (Ne.symm hx)
      · exact ⟨[], by simp, List.nodup_nil, by simp, fun _ _ => rfl, rfl⟩
    · exact ⟨[], by simp, List.nodup_nil, by simp, fun _ _ => rfl, rfl⟩

theorem ab_bfs_order_nodup (g : Graph) (mate : List Int) :
    ∀ (fuel : Nat) (s : SearchState) (r : List Nat × List Int),
      ab_bfs_order g mate fuel s = some r → s.q.Nodup →
      (∀ u ∈ s.q, s.pred.getD u 0 ≠ -2) →
      r.1.Nodup ∧ ∀ u ∈ r.1, u ∈ s.q ∨ s.pred.getD u 0 = -2 := by
  intro fuel
  induction fuel with
  | zero =>
    intro s r h _ _
    obtain ⟨q, pred⟩ := s
    cases q with
    | nil => simp [ab_bfs_order] at h; subst h; simp
    | cons v q => simp [ab_bfs_order] at h
  | succ fuel ih =>
    intro s r h hnd hdisc
    obtain ⟨q, pred⟩ := s
    cases q with
    | nil => simp [ab_bfs_order] at h; subst h; simp
    | cons v q =>
      simp only [ab_bfs_order] at h
      cases hrec : ab_bfs_order g mate fuel (ab_step g mate v ⟨q, pred⟩) with
      | none => rw [hrec] at h; simp at h
      | some r1 =>
        rw [hrec] at h
        simp only [Option.some.injEq] at h
        subst h
        obtain ⟨new, w1, w2, w3, w4, _⟩ := ab_step_writes g mate v ⟨q, pred⟩
        have hnd1 := List.nodup_cons.1 hnd
        have hv : pred.getD v 0 ≠ -2 := hdisc v (List.mem_cons_self _ _)
        have hq : ∀ u ∈ q, pred.getD u 0 ≠ -2 := fun u hu => hdisc u (List.mem_cons_of_mem _ hu)
        have hnew : ∀ u ∈ new, pred.getD u 0 = -2 := fun u hu => (w3 u hu).1
        have hkeep : ∀ x, pred.getD x 0 ≠ -2 →
            (ab_step g mate v ⟨q, pred⟩).pred.getD x 0 ≠ -2 := by
          intro x hx
          rw [w4 x (fun hmem => hx (hnew x hmem))]
          exact hx
        obtain ⟨i1, i2⟩ := ih _ r1 hrec
          (by
            rw [w1]
            refine List.Nodup.append hnd1.2 w2 ?_
            intro a ha hb
            exact hq a ha (hnew a hb))
          (by
            intro u hu
            rw [w1] at hu
            rcases List.mem_append.1 hu with hu | hu
            · exact hkeep u (hq u hu)
            · rw [(w3 u hu).2.1]; omega)
        refine ⟨List.nodup_cons.2 ⟨?_, i1⟩, ?_⟩
        · intro hmem
          rcases i2 v hmem with hvq | hvp
          · rw [w1] at hvq
            rcases List.mem_append.1 hvq with hvq | hvq
            · exact hnd1.1 hvq
            · exact hv (hnew v hvq)
          · exact hkeep v hv hvp
        · intro u hu
          rcases List.mem_cons.1 hu with rfl | hu
          · exact Or.inl (List.mem_cons_self _ _)
          · rcases i2 u hu with huq | hup
            · rw [w1] at huq
              rcases List.mem_append.1 huq with huq | huq
              · exact Or.inl (List.mem_cons_of_mem _ huq)
              · exact Or.inr (hnew u huq)
            · right
              by_contra hc
              exact hkeep u hc hup

theorem winv_step {g : Graph} (mate : List Int) {v : Nat} {q : List Nat} {pred : List Int}
    {d : Nat → Nat} (inv : WInv g pred d (v :: q)) :
    ∃ d1, WInv g (ab_step g mate v ⟨q, pred⟩).pred d1 (ab_step g mate v ⟨q, pred⟩).q := by
  obtain ⟨new, w1, _, w3, w4, w5⟩ := ab_step_writes g mate v ⟨q, pred⟩
  have hv := inv.queue v (List.mem_cons_self _ _)
  have hnew : ∀ u ∈ new, pred.getD u 0 = -2 := fun u hu => (w3 u hu).1
  have hdisc : ∀ x, pred.getD x 0 ≠ -2 → x ∉ new := fun x hx hmem => hx (hnew x hmem)
  refine ⟨fun x => if x ∈ new then d v + 1 else d x, ?_, ?_, ?_, ?_, ?_⟩
  · rw [w5]; exact inv.plen
  · intro w hw
    by_cases hmem : w ∈ new
    · right; right; exact ⟨v, hv.1, (w3 w hmem).2.1⟩
    · rw [w4 w hmem]; exact inv.rng w hw
  · intro w hw h
    have hmem : w ∉ new := by
      intro hmem; rw [(w3 w hmem).2.1] at h; omega
    rw [w4 w hmem] at h
    simp only [if_neg hmem]
    exact inv.root w hw h
  · intro w hw u h
    by_cases hmem : w ∈ new
    · rw [(w3 w hmem).2.1] at h
      have huv : v = u := by exact_mod_cast h
      subst huv
      have hvn := hdisc v hv.2
      rw [w4 v hvn]
      simp only [if_pos hmem, if_neg hvn]
      exact ⟨hv.2, trivial⟩
    · rw [w4 w hmem] at h
      obtain ⟨t1, t2⟩ := inv.tree w hw u h
      have hun := hdisc u t1
      rw [w4 u hun]
      simp only [if_neg hmem, if_neg hun]
      exact ⟨t1, t2⟩
  · intro u hu
    rw [w1] at hu
    rcases List.mem_append.1 hu with hu | hu
    · have := inv.queue u (List.mem_cons_of_mem _ hu)
      exact ⟨this.1, by rw [w4 u (hdisc u this.2)]; exact this.2⟩
    · refine ⟨?_, by rw [(w3 u hu).2.1]; omega⟩
      have := getD_neg_two_lt (hnew u hu)
      rw [inv.plen] at this
      exact this

theorem winv_init (g : Graph) (mate : List Int) :
    WInv g (ab_init_pred g.n (ab_roots g mate)) (fun _ => 0) (ab_roots g mate) := by
  have h := sinv_init g mate
  exact ⟨h.plen, h.rng, fun w hw hp => (h.root w hw hp).2.2,
    fun w hw v hp => ⟨(h.tree w hw v hp).1, (h.tree w hw v hp).2.1⟩, h.opn_disc⟩

theorem winv_bfs (g : Graph) (mate : List Int) (fuel : Nat) (pred : List Int)
    (h : ab_bfs g mate fuel ⟨ab_roots g mate, ab_init_pred g.n (ab_roots g mate)⟩ = some pred) :
    ∃ d, WInv g pred d [] :=
  ab_bfs_induct g mate (fun t => ∃ d, WInv g t.pred d t.q)
    (fun _ _ _ hP => by obtain ⟨d, hd⟩ := hP; exact winv_step mate hd) fuel _ pred h
    ⟨_, winv_init g mate⟩

theorem winv_levels {g : Graph} {pred : List Int} {d : Nat → Nat} {q : List Nat}
    (inv : WInv g pred d q) :
    ∀ (m w : Nat), w < g.n → pred.getD w 0 ≠ -2 → d w = m →
      ∀ k ≤ m, ∃ u < g.n, pred.getD u 0 ≠ -2 ∧ d u = k := by
  intro m
  induction m with
  | zero =>
    intro w hw hd hm k hk
    exact ⟨w, hw, hd, by omega⟩
  | succ m ih =>
    intro w hw hd hm k hk
    by_cases hkm : k = m + 1
    · exact ⟨w, hw, hd, by omega⟩
    · rcases inv.rng w hw with h | h | ⟨v, hv, h⟩
      · exact absurd h hd
      · have := inv.root w hw h; omega
      · obtain ⟨t1, t2⟩ := inv.tree w hw v h
        exact ih v hv t1 (by omega) k (by omega)

theorem winv_depth_lt {g : Graph} {pred : List Int} {d : Nat → Nat} {q : List Nat}
    (inv : WInv g pred d q) {w : Nat} (hw : w < g.n) (hd : pred.getD w 0 ≠ -2) :
    d w < g.n := by
  have hsub : Finset.range (d w + 1) ⊆ (Finset.range g.n).image d := by
    intro k hk
    obtain ⟨u, hu, _, hdu⟩ := winv_levels inv (d w) w hw hd rfl k
      (by have := Finset.mem_range.1 hk; omega)
    exact Finset.mem_image.2 ⟨u, Finset.mem_range.2 hu, hdu⟩
  have h1 := Finset.card_le_card hsub
  have h2 : ((Finset.range g.n).image d).card ≤ (Finset.range g.n).card := Finset.card_image_le
  simp at h1 h2
  omega

/-- On index-safe input the path-reconstruction loop started at a discovered vertex of depth
`m` stops after `m + 1` steps, the last vertex it appends being a root. -/
theorem winv_walk {g : Graph} {pred : List Int} {d : Nat → Nat} {q : List Nat}
    (inv : WInv g pred d q) :
    ∀ (m t : Nat), t < g.n → pred.getD t 0 ≠ -2 → d t = m →
      ∀ (fuel : Nat), m + 1 ≤ fuel → ∀ res : List Nat,
      ∃ c : List Nat, ab_walk pred fuel (t : Int) res = some (res ++ c) ∧
        c.length = m + 1 ∧ pred.getD (c.getD m 0) 0 = -1 := by
  intro m
  induction m with
  | zero =>
    intro t ht hd hm fuel hf res
    have hroot : pred.getD t 0 = -1 := by
      rcases inv.rng t ht with h | h | ⟨v, _, h⟩
      · exact absurd h hd
      · exact h
      · have := (inv.tree t ht v h).2; omega
    obtain ⟨f, rfl⟩ : ∃ f, fuel = f + 1 := ⟨fuel - 1, by omega⟩
    refine ⟨[t], ?_, rfl, by simpa using hroot⟩
    rw [ab_walk_succ, hroot, ab_walk_neg_one]
  | succ m ih =>
    intro t ht hd hm fuel hf res
    obtain ⟨v, hv, hpv⟩ : ∃ v < g.n, pred.getD t 0 = (v : Int) := by
      rcases inv.rng t ht with h | h | h
      · exact absurd h hd
      · have := inv.root t ht h; omega
      · exact h
    obtain ⟨t1, t2⟩ := inv.tree t ht v hpv
    obtain ⟨f, rfl⟩ : ∃ f, fuel = f + 1 := ⟨fuel - 1, by omega⟩
    obtain ⟨c, hc1, hc2, hc3⟩ := ih v hv t1 (by omega) f (by omega) (res ++ [t])
    refine ⟨t :: c, ?_, by simp [hc2], ?_⟩
    · rw [ab_walk_succ, hpv, hc1]
      simp
    · simp only [List.getD_cons_succ]; exact hc3

/-- C20: on index-safe input (in-range adjacency lists, `part` and `mate` of length `n`,
entries of `mate` in `{-1} ∪ [0, n)`, no assumption that `part` is proper or `mate` a matching)
the search loop of `augmenting_bipartite` dequeues pairwise distinct vertices, at most `n` of
them, an iteration never rewrites a `pred` entry that has left `-2`, the pred links from any
discovered vertex reach a root within `n` steps, and `augmenting_bipartite` returns. -/
theorem augmenting_bipartite_total (g : Graph) (mate : List Int) (fuel : Nat) (res : List Nat)
    (_hr : g.InRange) (_hp : g.part.length = g.n) (_hml : mate.length = g.n)
    (_hme : ∀ x ∈ mate, x = -1 ∨ (0 ≤ x ∧ x < g.n)) (hf : g.n ≤ fuel) :
    ∃ order pred,
      ab_bfs_order g mate fuel ⟨ab_roots g mate, ab_init_pred g.n (ab_roots g mate)⟩
        = some (order, pred) ∧
      ab_bfs g mate fuel ⟨ab_roots g mate, ab_init_pred g.n (ab_roots g mate)⟩ = some pred ∧
      order.Nodup ∧ order.length ≤ g.n ∧
      (∀ (v : Nat) (s : SearchState) (x : Nat), s.pred.getD x 0 ≠ -2 →
        (ab_step g mate v s).pred.getD x 0 = s.pred.getD x 0) ∧
      (∀ t < g.n, pred.getD t 0 ≠ -2 → ∀ r : List Nat,
        ∃ c : List Nat, ab_walk pred fuel (t : Int) r = some (r ++ c) ∧ c.length ≤ g.n ∧
          pred.getD (c.getD (c.length - 1) 0) 0 = -1) ∧
      ∃ out, augmenting_bipartite fuel g mate res = some out := by
  obtain ⟨pred, hbfs⟩ := ab_bfs_total g mate fuel
    ⟨ab_roots g mate, ab_init_pred g.n (ab_roots g mate)⟩
    (by rw [ab_init_measure]; exact hf)
  have hsnd := ab_bfs_order_snd g mate fuel
    ⟨ab_roots g mate, ab_init_pred g.n (ab_roots g mate)⟩
  rw [hbfs] at hsnd
  cases hord : ab_bfs_order g mate fuel
      ⟨ab_roots g mate, ab_init_pred g.n (ab_roots g mate)⟩ with
  | none => rw [hord] at hsnd; simp at hsnd
  | some r =>
    obtain ⟨order, pred1⟩ := r
    rw [hord] at hsnd
    have hpp : pred1 = pred := by simpa using hsnd.symm
    subst hpp
    have hI := sinv_init g mate
    obtain ⟨n1, n2⟩ := ab_bfs_order_nodup g mate fuel _ _ hord
      (by unfold ab_roots; exact List.Nodup.filter _ (List.nodup_range _))
      (fun u hu => (hI.opn_disc u hu).2)
    obtain ⟨d, inv⟩ := winv_bfs g mate fuel pred1 hbfs
    have hlen : order.length ≤ g.n := by
      have hsub : order.toFinset ⊆ Finset.range g.n := by
        intro u hu
        rcases n2 u (List.mem_toFinset.1 hu) with h | h
        · exact Finset.mem_range.2 (hI.opn_disc u h).1
        · have := getD_neg_two_lt h
          rw [hI.plen] at this
          exact Finset.mem_range.2 this
      have := Finset.card_le_card hsub
      rwa [List.toFinset_card_of_nodup n1, Finset.card_range] at this
    have hwalk : ∀ t < g.n, pred1.getD t 0 ≠ -2 → ∀ r : List Nat,
        ∃ c : List Nat, ab_walk pred1 fuel (t : Int) r = some (r ++ c) ∧ c.length ≤ g.n ∧
          pred1.getD (c.getD (c.length - 1) 0) 0 = -1 := by
      intro t ht hd r
      have hdl := winv_depth_lt inv ht hd
      obtain ⟨c, c1, c2, c3⟩ := winv_walk inv (d t) t ht hd rfl fuel (by omega) r
      refine ⟨c, c1, by omega, ?_⟩
      rw [c2]; simpa using c3
    refine ⟨order, pred1, rfl, hbfs, n1, hlen, ?_, hwalk, ?_⟩
    · intro v s x hx
      obtain ⟨new, _, _, w3, w4, _⟩ := ab_step_writes g mate v s
      exact w4 x (fun hmem => hx (w3 x hmem).1)
    · simp only [augmenting_bipartite, hbfs]
      rcases ab_scan_spec g mate pred1 fuel res (List.range g.n) with ⟨h1, _⟩ | ⟨t, ht, hct, h⟩
      · exact ⟨_, h1⟩
      · have htn := List.mem_range.1 ht
        obtain ⟨c, c1, _⟩ := hwalk t htn (by have := hct.1; omega) res
        rw [h, c1]
        exact ⟨_, rfl⟩

theorem augmenting_bipartite_total_witness :
    ∃ order pred,
      ab_bfs_order ⟨3, 2, [true, true, false], [[1], [0, 2], [1]]⟩ [1, 2, -1] 3
        ⟨ab_roots ⟨3, 2, [true, true, false], [[1], [0, 2], [1]]⟩ [1, 2, -1],
          ab_init_pred (⟨3, 2, [true, true, false], [[1], [0, 2], [1]]⟩ : Graph).n
            (ab_roots ⟨3, 2, [true, true, false], [[1], [0, 2], [1]]⟩ [1, 2, -1])⟩
        = some (order, pred) ∧
      ab_bfs ⟨3, 2, [true, true, false], [[1], [0, 2], [1]]⟩ [1, 2, -1] 3
        ⟨ab_roots ⟨3, 2, [true, true, false], [[1], [0, 2], [1]]⟩ [1, 2, -1],
          ab_init_pred (⟨3, 2, [true, true, false], [[1], [0, 2], [1]]⟩ : Graph).n
            (ab_roots ⟨3, 2, [true, true, false], [[1], [0, 2], [1]]⟩ [1, 2, -1])⟩ = some pred ∧
      order.Nodup ∧
      order.length ≤ (⟨3, 2, [true, true, false], [[1], [0, 2], [1]]⟩ : Graph).n ∧
      (∀ (v : Nat) (s : SearchState) (x : Nat), s.pred.getD x 0 ≠ -2 →
        (ab_step ⟨3, 2, [true, true, false], [[1], [0, 2], [1]]⟩ [1, 2, -1] v s).pred.getD x 0
          = s.pred.getD x 0) ∧
      (∀ t < (⟨3, 2, [true, true, false], [[1], [0, 2], [1]]⟩ : Graph).n,
        pred.getD t 0 ≠ -2 → ∀ r : List Nat,
        ∃ c : List Nat, ab_walk pred 3 (t : Int) r = some (r ++ c) ∧
          c.length ≤ (⟨3, 2, [true, true, false], [[1], [0, 2], [1]]⟩ : Graph).n ∧
          pred.getD (c.getD (c.length - 1) 0) 0 = -1) ∧
      ∃ out, augmenting_bipartite 3 ⟨3, 2, [true, true, false], [[1], [0, 2], [1]]⟩
        [1, 2, -1] [] = some out :=
  augmenting_bipartite_total ⟨3, 2, [true, true, false], [[1], [0, 2], [1]]⟩ [1, 2, -1] 3 []
    (by decide) (by decide) (by decide) (by decide) (by decide)

/-! ### Matching number of a disjoint union -/

/-- The edge set encoded by a valid mate vector of a properly coloured graph: one ordered pair
per matched vertex labelled `true`. -/
theorem matching_of_mate {g : Graph} {mate : List Int} {c : Nat → Bool}
    (hc : ProperColouring g c) (hm : ValidMatching g mate) :
    ∃ M : Finset (Nat × Nat), IsMatchingOf g M ∧ M.card = (matchedX g.n c mate).card := by
  refine ⟨(matchedX g.n c mate).image (fun v => (v, (mate.getD v 0).toNat)), ?_, ?_⟩
  · have hfacts : ∀ e ∈ (matchedX g.n c mate).image (fun v => (v, (mate.getD v 0).toNat)),
        e.1 < g.n ∧ e.2 ∈ g.nbrs e.1 ∧ c e.1 = true ∧ c e.2 = false ∧
          mate.getD e.1 0 = (e.2 : Int) ∧ mate.getD e.2 0 = (e.1 : Int) := by
      intro e he
      obtain ⟨v, hv, rfl⟩ := Finset.mem_image.1 he
      obtain ⟨hvn, hcv, hmv⟩ := mem_matchedX.1 hv
      obtain ⟨w, _, w1, w2, w3⟩ := matched_partner hm hvn hmv
      have hne := hc v hvn w w2
      simp only [w1, Int.toNat_ofNat]
      refine ⟨hvn, w2, hcv, ?_, trivial, w3⟩
      rw [hcv] at hne
      revert hne; cases c w <;> simp
    constructor
    · intro e he
      exact ⟨(hfacts e he).1, (hfacts e he).2.1⟩
    · intro e1 he1 e2 he2 hne
      obtain ⟨_, _, a3, a4, a5, a6⟩ := hfacts e1 he1
      obtain ⟨_, _, b3, b4, b5, b6⟩ := hfacts e2 he2
      have h11 : e1.1 ≠ e2.1 := by
        intro h
        apply hne
        rw [h] at a5
        have : e1.2 = e2.2 := by rw [a5] at b5; exact_mod_cast b5
        exact Prod.ext h this
      refine ⟨h11, ?_, ?_, ?_⟩
      · intro h; rw [h, b4] at a3; simp at a3
      · intro h; rw [h, b3] at a4; simp at a4
      · intro h
        rw [h, b6] at a6
        exact h11 (by exact_mod_cast a6.symm)
  · exact Finset.card_image_of_injective _ (fun a b h => by simpa using congrArg Prod.fst h)

/-- On a bipartite graph the driver returns a matching whose size is the matching number of
the graph: no matching is larger, and some matching has exactly that many edges. -/
theorem mcm_matching_number (g : Graph) (fuel : Nat) (hr : g.InRange) (hs : g.Symmetric)
    (hb : g.Bipartite) (hf : g.n < fuel) :
    ∃ g1 mate1 k, g.maximum_cardinality_matching fuel (List.replicate g.n (-1))
        = some (g1, mate1) ∧ matching_size mate1 = some k ∧
      (∀ M : Finset (Nat × Nat), IsMatchingOf g M → M.card ≤ k) ∧
      ∃ M : Finset (Nat × Nat), IsMatchingOf g M ∧ M.card = k := by
  obtain ⟨part, mate1, _, h2, h3, h4, h5, _, h7⟩ := mcm_spec g hr hs fuel hf
  have hb1 := h3 hb
  obtain ⟨h8, h9⟩ := h7 hb1
  have hc : ProperColouring g (fun v => part.getD v false) :=
    (bip_check_true g.adj part g.n).1 hb1
  exact ⟨_, mate1, _, h4, (matching_size_of_card h8).2, h9, matching_of_mate hc h5⟩

theorem union_matching_join (g1 g2 : Graph) (h1 : g1.InRange) (h2 : g2.InRange)
    (s1 : g1.Symmetric) (s2 : g2.Symmetric) (M1 M2 : Finset (Nat × Nat))
    (hM1 : IsMatchingOf g1 M1) (hM2 : IsMatchingOf g2 M2) :
    ∃ M, IsMatchingOf (g1.union g2) M ∧ M.card = M1.card + M2.card := by
  have hE := union_edges_symmetric g1 g2 h1 h2 s1 s2
  have hlow : ∀ e ∈ M1, e.1 < g1.n ∧ e.2 < g1.n :=
    fun e he => ⟨(hM1.1 e he).1, Graph.nbrs_lt h1 (hM1.1 e he).2⟩
  have hinj : Function.Injective (fun e : Nat × Nat => (e.1 + g1.n, e.2 + g1.n)) := by
    intro a b h
    simp only [Prod.mk.injEq] at h
    exact Prod.ext (by omega) (by omega)
  refine ⟨M1 ∪ M2.image (fun e => (e.1 + g1.n, e.2 + g1.n)), ⟨?_, ?_⟩, ?_⟩
  · intro e he
    rcases Finset.mem_union.1 he with he | he
    · exact ⟨by rw [hE.n_eq]; have := (hlow e he).1; omega,
        (hE.mem _ _).2 (Or.inl (hM1.1 e he).2)⟩
    · obtain ⟨e0, he0, rfl⟩ := Finset.mem_image.1 he
      exact ⟨by rw [hE.n_eq]; have := (hM2.1 e0 he0).1; dsimp only; omega,
        (hE.mem _ _).2 (Or.inr ⟨e0.1, e0.2, rfl, rfl, (hM2.1 e0 he0).2⟩)⟩
  · intro e1 he1 e2 he2 hne
    rcases Finset.mem_union.1 he1 with he1 | he1 <;>
      rcases Finset.mem_union.1 he2 with he2 | he2
    · exact hM1.2 e1 he1 e2 he2 hne
    · obtain ⟨e0, _, rfl⟩ := Finset.mem_image.1 he2
      have := hlow e1 he1
      dsimp only
      omega
    · obtain ⟨e0, _, rfl⟩ := Finset.mem_image.1 he1
      have := hlow e2 he2
      dsimp only
      omega
    · obtain ⟨a, ha, rfl⟩ := Finset.mem_image.1 he1
      obtain ⟨b, hb, rfl⟩ := Finset.mem_image.1 he2
      have hab : a ≠ b := by rintro rfl; exact hne rfl
      have := hM2.2 a ha b hb hab
      dsimp only
      omega
  · rw [Finset.card_union_of_disjoint, Finset.card_image_of_injective _ hinj]
    rw [Finset.disjoint_left]
    intro e he he2
    obtain ⟨e0, _, rfl⟩ := Finset.mem_image.1 he2
    have := (hlow _ he).1
    dsimp only at this
    omega

theorem union_matching_split (g1 g2 : Graph) (h1 : g1.InRange) (h2 : g2.InRange)
    (s1 : g1.Symmetric) (s2 : g2.Symmetric) (M : Finset (Nat × Nat))
    (hM : IsMatchingOf (g1.union g2) M) :
    ∃ A B, IsMatchingOf g1 A ∧ IsMatchingOf g2 B ∧ M.card = A.card + B.card := by
  have hE := union_edges_symmetric g1 g2 h1 h2 s1 s2
  have hedge : ∀ e ∈ M, (e.1 < g1.n ∧ e.2 ∈ g1.nbrs e.1) ∨
      (g1.n ≤ e.1 ∧ g1.n ≤ e.2 ∧ e.1 - g1.n < g2.n ∧ (e.2 - g1.n) ∈ g2.nbrs (e.1 - g1.n)) := by
    intro e he
    rcases (hE.mem _ _).1 (hM.1 e he).2 with h | ⟨a, b, hx, hy, h⟩
    · left
      have := Graph.nbrs_index_lt h
      rw [h1.1] at this
      exact ⟨this, h⟩
    · right
      have := Graph.nbrs_index_lt h
      rw [h2.1] at this
      rw [hx, hy]
      simp only [Nat.add_sub_cancel]
      exact ⟨by omega, by omega, this, h⟩
  have hhigh : ∀ e ∈ M.filter (fun e => ¬ e.1 < g1.n),
      e ∈ M ∧ g1.n ≤ e.1 ∧ g1.n ≤ e.2 ∧ e.1 - g1.n < g2.n ∧
        (e.2 - g1.n) ∈ g2.nbrs (e.1 - g1.n) := by
    intro e he
    obtain ⟨heM, hlt⟩ := Finset.mem_filter.1 he
    rcases hedge e heM with h | h
    · exact absurd h.1 hlt
    · exact ⟨heM, h⟩
  refine ⟨M.filter (fun e => e.1 < g1.n),
    (M.filter (fun e => ¬ e.1 < g1.n)).image (fun e => (e.1 - g1.n, e.2 - g1.n)),
    ⟨?_, ?_⟩, ⟨?_, ?_⟩, ?_⟩
  · intro e he
    obtain ⟨heM, hlt⟩ := Finset.mem_filter.1 he
    rcases hedge e heM with h | h
    · exact h
    · omega
  · intro e1 he1 e2 he2 hne
    exact hM.2 e1 (Finset.mem_filter.1 he1).1 e2 (Finset.mem_filter.1 he2).1 hne
  · intro e he
    obtain ⟨e0, he0, rfl⟩ := Finset.mem_image.1 he
    obtain ⟨_, _, _, k3, k4⟩ := hhigh e0 he0
    exact ⟨k3, k4⟩
  · intro e1 he1 e2 he2 hne
    obtain ⟨a, ha, rfl⟩ := Finset.mem_image.1 he1
    obtain ⟨b, hb, rfl⟩ := Finset.mem_image.1 he2
    obtain ⟨aM, a1, a2, _⟩ := hhigh a ha
    obtain ⟨bM, b1, b2, _⟩ := hhigh b hb
    have hab : a ≠ b := by rintro rfl; exact hne rfl
    have := hM.2 a aM b bM hab
    dsimp only
    omega
  · rw [Finset.card_image_of_injOn, Finset.filter_card_add_filter_neg_card_eq_card]
    intro a ha b hb h
    obtain ⟨_, a1, a2, _⟩ := hhigh a (Finset.mem_coe.1 ha)
    obtain ⟨_, b1, b2, _⟩ := hhigh b (Finset.mem_coe.1 hb)
    simp only [Prod.mk.injEq] at h
    exact Prod.ext (by omega) (by omega)

/-- C13: for bipartite graphs `g1`, `g2` with in-range, symmetric adjacency lists, on which
`maximum_cardinality_matching` from the all `-1` vector returns matchings of sizes `s1` and
`s2`, the same routine on the disjoint union `g1 + g2` returns a matching of size
`s1 + s2`. -/
theorem union_matching_size (g1 g2 : Graph) (fuel : Nat) (h1 : g1.InRange) (h2 : g2.InRange)
    (s1 : g1.Symmetric) (s2 : g2.Symmetric) (b1 : g1.Bipartite) (b2 : g2.Bipartite)
    (hf : g1.n + g2.n < fuel) :
    ∃ r1 m1 r2 m2 r m k1 k2,
      g1.maximum_cardinality_matching fuel (List.replicate g1.n (-1)) = some (r1, m1) ∧
      g2.maximum_cardinality_matching fuel (List.replicate g2.n (-1)) = some (r2, m2) ∧
      (g1.union g2).maximum_cardinality_matching fuel (List.replicate (g1.n + g2.n) (-1))
        = some (r, m) ∧
      matching_size m1 = some k1 ∧ matching_size m2 = some k2 ∧
      matching_size m = some (k1 + k2) := by
  obtain ⟨hr, hs⟩ := union_inRange_symmetric g1 g2 h1 h2 s1 s2
  have hn := (union_edges_symmetric g1 g2 h1 h2 s1 s2).n_eq
  have hb := (union_bipartite_iff g1 g2 h1 h2 s1 s2).2 ⟨b1, b2⟩
  obtain ⟨r1, m1, k1, e1, z1, u1, M1, a1, c1⟩ := mcm_matching_number g1 fuel h1 s1 b1 (by omega)
  obtain ⟨r2, m2, k2, e2, z2, u2, M2, a2, c2⟩ := mcm_matching_number g2 fuel h2 s2 b2 (by omega)
  obtain ⟨r, m, k, e, z, u, M, a, c⟩ := mcm_matching_number (g1.union g2) fuel hr hs hb
    (by omega)
  rw [hn] at e
  obtain ⟨J, j1, j2⟩ := union_matching_join g1 g2 h1 h2 s1 s2 M1 M2 a1 a2
  obtain ⟨A, B, p1, p2, p3⟩ := union_matching_split g1 g2 h1 h2 s1 s2 M a
  have hle := u J j1
  have hA := u1 A p1
  have hB := u2 B p2
  have hk : k = k1 + k2 := by omega
  rw [hk] at z
  exact ⟨r1, m1, r2, m2, r, m, k1, k2, e1, e2, e, z1, z2, z⟩

theorem union_matching_size_witness :
    ∃ r1 m1 r2 m2 r m k1 k2,
      (Graph.path 2).maximum_cardinality_matching 6
        (List.replicate (Graph.path 2).n (-1)) = some (r1, m1) ∧
      (Graph.path 3).maximum_cardinality_matching 6
        (List.replicate (Graph.path 3).n (-1)) = some (r2, m2) ∧
      ((Graph.path 2).union (Graph.path 3)).maximum_cardinality_matching 6
        (List.replicate ((Graph.path 2).n + (Graph.path 3).n) (-1)) = some (r, m) ∧
      matching_size m1 = some k1 ∧ matching_size m2 = some k2 ∧
      matching_size m = some (k1 + k2) :=
  union_matching_size (Graph.path 2) (Graph.path 3) 6 (by decide) (by decide) (by decide)
    (by decide) ⟨fun v => decide (v % 2 = 0), by decide⟩ ⟨fun v => decide (v % 2 = 0), by decide⟩
    (by decide)

end Matchings
